import Mathlib

namespace DocxSpec

/-!
Verification of the format-preserving segmentation/reconstruction pipeline
of the docx translation system, as a shallow embedding in Lean 4.

Modelling conventions (shared by every definition below):

* Python strings are `List Char` (`Str`).  `str.strip()` is modelled with
  the ASCII whitespace class; Python's `str.isalnum` is modelled by
  `Char.isAlphanum` (ASCII approximation — none of the proved properties
  depend on the exact alphanumeric class).
* `xml.etree.ElementTree.Element` is the nested inductive `Elem`:
  tag (fully qualified Clark name), attribute list, optional text, and a
  list of children.  `tail` attributes are not modelled (they are never
  consulted by the code under verification).  `copy_element` performs a
  structural deep copy, which is the identity on values in this model.
* `element.find('w:x')` / `find(f"{...}x")` is a first-match scan over the
  direct children; `element.find('.//w:x')` / `findall('.//w:x')` walk the
  strict descendants in document (pre-)order.
* Stdlib `ElementTree` elements have no `getparent` method; the call in
  `reconstruct_translated_paragraph` therefore raises `AttributeError`,
  modelled with `Except RecError`.
-/


/-- Python strings, modelled as lists of characters. -/
abbrev Str := List Char

/-- ASCII whitespace, modelling Python's `str.strip()` / `str.split()` class. -/
def isPySpace (c : Char) : Bool :=
  c = ' ' || c = '\t' || c = '\n' || c = '\r' || c = Char.ofNat 11 || c = Char.ofNat 12

/-- Drop trailing characters satisfying `p` (helper for `pyStrip`). -/
def dropEndWhile (p : Char → Bool) (s : Str) : Str :=
  (s.reverse.dropWhile p).reverse

/-- Python `str.strip()` (no argument): remove leading and trailing whitespace. -/
def pyStrip (s : Str) : Str :=
  dropEndWhile isPySpace (s.dropWhile isPySpace)

/-- Python `str.strip(chars)`: remove leading and trailing characters from `cs`. -/
def pyStripSet (cs : List Char) (s : Str) : Str :=
  dropEndWhile (fun c => cs.contains c) (s.dropWhile (fun c => cs.contains c))

/-- Python `s.lower()` (ASCII case folding; CJK characters are unaffected). -/
def pyLower (s : Str) : Str := s.map Char.toLower

/-- Boolean prefix test on character lists. -/
def isPref : Str → Str → Bool
  | [], _ => true
  | _ :: _, [] => false
  | a :: as, b :: bs => a = b && isPref as bs

/-- Python `pat in s` (substring containment) for a pattern `pat`. -/
def containsSub (pat : Str) : Str → Bool
  | [] => isPref pat []
  | c :: cs => isPref pat (c :: cs) || containsSub pat cs

/-- Scanner for `countSub`: when `skip` is positive, that many characters of a
previously matched occurrence remain to be consumed without rescanning — the
structural rendering of Python's jump past each non-overlapping match. -/
def countSubAux (pat : Str) : Nat → Str → Nat
  | _, [] => 0
  | k + 1, _ :: cs => countSubAux pat k cs
  | 0, c :: cs =>
    if isPref pat (c :: cs) then 1 + countSubAux pat (pat.length - 1) cs
    else countSubAux pat 0 cs

/-- Python `s.count(pat)` for a non-empty pattern: number of non-overlapping
occurrences, scanning left to right.  (The empty-pattern guard is unreachable
here; the only patterns used are `【SEG】` and `<placeholder>`.) -/
def countSub (pat : Str) (s : Str) : Nat :=
  if pat.isEmpty then 0 else countSubAux pat 0 s

/-- Scanner for `splitOnStr`: `acc` is the chunk built so far, and a positive
`skip` consumes the remaining characters of a matched separator. -/
def splitAux (pat : Str) : Nat → Str → Str → List Str
  | _, acc, [] => [acc]
  | k + 1, acc, _ :: cs => splitAux pat k acc cs
  | 0, acc, c :: cs =>
    if isPref pat (c :: cs) then acc :: splitAux pat (pat.length - 1) [] cs
    else splitAux pat 0 (acc ++ [c]) cs

/-- Python `s.split(pat)`.  Python raises `ValueError` on an empty separator;
that branch is unreachable here (the only separator used is `【SEG】`), and we
return `[s]` for totality. -/
def splitOnStr (pat : Str) (s : Str) : List Str :=
  if pat.isEmpty then [s] else splitAux pat 0 [] s

/-- Join a list of chunks with a separator between consecutive entries — the
value of `"".join(text_for_llm_parts)` where the code appends the separator
before every entry except the first. -/
def joinSep (sep : Str) : List Str → Str
  | [] => []
  | [x] => x
  | x :: y :: xs => x ++ sep ++ joinSep sep (y :: xs)

/-- An `xml.etree.ElementTree.Element`: tag, attributes, text, children. -/
inductive Elem : Type where
  | mk (tag : String) (attrs : List (String × String)) (text : Option Str)
       (children : List Elem) : Elem

/-- The element's fully qualified tag. -/
def Elem.tag : Elem → String
  | .mk t _ _ _ => t

/-- The element's attribute list (a dict in Python; keys are unique there). -/
def Elem.attrs : Elem → List (String × String)
  | .mk _ a _ _ => a

/-- The element's `.text` field. -/
def Elem.text : Elem → Option Str
  | .mk _ _ x _ => x

/-- The element's list of children. -/
def Elem.children : Elem → List Elem
  | .mk _ _ _ cs => cs

/-- Rebuild an element with new children (models in-place child mutation). -/
def Elem.withChildren (e : Elem) (cs : List Elem) : Elem :=
  .mk e.tag e.attrs e.text cs

/-- Size measure used for strong induction over the nested tree type. -/
def Elem.size : Elem → Nat
  | .mk _ _ _ cs => 1 + sizeList cs
where
  /-- Total size of a forest. -/
  sizeList : List Elem → Nat
    | [] => 0
    | c :: cs => Elem.size c + sizeList cs

/-! ### Namespace constants (`constants.NAMESPACES`) and Clark-name tags -/

/-- The `w` wordprocessingml namespace URI. -/
def wNS : String := "http://schemas.openxmlformats.org/wordprocessingml/2006/main"

/-- The `m` math namespace URI. -/
def mNS : String := "http://schemas.openxmlformats.org/officeDocument/2006/math"

/-- The `xml` namespace URI. -/
def xmlNS : String := "http://www.w3.org/XML/1998/namespace"

/-- Clark name `{ns}local`, as produced by `f"{{{NAMESPACES[p]}}}local"`. -/
def clark (ns localName : String) : String := "\x7b" ++ ns ++ "\x7d" ++ localName

def wP : String := clark wNS "p"

def wR : String := clark wNS "r"

def wT : String := clark wNS "t"

def wRPr : String := clark wNS "rPr"

def wPPr : String := clark wNS "pPr"

def wPStyle : String := clark wNS "pStyle"

def wRStyle : String := clark wNS "rStyle"

def wRFonts : String := clark wNS "rFonts"

def wLang : String := clark wNS "lang"

def wHyperlink : String := clark wNS "hyperlink"

def wFldChar : String := clark wNS "fldChar"

def wInstrText : String := clark wNS "instrText"

def wDrawing : String := clark wNS "drawing"

def wObject : String := clark wNS "object"

def wPict : String := clark wNS "pict"

def wStyleTag : String := clark wNS "style"

def wName : String := clark wNS "name"

def wBasedOn : String := clark wNS "basedOn"

def wSz : String := clark wNS "sz"

def wB : String := clark wNS "b"

def mOMath : String := clark mNS "oMath"

def mOMathPara : String := clark mNS "oMathPara"

def mR : String := clark mNS "r"

def mT : String := clark mNS "t"

def mRPr : String := clark mNS "rPr"

/-- Attribute Clark names used by the code. -/
def wValA : String := clark wNS "val"

def wStyleIdA : String := clark wNS "styleId"

def wTypeA : String := clark wNS "type"

def wHintA : String := clark wNS "hint"

def wAsciiA : String := clark wNS "ascii"

def wHAnsiA : String := clark wNS "hAnsi"

def wEastAsiaA : String := clark wNS "eastAsia"

def xmlSpaceA : String := clark xmlNS "space"

/-- `PLACEHOLDER_TAG = "<placeholder>"` from `constants.py`. -/
def placeholderStr : Str := "<placeholder>".toList

/-- `SEGMENT_SEPARATOR = "【SEG】"` from `parse_paragraph_structure`. -/
def sepStr : Str := ['【', 'S', 'E', 'G', '】']

/-! ### Generic element operations (ElementTree API fragments) -/

/-- `element.find('tag')`: first direct child with the given tag. -/
def findByTag (t : String) : List Elem → Option Elem
  | [] => none
  | c :: cs => if c.tag = t then some c else findByTag t cs

/-- `element.get(key)`: first-match attribute lookup. -/
def getAttr (k : String) (e : Elem) : Option String :=
  (e.attrs.find? (fun kv => kv.1 = k)).map (·.2)

/-- `element.set(key, value)`: replace the value in place, or append. -/
def setAttr (k v : String) : List (String × String) → List (String × String)
  | [] => [(k, v)]
  | kv :: rest => if kv.1 = k then (k, v) :: rest else kv :: setAttr k v rest

/-- Remove the first child carrying tag `t` (models
`existing = parent.find(tag); parent.remove(existing)`). -/
def removeFirstTag (t : String) : List Elem → List Elem
  | [] => []
  | c :: cs => if c.tag = t then cs else c :: removeFirstTag t cs

/-- Replace the first child carrying tag `t` by `v` (in-place mutation of the
found child). -/
def replaceFirstTag (t : String) (v : Elem) : List Elem → List Elem
  | [] => []
  | c :: cs => if c.tag = t then v :: cs else c :: replaceFirstTag t v cs

/-- Insert `v` directly after the first child carrying tag `t`
(models `parent.insert(list(parent).index(found) + 1, v)`). -/
def insertAfterFirstTag (t : String) (v : Elem) : List Elem → List Elem
  | [] => [v]
  | c :: cs => if c.tag = t then c :: v :: cs else c :: insertAfterFirstTag t v cs

mutual

/-- Strict descendants of an element in document (pre-)order —
the result sequence of `element.findall('.//*')`. -/
def descendants : Elem → List Elem
  | .mk _ _ _ cs => descList cs
termination_by structural e => e

/-- All elements of a forest together with their descendants, in order. -/
def descList : List Elem → List Elem
  | [] => []
  | c :: cs => c :: (descendants c ++ descList cs)
termination_by structural l => l

end

/-- `element.find('.//tag') is not None` specialised to a Boolean predicate. -/
def existsDesc (p : Elem → Bool) (e : Elem) : Bool :=
  (descendants e).any p

/-- `element.find('.//tag')`: first matching strict descendant in document
order. -/
def findFirstDesc (p : Elem → Bool) (e : Elem) : Option Elem :=
  (descendants e).find? p

/-- `len(element.findall('.//tag'))`. -/
def countDesc (p : Elem → Bool) (e : Elem) : Nat :=
  ((descendants e).filter p).length

/-! ### Run-property comparison (`_compare_rpr_elements` and helpers)

Python dicts are modelled as association lists compared by lookup semantics
(`amEq`, `nmEq`), which coincides with dict equality because the dicts built
by the code have unique keys (`setEntry` overwrites in place). -/

/-- An attribute dict `{attr: value}`. -/
abbrev AttrMap := List (String × String)

/-- A normalized rPr dict `{tag: {attr: value}}`. -/
abbrev NormMap := List (String × AttrMap)

/-- Dict lookup on an attribute map. -/
def amLookup (k : String) (d : AttrMap) : Option String :=
  (d.find? (fun kv => kv.1 = k)).map (·.2)

/-- Dict equality of two attribute maps (Python `==` on dicts). -/
def amEq (a b : AttrMap) : Bool :=
  (a.map Prod.fst ++ b.map Prod.fst).all (fun k => amLookup k a == amLookup k b)

/-- Dict lookup on a normalized rPr map. -/
def nmLookup (k : String) (d : NormMap) : Option AttrMap :=
  (d.find? (fun kv => kv.1 = k)).map (·.2)

/-- Value equality of two optional attribute maps. -/
def optAmEq : Option AttrMap → Option AttrMap → Bool
  | none, none => true
  | some u, some v => amEq u v
  | _, _ => false

/-- Dict equality of two normalized rPr maps (values compared as dicts). -/
def nmEq (a b : NormMap) : Bool :=
  (a.map Prod.fst ++ b.map Prod.fst).all (fun k => optAmEq (nmLookup k a) (nmLookup k b))

/-- Dict assignment `d[k] = v`: overwrite in place or append. -/
def setEntry (k : String) (v : AttrMap) : NormMap → NormMap
  | [] => [(k, v)]
  | kv :: rest => if kv.1 = k then (k, v) :: rest else kv :: setEntry k v rest

/-- One child of a `w:rPr` as `_extract_normalized_attributes` sees it:
`none` when the child is a `w:rFonts` that becomes empty after removing the
`w:hint` attribute (and has no children), otherwise its (tag, attrs) entry
with `w:hint` stripped from `w:rFonts`. -/
def normChild (c : Elem) : Option (String × AttrMap) :=
  if c.tag = wRFonts then
    let v := c.attrs.filter (fun kv => kv.1 ≠ wHintA)
    if v.isEmpty && c.children.isEmpty then none else some (c.tag, v)
  else some (c.tag, c.attrs)

/-- `_extract_normalized_attributes(rpr)`. -/
def extract_normalized_attributes (rpr : Elem) : NormMap :=
  rpr.children.foldl
    (fun acc c =>
      match normChild c with
      | none => acc
      | some kv => setEntry kv.1 kv.2 acc)
    []

/-- `_is_empty_rpr_after_normalization(rpr)`. -/
def is_empty_rpr_after_normalization (rpr : Elem) : Bool :=
  (extract_normalized_attributes rpr).isEmpty

/-- `_compare_rpr_elements(rpr1, rpr2)`. -/
def compare_rpr_elements (rpr1 rpr2 : Option Elem) : Bool :=
  match rpr1, rpr2 with
  | none, none => true
  | some r, none => is_empty_rpr_after_normalization r
  | none, some r => is_empty_rpr_after_normalization r
  | some a, some b => nmEq (extract_normalized_attributes a) (extract_normalized_attributes b)

/-- Semantic relation underlying `optAmEq`. -/
def OptAmRel : Option AttrMap → Option AttrMap → Prop
  | none, none => True
  | some u, some v => ∀ j, amLookup j u = amLookup j v
  | _, _ => False

/-- Semantic relation underlying `nmEq`: pointwise dict equality. -/
def NmRel (a b : NormMap) : Prop := ∀ k, OptAmRel (nmLookup k a) (nmLookup k b)

/-- Normalized form of an optional rPr: absence normalizes to the empty dict. -/
def normO : Option Elem → NormMap
  | none => []
  | some r => extract_normalized_attributes r

/-! ### `select_consistent_style` and the greedy run-merge loop -/

/-- The run's direct `w:rPr` child, if any. -/
def rprOfRun (r : Elem) : Option Elem := findByTag wRPr r.children

/-- `select_consistent_style(runs)`: compare every later run's rPr against the
first run's; on success return a copy of the first rPr (or a fresh empty
`w:rPr` when the first run has none). -/
def select_consistent_style (runs : List Elem) : Option Elem :=
  match runs with
  | [] => none
  | r0 :: rest =>
    let f := rprOfRun r0
    if rest.all (fun r => compare_rpr_elements f (rprOfRun r)) then
      match f with
      | some x => some x
      | none => some (Elem.mk wRPr [] none [])
    else none

/-- Whether two runs have comparator-equal run properties. -/
def compat (a b : Elem) : Bool := compare_rpr_elements (rprOfRun a) (rprOfRun b)

/-- The run detected as carrying special (non-text) content by
`parse_paragraph_structure`: field codes, instruction text, drawings,
embedded objects or pictures anywhere among its descendants. -/
def hasSpecialContent (r : Elem) : Bool :=
  existsDesc (fun e => e.tag = wFldChar) r ||
  existsDesc (fun e => e.tag = wInstrText) r ||
  existsDesc (fun e => e.tag = wDrawing) r ||
  existsDesc (fun e => e.tag = wObject) r ||
  existsDesc (fun e => e.tag = wPict) r

/-- The inner `while j < len(children)` loop: greedily extend the group with
the next sibling while it is a `w:r` and `select_consistent_style` accepts the
extended group.  Returns the final group and the unconsumed remainder. -/
def takeGroup (grp : List Elem) : List Elem → List Elem × List Elem
  | [] => (grp, [])
  | c :: cs =>
    if c.tag = wR then
      if (select_consistent_style (grp ++ [c])).isSome then takeGroup (grp ++ [c]) cs
      else (grp, c :: cs)
    else (grp, c :: cs)

/-! ### Segments and `parse_paragraph_structure` -/

/-- A segment produced by `parse_paragraph_structure`: a merged group of text
runs, an opaque non-text node, or a hyperlink. -/
inductive Seg : Type where
  | text (original_text : Str) (common_rPr : Option Elem) (original_runs : List Elem) : Seg
  | nonText (original_node : Elem) (is_math : Bool) : Seg
  | hyper (original_node : Elem) (original_text : Str) (common_rPr : Option Elem) : Seg

/-- Text contributed by one run to a merged group: its direct `w:t` child's
text when present (a missing element or missing text contributes nothing). -/
def runText (r : Elem) : Str :=
  ((findByTag wT r.children).bind Elem.text).getD []

/-- `merged_text`: concatenation of the group members' texts in order. -/
def groupMergedText (g : List Elem) : Str :=
  (g.map runText).flatten

/-- `final_common_rpr` for a run group (lines 1236–1249): a singleton group
keeps a copy of its own rPr (possibly absent); a longer group re-derives the
consistent style, falling back to the first run's rPr (or a fresh empty rPr)
if that unexpectedly fails. -/
def groupCommonRpr (g : List Elem) : Option Elem :=
  match g with
  | [r] => rprOfRun r
  | _ =>
    match select_consistent_style g with
    | some x => some x
    | none =>
      match g with
      | [] => none
      | r0 :: _ =>
        match rprOfRun r0 with
        | some x => some x
        | none => some (Elem.mk wRPr [] none [])

/-- The hyperlink's inner runs that carry truthy text:
`findall('.//w:r')` filtered by `ht_elem is not None and ht_elem.text`. -/
def hyperRuns (h : Elem) : List Elem :=
  ((descendants h).filter (fun e => e.tag = wR)).filter
    (fun r => !(runText r).isEmpty)

/-- Concatenated text of a hyperlink's truthy inner runs. -/
def hyperMergedText (h : Elem) : Str :=
  ((hyperRuns h).map runText).flatten

/-- `hyperlink_common_rpr` (lines 1300–1309). -/
def hyperCommonRpr (h : Elem) : Option Elem :=
  match hyperRuns h with
  | [] => none
  | r0 :: rest =>
    match select_consistent_style (r0 :: rest) with
    | some x => some x
    | none =>
      match rprOfRun r0 with
      | some x => some x
      | none => some (Elem.mk wRPr [] none [])

/-- The main scan of `parse_paragraph_structure` over the paragraph children,
returning the segment list and the per-segment text entries (the code inserts
the separator before every entry except the first, so the blob is
`joinSep sepStr entries`).  The fuel argument makes the recursion structural;
`parseLoop` supplies sufficient fuel and `parseLoopF_stable` shows the result
does not depend on it. -/
def parseLoopF : Nat → List Elem → List Seg × List Str
  | 0, _ => ([], [])
  | _ + 1, [] => ([], [])
  | f + 1, c :: cs =>
    if c.tag = wR then
      if hasSpecialContent c then
        let pr := parseLoopF f cs
        (Seg.nonText c false :: pr.1, placeholderStr :: pr.2)
      else
        let gr := takeGroup [c] cs
        let pr := parseLoopF f gr.2
        (Seg.text (groupMergedText gr.1) (groupCommonRpr gr.1) gr.1 :: pr.1,
         groupMergedText gr.1 :: pr.2)
    else if c.tag = mOMath ∨ c.tag = mOMathPara ∨ c.tag = wDrawing ∨ c.tag = wObject then
      let pr := parseLoopF f cs
      (Seg.nonText c (decide (c.tag = mOMath ∨ c.tag = mOMathPara)) :: pr.1,
       placeholderStr :: pr.2)
    else if c.tag = wHyperlink then
      let pr := parseLoopF f cs
      (Seg.hyper c (hyperMergedText c) (hyperCommonRpr c) :: pr.1,
       hyperMergedText c :: pr.2)
    else
      parseLoopF f cs

/-- The children scan with exactly enough fuel. -/
def parseLoop (cs : List Elem) : List Seg × List Str :=
  parseLoopF cs.length cs

/-- The dictionary returned by `parse_paragraph_structure`. -/
structure ParaData where
  p_node : Elem
  segments : List Seg
  full_text_for_llm : Str
  segment_separator : Str

/-- `parse_paragraph_structure(p_node, ...)`.  The Python signature also
takes `style_manager` and `map_math_size`, but the body of the function uses
neither, so they are omitted here. -/
def parse_paragraph_structure (p : Elem) : ParaData :=
  let sp := parseLoop p.children
  { p_node := p
    segments := sp.1
    full_text_for_llm := joinSep sepStr sp.2
    segment_separator := sepStr }

/-! ### `reconstruct_translated_paragraph` -/

/-- The only exception reconstruction can raise in the hyperlink branch:
stdlib `ElementTree` elements have no `getparent` attribute. -/
inductive RecError : Type where
  | attributeError : RecError
deriving DecidableEq

/-- The space-preservation test: the text is truthy and starts or ends with a
space. -/
def spaceCond (s : Str) : Bool :=
  !s.isEmpty && (s.head? == some ' ' || s.getLast? == some ' ')

mutual

/-- Update the first `w:t` in preorder (the element itself included): set its
text and, when `sp` holds, its `xml:space="preserve"` attribute.  The Boolean
records whether a `w:t` was found. -/
def updTElem (tx : Str) (sp : Bool) : Elem → Elem × Bool
  | .mk t a x cs =>
    if t = wT then
      (.mk t (if sp then setAttr xmlSpaceA "preserve" a else a) (some tx) cs, true)
    else
      let r := updTList tx sp cs
      (.mk t a x r.1, r.2)
termination_by structural e => e

/-- List version of `updTElem`: update the first `w:t` of the forest. -/
def updTList (tx : Str) (sp : Bool) : List Elem → List Elem × Bool
  | [] => ([], false)
  | c :: cs =>
    let rc := updTElem tx sp c
    if rc.2 then (rc.1 :: cs, true)
    else
      let rs := updTList tx sp cs
      (c :: rs.1, rs.2)
termination_by structural l => l

end

/-- `new_hyperlink_node.find('.//w:t')` followed by the text/attribute
mutation: update the first `w:t` among the strict descendants. -/
def updHyperlinkText (tx : Str) (h : Elem) : Elem :=
  (Elem.mk h.tag h.attrs h.text (updTList tx (spaceCond tx) h.children).1)

/-- Emit the reconstruction of segment `i`: the translated text entry when the
split supplies one, otherwise the recorded original text (the placeholder for
non-text slots).  The hyperlink branch raises `AttributeError` whenever a
`w:t` was found and a second inner run must be deleted, because
`r_elem.getparent()` does not exist on stdlib `ElementTree` elements. -/
def emitSeg (parts : List Str) (i : Nat) : Seg → Except RecError Elem
  | .text ot rpr _ =>
    let tx := (parts.get? i).getD ot
    .ok (Elem.mk wR [] none
      ((match rpr with | some r => [r] | none => []) ++
       [Elem.mk wT (if spaceCond tx then [(xmlSpaceA, "preserve")] else [])
         (some tx) []]))
  | .nonText n _ => .ok n
  | .hyper n ot _ =>
    let tx := (parts.get? i).getD ot
    match findFirstDesc (fun e => e.tag = wT) n with
    | none => .ok n
    | some _ =>
      if 2 ≤ countDesc (fun e => e.tag = wR) n then .error .attributeError
      else .ok (updHyperlinkText tx n)

/-- Emit every segment in order, threading the error. -/
def emitSegs (parts : List Str) : Nat → List Seg → Except RecError (List Elem)
  | _, [] => .ok []
  | i, s :: ss =>
    match emitSeg parts i s with
    | .error e => .error e
    | .ok k =>
      match emitSegs parts (i + 1) ss with
      | .error e => .error e
      | .ok ks => .ok (k :: ks)

/-- `reconstruct_translated_paragraph(original_para_data, translated_full_text)`.
A `None` translated text falls back to the original blob; the blob is split on
the recorded separator; each segment contributes exactly one child after the
optional copy of the original `w:pPr`. -/
def reconstruct_translated_paragraph (pd : ParaData) (translated_full_text : Option Str) :
    Except RecError Elem :=
  let blob := translated_full_text.getD pd.full_text_for_llm
  let parts := splitOnStr pd.segment_separator blob
  match emitSegs parts 0 pd.segments with
  | .error e => .error e
  | .ok kids =>
    .ok (Elem.mk wP [] none
      ((match findByTag wPPr pd.p_node.children with
        | some ppr => [ppr]
        | none => []) ++ kids))

/-- `is_meaningful_text(s)` from `utils.py`. -/
def is_meaningful_text (s : Str) : Bool :=
  !s.isEmpty && !(pyStrip s).isEmpty && s.any Char.isAlphanum

/-- A child tag handled by the segmenter (everything except the warn-and-skip
branch). -/
def isHandledTag (c : Elem) : Bool :=
  c.tag = wR ∨ c.tag = mOMath ∨ c.tag = mOMathPara ∨ c.tag = wDrawing ∨
    c.tag = wObject ∨ c.tag = wHyperlink

/-- The source nodes a segment carries into reconstruction. -/
def segSources : Seg → List Elem
  | .text _ _ runs => runs
  | .nonText n _ => [n]
  | .hyper n _ _ => [n]

/-- Clean forest: no text node among the descendants contains `【`. -/
def CleanForest (cs : List Elem) : Prop :=
  ∀ d ∈ descList cs, '【' ∉ d.text.getD []

instance (cs : List Elem) : Decidable (CleanForest cs) := by
  unfold CleanForest
  infer_instance

/-! ### Claim fixtures (concrete inputs for counterexamples and witnesses) -/

/-- A paragraph with a single plain run whose text is the separator token
itself (claim C1's collision case). -/
def c1Para : Elem :=
  Elem.mk wP [] none [Elem.mk wR [] none [Elem.mk wT [] (some sepStr) []]]

/-- A paragraph with a text run, a drawing, and another text run. -/
def c1WitnessPara : Elem :=
  Elem.mk wP [] none
    [Elem.mk wR [] none [Elem.mk wT [] (some ['H', 'i']) []],
     Elem.mk wDrawing [] none [],
     Elem.mk wR [] none [Elem.mk wT [] (some ['y', 'o']) []]]

/-- A paragraph with an unknown-tag child (a bookmark) followed by a run. -/
def c6Para : Elem :=
  Elem.mk wP [] none
    [Elem.mk (clark wNS "bookmarkStart") [(wValA, "0")] none [],
     Elem.mk wR [] none [Elem.mk wT [] (some ['A']) []]]

/-- Fixture for claim C3's witness: an italic run followed by two bold runs. -/
def c3RunIt : Elem :=
  Elem.mk wR [] none
    [Elem.mk wRPr [] none [Elem.mk (clark wNS "i") [] none []],
     Elem.mk wT [] (some ['x']) []]

/-- First bold run of the C3 witness. -/
def c3RunA : Elem :=
  Elem.mk wR [] none
    [Elem.mk wRPr [] none [Elem.mk wB [] none []],
     Elem.mk wT [] (some ['A']) []]

/-- Second bold run of the C3 witness. -/
def c3RunBC : Elem :=
  Elem.mk wR [] none
    [Elem.mk wRPr [] none [Elem.mk wB [] none []],
     Elem.mk wT [] (some ['B', 'C']) []]

/-- The C3 witness paragraph. -/
def c3Para : Elem := Elem.mk wP [] none [c3RunIt, c3RunA, c3RunBC]

/-! ### Round trip for simple paragraphs (claim C2) -/

/-- The attribute list the reconstructor gives a fresh `w:t` holding `tx`. -/
def spaceAttrs (tx : Str) : List (String × String) :=
  if spaceCond tx then [(xmlSpaceA, "preserve")] else []

/-- A `w:t` element in the exact shape reconstruction re-creates: no children,
text present, and the `xml:space` attribute exactly when the text demands it. -/
def isSimpleT (t : Elem) : Bool :=
  t.tag == wT && t.children.isEmpty &&
  (match t.text with
   | some tx => t.attrs == spaceAttrs tx
   | none => false)

/-- A plain run in the exact shape reconstruction re-creates: a `w:r` with no
attributes or text of its own, no special content, and children that are
either a single simple `w:t` or a `w:rPr` followed by a simple `w:t`. -/
def simpleRun (r : Elem) : Bool :=
  r.tag == wR && r.attrs.isEmpty && r.text == none && !hasSpecialContent r &&
  (match r.children with
   | [t] => isSimpleT t
   | [rpr, t] => rpr.tag == wRPr && isSimpleT t
   | _ => false)

/-- No two adjacent runs have comparator-equal properties. -/
def adjacentDistinct : List Elem → Bool
  | a :: b :: rest => !(compat a b) && adjacentDistinct (b :: rest)
  | _ => true

/-- Two adjacent runs with no run properties at all (claim C2's merge case). -/
def c2Para : Elem :=
  Elem.mk wP [] none
    [Elem.mk wR [] none [Elem.mk wT [] (some ['A']) []],
     Elem.mk wR [] none [Elem.mk wT [] (some ['B', 'C']) []]]

/-- The `w:pPr` of the C2 witness. -/
def c2Ppr : Elem := Elem.mk wPPr [] none []

/-- Bold run `Hi` of the C2 witness. -/
def c2Run1 : Elem :=
  Elem.mk wR [] none
    [Elem.mk wRPr [] none [Elem.mk wB [] none []],
     Elem.mk wT [] (some ['H', 'i']) []]

/-- Unstyled run ` yo` (with a leading space) of the C2 witness. -/
def c2Run2 : Elem :=
  Elem.mk wR [] none
    [Elem.mk wT [(xmlSpaceA, "preserve")] (some [' ', 'y', 'o']) []]

/-- The C2 witness paragraph. -/
def c2WitnessPara : Elem := Elem.mk wP [] none ([c2Ppr] ++ [c2Run1, c2Run2])

/-! ### Mismatch tolerance of reconstruction (claim C4) -/

/-- A segment whose reconstruction cannot hit the missing-`getparent` crash:
non-hyperlink segments, hyperlinks without any `w:t`, and hyperlinks with at
most one inner run. -/
def hyperOk : Seg → Bool
  | .hyper n _ _ =>
    (findFirstDesc (fun e => e.tag = wT) n).isNone ||
      countDesc (fun e => e.tag = wR) n < 2
  | _ => true

/-- The copied `w:pPr` slice the reconstructor prepends. -/
def pprSlice (pnode : Elem) : List Elem :=
  match findByTag wPPr pnode.children with
  | some ppr => [ppr]
  | none => []

/-- What reconstruction emits for segment `i` given the split translation
`parts`: a text group becomes one fresh run holding the supplied entry or the
recorded original text; a non-text segment re-inserts its node unchanged; a
hyperlink rewrites its first `w:t`. -/
def segChildSpec (parts : List Str) (i : Nat) : Seg → Elem → Prop
  | .text ot rpr _, child =>
    child = Elem.mk wR [] none
      ((match rpr with | some x => [x] | none => []) ++
       [Elem.mk wT (spaceAttrs ((parts.get? i).getD ot))
         (some ((parts.get? i).getD ot)) []])
  | .nonText n _, child => child = n
  | .hyper n ot _, child =>
    child = (match findFirstDesc (fun e => e.tag = wT) n with
      | none => n
      | some _ => updHyperlinkText ((parts.get? i).getD ot) n)

/-- A hyperlink with two text-bearing inner runs (C4 counterexample input). -/
def c4Hyper : Elem :=
  Elem.mk wHyperlink [] none
    [Elem.mk wR [] none [Elem.mk wT [] (some ['a']) []],
     Elem.mk wR [] none [Elem.mk wT [] (some ['b']) []]]

/-- Paragraph with the two-run hyperlink and a plain run. -/
def c4Para : Elem :=
  Elem.mk wP [] none [c4Hyper, Elem.mk wR [] none [Elem.mk wT [] (some ['e']) []]]

/-- Text run `ab` / drawing / text run `cd` (C4 witness input). -/
def c4WitnessPara : Elem :=
  Elem.mk wP [] none
    [Elem.mk wR [] none [Elem.mk wT [] (some ['a', 'b']) []],
     Elem.mk wDrawing [] none [],
     Elem.mk wR [] none [Elem.mk wT [] (some ['c', 'd']) []]]

/-- A hyperlink with two text-bearing inner runs (C5 failing input). -/
def c5Hyper : Elem :=
  Elem.mk wHyperlink [("id", "rId9")] none
    [Elem.mk wR [] none [Elem.mk wT [] (some ['c', 'l', 'i', 'c', 'k']) []],
     Elem.mk wR [] none [Elem.mk wT [] (some ['h', 'e', 'r', 'e']) []]]

/-- Paragraph holding only the two-run hyperlink. -/
def c5Para : Elem := Elem.mk wP [] none [c5Hyper]

/-! ### `style_manager.py`: the style table and inheritance walk

`rPr_xml` is stored serialized and re-parsed on every walk; serialization
round-trips the element, so the model stores the element value directly. -/

/-- The merge idiom shared by `get_style_rpr` and the materializer: for each
child of the overlay, remove any existing same-tagged child of the
accumulator, then append (a copy of) the overlay child. -/
def overlayChildren (acc : List Elem) (overlay : List Elem) : List Elem :=
  overlay.foldl (fun a c => removeFirstTag c.tag a ++ [c]) acc

/-- One entry of `StyleManager._styles`. -/
structure StyleInfo where
  name : String
  styleType : String
  direct_size : Option Nat
  based_on : Option String
  rPr : Option Elem

/-- The state a `StyleManager` instance holds after `__init__`. -/
structure StyleManager where
  styles : List (String × StyleInfo)
  style_names : List (String × String)
  default_size : Option Nat

/-- Python dict lookup `self._styles.get(id)`. -/
def lookupStyle (styles : List (String × StyleInfo)) (id : String) : Option StyleInfo :=
  (styles.find? (fun kv => kv.1 = id)).map (·.2)

/-- Python dict assignment `d[k] = v` for association lists. -/
def setAssoc {β : Type} (k : String) (v : β) : List (String × β) → List (String × β)
  | [] => [(k, v)]
  | kv :: rest => if kv.1 = k then (k, v) :: rest else kv :: setAssoc k v rest

/-- The `while current_style_id and current_style_id not in visited` walk of
`get_style_rpr`, collecting the rPr stack from the leaf upward.  The fuel
makes the recursion structural; `walkFuel_isSome` shows one more unit of fuel
than the table size always suffices (this is the loop's termination). -/
def walkFuel (styles : List (String × StyleInfo)) :
    Nat → List String → Option String → Option (List Elem)
  | 0, _, _ => none
  | f + 1, visited, cur =>
    match cur with
    | none => some []
    | some id =>
      if id = "" ∨ visited.contains id then some []
      else
        match lookupStyle styles id with
        | none => some []
        | some info =>
          match walkFuel styles f (id :: visited) info.based_on with
          | none => none
          | some rest =>
            some ((match info.rPr with | some r => [r] | none => []) ++ rest)

/-- The merge phase of `get_style_rpr`: fold the collected stack, later
entries overriding same-tagged children of earlier ones (note the code
iterates the stack leaf-first, so ancestors override the leaf). -/
def mergeRprStack (stack : List Elem) : Elem :=
  Elem.mk wRPr [] none (stack.foldl (fun acc r => overlayChildren acc r.children) [])

/-- `StyleManager.get_style_rpr(style_id)`. -/
def StyleManager.get_style_rpr (sm : StyleManager) (style_id : String) : Option Elem :=
  match walkFuel sm.styles (sm.styles.length + 1) [] (some style_id) with
  | none => none
  | some stack => if stack.isEmpty then none else some (mergeRprStack stack)

/-- Python `str.isdigit` (ASCII digits; none of the proved properties depend
on the unicode digit classes). -/
def pyIsDigit (s : Str) : Bool :=
  !s.isEmpty && s.all Char.isDigit

/-- `int(size_val)` for a digit string. -/
def strToNat (s : Str) : Nat :=
  s.foldl (fun n c => n * 10 + (c.toNat - 48)) 0

/-- Extract `w:sz/@w:val` as an integer from an rPr element. -/
def szFromRpr (rpr : Elem) : Option Nat :=
  match findByTag wSz rpr.children with
  | none => none
  | some sz =>
    match getAttr wValA sz with
    | none => none
    | some v => if pyIsDigit v.toList then some (strToNat v.toList) else none

/-- `StyleManager.get_size_by_style_id(style_id)`. -/
def StyleManager.get_size_by_style_id (sm : StyleManager) (style_id : String) :
    Option Nat :=
  match sm.get_style_rpr style_id with
  | none => none
  | some rpr => szFromRpr rpr

/-- `StyleManager.get_default_size()`. -/
def StyleManager.get_default_size (sm : StyleManager) : Option Nat :=
  sm.get_size_by_style_id "Normal"

/-- `StyleManager.get_style_name(style_id)`. -/
def StyleManager.get_style_name (sm : StyleManager) (style_id : String) : String :=
  ((sm.style_names.find? (fun kv => kv.1 = style_id)).map (·.2)).getD "Unknown"

/-- `StyleManager.__init__(styles_xml_bytes)`.  The byte-level XML parse is
the boundary of the model: `none` stands for empty input bytes as well as for
input on which `ET.fromstring` raises `ParseError` — in both cases the
constructor leaves every table empty (the early `return` and the `except`
handler respectively, the exception being raised before any table entry is
written).  `some root` is a successful parse. -/
def initStyleManager : Option Elem → StyleManager
  | none => ⟨[], [], none⟩
  | some root =>
    (root.children.filter (fun c => c.tag = wStyleTag)).foldl
      (fun sm style =>
        match getAttr wStyleIdA style with
        | none => sm
        | some sid =>
          if sid.isEmpty then sm
          else
            let name := match findByTag wName style.children with
              | some ne => (getAttr wValA ne).getD "Unknown"
              | none => "Unknown"
            let sType := (getAttr wTypeA style).getD "unknown"
            let basedOn := (findByTag wBasedOn style.children).bind (getAttr wValA)
            let rPrE := findByTag wRPr style.children
            let size := match rPrE with
              | none => none
              | some rp => szFromRpr rp
            { styles := setAssoc sid ⟨name, sType, size, basedOn, rPrE⟩ sm.styles
              style_names := setAssoc sid name sm.style_names
              default_size := if sid = "Normal" ∧ size.isSome then size
                else sm.default_size })
      ⟨[], [], none⟩

/-- Keys of the style table not yet visited: the decreasing measure of the
inheritance walk. -/
def keysNotVisited (styles : List (String × StyleInfo)) (visited : List String) : Nat :=
  ((styles.map Prod.fst).filter (fun k => !(visited.contains k))).length

/-- A cyclic style table: `A` is based on `B` and `B` is based on `A`. -/
def c8Styles : List (String × StyleInfo) :=
  [("A", ⟨"StyleA", "character", none, some "B",
     some (Elem.mk wRPr [] none [Elem.mk wB [] none []])⟩),
   ("B", ⟨"StyleB", "character", some 24, some "A",
     some (Elem.mk wRPr [] none [Elem.mk wSz [(wValA, "24")] none []])⟩)]

def c8SM : StyleManager :=
  ⟨c8Styles, [("A", "StyleA"), ("B", "StyleB")], none⟩

/-! ### `translation.py`: per-paragraph translation and the concurrent batch

The network is the boundary of the model: each API attempt of
`_translate_paragraph` is an oracle value — `err` for a raised exception
(request failure, bad status, malformed JSON) and `ok raw` for a successful
response body.  A paragraph dictionary enters this module only through its
`full_text_for_llm` field, so a paragraph is its blob here. -/

/-- Outcome of one `requests.post` attempt inside `_translate_paragraph`. -/
inductive ApiResult : Type where
  | err : ApiResult
  | ok (raw : Str) : ApiResult
deriving DecidableEq

/-- The characters of the second `strip` in `clean_llm_output`: space, the
double quote, the single quote and the backquote, the latter two written by
code point (the source literal repeats the double quote, which is
redundant for a character set). -/
def cleanQuoteSet : List Char :=
  [' ', '"', Char.ofNat 39, Char.ofNat 96]

/-- `clean_llm_output(text)` from `utils.py`. -/
def clean_llm_output (text : Str) : Str :=
  if text.isEmpty then []
  else pyStripSet cleanQuoteSet (pyStrip text)

def chineseRefusalPatterns : List Str :=
  ["抱歉".toList, "对不起".toList, "无法处理".toList, "不能".toList,
   "无法翻译".toList, "无法完成".toList, "不支持".toList, "无法提供".toList]

def englishRefusalPatterns : List Str :=
  ["sorry".toList, "i cannot".toList, "i can't".toList, "unable to".toList,
   "i'm unable".toList, "cannot assist".toList, "can't assist".toList,
   "cannot help".toList, "can't help".toList, "i apologize".toList]

/-- `is_llm_refusal(text)`: a refusal keyword occurs in the lowered, stripped
text and the text is short (< 50 characters); empty or whitespace-only text
is never a refusal. -/
def is_llm_refusal (text : Str) : Bool :=
  if text.isEmpty || (pyStrip text).isEmpty then false
  else
    (chineseRefusalPatterns ++ englishRefusalPatterns).any
      (fun p => containsSub p (pyStrip (pyLower text)) && decide (text.length < 50))

def echoPat1 : Str := "You are a professional translation engine".toList

def echoPat2 : Str := "CRITICAL RULES".toList

def phWord : Str := "placeholder".toList

/-- One attempted match of the strict placeholder regex
`<\s*placeholder\s*[,>]` at the head of the string, returning the suffix
after the match.  (`\s*` is greedy, and no whitespace character can begin
`placeholder` or be `,`/`>`, so greedy scanning needs no backtracking.) -/
def tryPH : Str → Option Str
  | [] => none
  | c :: cs =>
    if c = '<' then
      let r1 := cs.dropWhile isPySpace
      if isPref phWord r1 then
        match (r1.drop phWord.length).dropWhile isPySpace with
        | [] => none
        | d :: r3 => if d = ',' ∨ d = '>' then some r3 else none
      else none
    else none

/-- `re.findall` scan for `countPH`: try a match at each position, jumping
past each non-overlapping match.  Every step consumes at least one character,
so fuel equal to the string length never runs out. -/
def countPHF : Nat → Str → Nat
  | 0, _ => 0
  | _ + 1, [] => 0
  | f + 1, c :: cs =>
    match tryPH (c :: cs) with
    | some rest => 1 + countPHF f rest
    | none => countPHF f cs

/-- `len(strict_placeholder_regex.findall(text))`. -/
def countPH (s : Str) : Nat := countPHF s.length s

/-- The retry loop of `_translate_paragraph`, one list entry per attempt
(the list stands for the up-to-`max_retries` attempts).  Running out of
attempts leaves `translated_text` empty, and the post-loop
`if not translated_text` guard returns the original — the same value the
last-attempt early returns produce, so all exhaustion paths collapse to the
`[]` case. -/
def tpGo (orig : Str) (origPh : Nat) : List ApiResult → Str
  | [] => orig
  | ApiResult.err :: rest => tpGo orig origPh rest
  | ApiResult.ok raw :: rest =>
    let cur := clean_llm_output raw
    if is_llm_refusal cur then orig
    else if containsSub echoPat1 cur || containsSub echoPat2 cur then
      tpGo orig origPh rest
    else if countPH cur = origPh then (if cur.isEmpty then orig else cur)
    else tpGo orig origPh rest

/-- `_translate_paragraph(para_data, ...)`: whole-paragraph gate on
`is_meaningful_text`, then the retry loop against the attempt oracle. -/
def translate_paragraph (blob : Str) (attempts : List ApiResult) : Str :=
  if is_meaningful_text blob then
    tpGo blob (countSub placeholderStr blob) attempts
  else blob

/-- `llm_translate_concurrent(para_data_list, **kwargs)`.  `api i` is the
attempt oracle the future of paragraph `i` runs against, `exc i` tells
whether `future.result()` itself raises, and `order` is the completion order
`as_completed` yields the futures in — an arbitrary permutation of the
submitted indices. -/
def llm_translate_concurrent (blobs : List Str) (api : Nat → List ApiResult)
    (exc : Nat → Bool) (order : List Nat) : List Str :=
  let indices := (List.range blobs.length).filter
    (fun i => !(pyStrip (blobs.getD i [])).isEmpty)
  if indices.isEmpty then blobs
  else
    let results1 := order.foldl (fun res i =>
      if exc i then res.set i (blobs.getD i [])
      else res.set i (translate_paragraph (blobs.getD i []) (api i)))
      (List.replicate blobs.length [])
    (List.range blobs.length).foldl (fun res i =>
      if indices.contains i then res else res.set i (blobs.getD i [])) results1

def c7Blobs : List Str :=
  ["Hello <placeholder>".toList, "   ".toList, "World".toList]

def c7Api : Nat → List ApiResult := fun i =>
  if i = 0 then [ApiResult.ok ("Bonjour <placeholder>".toList)] else [ApiResult.err]

def c7Exc : Nat → Bool := fun i => i = 2

def c7Order : List Nat := [2, 0]

/-! ### `materialize_styles_from_style_defs` (docx_processor.py 305–552)

The pass walks the document, and for each `w:p` rewrites the `w:rPr` of its
direct `w:r` children (paragraph style ⊕ run `w:rStyle` ⊕ direct properties,
with every `w:rStyle` deleted) and of every `m:r` inside an `m:oMath` below
the paragraph (run style ⊕ direct), then force-appends `w:rFonts`/`w:lang`
when the font/language options are set.  The `fonts`/`langs` parameters model
`font_latin`/`font_east_asia` and `lang_latin`/`lang_ea`: `some (latin, ea)`
when both strings of the pair are truthy, since each forcing block runs only
then.  The walk visits each node once; the Python pass, which iterates
`root.findall('.//w:p')` against live mutation, additionally reprocesses
math runs once per *extra* enclosing `w:p` (paragraphs nested through
drawings) and skips nothing else — on documents without nested paragraphs
(and without `m:oMath` outside paragraphs or inside runs, both impossible
in WordprocessingML) the two agree node for node. -/

/-- The paragraph-level style lookup: `pPr/pStyle/@w:val` resolved through
the style manager (`para_default_rpr_elem`). -/
def getParaRpr (sm : StyleManager) (p : Elem) : Option Elem :=
  match findByTag wPPr p.children with
  | none => none
  | some ppr =>
    match findByTag wPStyle ppr.children with
    | none => none
    | some psn =>
      match getAttr wValA psn with
      | none => none
      | some sid => if sid.isEmpty then none else sm.get_style_rpr sid

/-- The run-level style lookup shared by both run kinds:
`rPr/rStyle/@w:val` resolved through the style manager. -/
def styleRprOfRpr (sm : StyleManager) (rpr : Elem) : Option Elem :=
  match findByTag wRStyle rpr.children with
  | none => none
  | some sn =>
    match getAttr wValA sn with
    | none => none
    | some sid => if sid.isEmpty then none else sm.get_style_rpr sid

/-- Drop every `w:rStyle` child: the first one is removed before the direct
merge loop and the loop removes and skips any further one. -/
def dropRStyleKids (kids : List Elem) : List Elem :=
  kids.filter (fun c => !(c.tag = wRStyle))

/-- Remove every child tagged `t` and append `x` (the
`findall`-remove-`SubElement` idiom of the font/language forcing). -/
def replTail (t : String) (x : Elem) (kids : List Elem) : List Elem :=
  kids.filter (fun c => !(c.tag = t)) ++ [x]

/-- The fresh `w:rFonts` element of the font forcing (`fl` is the pair
latin font / east-asian font). -/
def rFontsElem (fl : String × String) : Elem :=
  Elem.mk wRFonts [(wAsciiA, fl.1), (wHAnsiA, fl.1), (wEastAsiaA, fl.2),
    (wHintA, "eastAsia")] none []

/-- The fresh `w:lang` element of the language forcing (`ll` is the pair
latin language / east-asian language). -/
def langElem (ll : String × String) : Elem :=
  Elem.mk wLang [(wValA, ll.1), (wEastAsiaA, ll.2)] none []

/-- The font/language forcing appended after the merge: remove every
existing `w:rFonts` (resp. `w:lang`) and append a fresh one. -/
def fontsTail (fonts langs : Option (String × String)) (kids : List Elem) :
    List Elem :=
  let kids1 := match fonts with
    | none => kids
    | some fl => replTail wRFonts (rFontsElem fl) kids
  match langs with
  | none => kids1
  | some ll => replTail wLang (langElem ll) kids1

/-- The three merge steps for a normal run's `rPr`: paragraph-style children,
overlaid by the run style's children, overlaid by the direct children minus
`w:rStyle`. -/
def matRunRprKids (sm : StyleManager) (paraRpr : Option Elem) (rpr : Elem) :
    List Elem :=
  let base := match paraRpr with | none => [] | some pr => pr.children
  let merged := match styleRprOfRpr sm rpr with
    | none => base
    | some sr => overlayChildren base sr.children
  overlayChildren merged (dropRStyleKids rpr.children)

/-- Process one direct `w:r` child of a paragraph: skipped without a `w:t`
child or meaningful text; otherwise its `w:rPr` (created at position 0 when
absent) is refilled with the merged properties plus the forcing tail. -/
def matRun (sm : StyleManager) (fonts langs : Option (String × String))
    (paraRpr : Option Elem) (r : Elem) : Elem :=
  match findByTag wT r.children with
  | none => r
  | some t =>
    if is_meaningful_text (t.text.getD []) then
      match findByTag wRPr r.children with
      | some rpr =>
        Elem.mk r.tag r.attrs r.text (replaceFirstTag wRPr
          (Elem.mk wRPr rpr.attrs rpr.text
            (fontsTail fonts langs (matRunRprKids sm paraRpr rpr))) r.children)
      | none =>
        Elem.mk r.tag r.attrs r.text
          (Elem.mk wRPr [] none
            (fontsTail fonts langs
              (matRunRprKids sm paraRpr (Elem.mk wRPr [] none [])))
            :: r.children)
    else r

/-- The two merge steps for a math run's `w:rPr`: run-style children
overlaid by the direct children minus `w:rStyle` (no paragraph layer). -/
def matMathRprKids (sm : StyleManager) (wrpr : Elem) : List Elem :=
  let base := match styleRprOfRpr sm wrpr with
    | none => []
    | some sr => sr.children
  overlayChildren base (dropRStyleKids wrpr.children)

/-- Process one `m:r` inside an `m:oMath`: skipped without meaningful `m:t`
text; a missing `w:rPr` is created after the `m:rPr` when one exists, else
at position 0. -/
def matMathRun (sm : StyleManager) (fonts langs : Option (String × String))
    (mr : Elem) : Elem :=
  match findByTag mT mr.children with
  | none => mr
  | some t =>
    if is_meaningful_text (t.text.getD []) then
      match findByTag wRPr mr.children with
      | some wrpr =>
        Elem.mk mr.tag mr.attrs mr.text (replaceFirstTag wRPr
          (Elem.mk wRPr wrpr.attrs wrpr.text
            (fontsTail fonts langs (matMathRprKids sm wrpr))) mr.children)
      | none =>
        Elem.mk mr.tag mr.attrs mr.text
          (match findByTag mRPr mr.children with
           | some _ => insertAfterFirstTag mRPr
              (Elem.mk wRPr [] none
                (fontsTail fonts langs
                  (matMathRprKids sm (Elem.mk wRPr [] none [])))) mr.children
           | none => Elem.mk wRPr [] none
              (fontsTail fonts langs
                (matMathRprKids sm (Elem.mk wRPr [] none []))) :: mr.children)
    else mr

mutual

/-- The document walk.  `inPara` records a `w:p` ancestor, `inMath` an
`m:oMath` ancestor below a paragraph (the pass scans `.//m:oMath` per
paragraph); an `m:r` under those ancestors is materialized. -/
def matNode (sm : StyleManager) (fonts langs : Option (String × String)) :
    Bool → Bool → Elem → Elem
  | inPara, inMath, Elem.mk tag attrs text children =>
    if tag = wP then
      Elem.mk tag attrs text (matPKids sm fonts langs
        (getParaRpr sm (Elem.mk tag attrs text children)) inMath children)
    else if tag = mOMath then
      Elem.mk tag attrs text
        (matList sm fonts langs inPara (inMath || inPara) children)
    else if tag = mR ∧ inMath = true then
      matMathRun sm fonts langs (Elem.mk tag attrs text children)
    else
      Elem.mk tag attrs text (matList sm fonts langs inPara inMath children)
termination_by structural _ _ e => e

/-- Walk a forest of non-paragraph-child nodes. -/
def matList (sm : StyleManager) (fonts langs : Option (String × String)) :
    Bool → Bool → List Elem → List Elem
  | _, _, [] => []
  | inPara, inMath, c :: cs =>
    matNode sm fonts langs inPara inMath c ::
      matList sm fonts langs inPara inMath cs
termination_by structural _ _ l => l

/-- Walk the direct children of a paragraph: direct `w:r` children get the
full three-layer materialization, everything else is walked with the
paragraph flag set. -/
def matPKids (sm : StyleManager) (fonts langs : Option (String × String))
    (paraRpr : Option Elem) : Bool → List Elem → List Elem
  | _, [] => []
  | inMath, c :: cs =>
    (if c.tag = wR then matRun sm fonts langs paraRpr c
     else matNode sm fonts langs true inMath c) ::
      matPKids sm fonts langs paraRpr inMath cs
termination_by structural _ l => l

end

/-- `materialize_styles_from_style_defs(root, style_manager=..., ...)`.
A falsy (`None`) style manager skips the pass. -/
def materialize_styles_from_style_defs (sm? : Option StyleManager)
    (fonts langs : Option (String × String)) (root : Elem) : Elem :=
  match sm? with
  | none => root
  | some sm => matNode sm fonts langs false false root

/-- Tags of a child list, the key to the remove-then-append merge idiom. -/
def tagsOf (kids : List Elem) : List String := kids.map Elem.tag

/-- Children of an optional style rPr (empty when absent). -/
def rprKidsOf (o : Option Elem) : List Elem :=
  match o with
  | none => []
  | some r => r.children

/-- No style of the table declares a `w:rStyle` inside its own run
properties.  `styles.xml` written by Word never does; this is the hypothesis
under which the materialization pass deletes every style reference on its
first run. -/
def stylesRStyleFree (sm : StyleManager) : Prop :=
  ∀ kv ∈ sm.styles, ∀ c ∈ rprKidsOf kv.2.rPr, ¬ c.tag = wRStyle

/-- An optional rPr whose children have pairwise distinct tags and no
`w:rStyle`. -/
def goodRprOpt (o : Option Elem) : Prop :=
  ∀ pr, o = some pr →
    (tagsOf pr.children).Nodup ∧ ∀ c ∈ pr.children, ¬ c.tag = wRStyle

/-- A style whose own rPr contains a style reference: `X` declares
`<w:rStyle w:val="B"/>` as a run property. -/
def c9StyleX : Elem :=
  Elem.mk wStyleTag [(wTypeA, "character"), (wStyleIdA, "X")] none
    [Elem.mk wName [(wValA, "X")] none [],
     Elem.mk wRPr [] none [Elem.mk wRStyle [(wValA, "B")] none []]]

def c9StyleB : Elem :=
  Elem.mk wStyleTag [(wTypeA, "character"), (wStyleIdA, "B")] none
    [Elem.mk wName [(wValA, "B")] none [],
     Elem.mk wRPr [] none [Elem.mk wB [] none []]]

def c9SM : StyleManager :=
  initStyleManager (some (Elem.mk (clark wNS "styles") [] none
    [c9StyleX, c9StyleB]))

def c9Run : Elem :=
  Elem.mk wR [] none
    [Elem.mk wRPr [] none [Elem.mk wRStyle [(wValA, "X")] none []],
     Elem.mk wT [] (some "hi".toList) []]

def c9Root : Elem :=
  Elem.mk (clark wNS "document") [] none [Elem.mk wP [] none [c9Run]]

/-- Tags of the first run's rPr children, the observable the two passes
disagree on. -/
def c9Probe (root : Elem) : List String :=
  match root.children with
  | p :: _ =>
    match p.children with
    | r :: _ =>
      match findByTag wRPr r.children with
      | some rpr => tagsOf rpr.children
      | none => []
    | [] => []
  | [] => []

def c9WStyleHead : Elem :=
  Elem.mk wStyleTag [(wTypeA, "paragraph"), (wStyleIdA, "Head")] none
    [Elem.mk wName [(wValA, "Head")] none [],
     Elem.mk wBasedOn [(wValA, "Base")] none [],
     Elem.mk wRPr [] none
       [Elem.mk wB [] none [], Elem.mk wSz [(wValA, "28")] none []]]

def c9WStyleBase : Elem :=
  Elem.mk wStyleTag [(wTypeA, "paragraph"), (wStyleIdA, "Base")] none
    [Elem.mk wName [(wValA, "Base")] none [],
     Elem.mk wRPr [] none
       [Elem.mk (clark wNS "i") [] none [],
        Elem.mk wSz [(wValA, "20")] none []]]

def c9WStyleEm : Elem :=
  Elem.mk wStyleTag [(wTypeA, "character"), (wStyleIdA, "Em")] none
    [Elem.mk wName [(wValA, "Em")] none [],
     Elem.mk wRPr [] none [Elem.mk (clark wNS "u") [(wValA, "single")] none []]]

def c9WSM : StyleManager :=
  initStyleManager (some (Elem.mk (clark wNS "styles") [] none
    [c9WStyleHead, c9WStyleBase, c9WStyleEm]))

def c9WDoc : Elem :=
  Elem.mk (clark wNS "document") [] none
    [Elem.mk wP [] none
      [Elem.mk wPPr [] none [Elem.mk wPStyle [(wValA, "Head")] none []],
       Elem.mk wR [] none
         [Elem.mk wRPr [] none
           [Elem.mk wRStyle [(wValA, "Em")] none [],
            Elem.mk wSz [(wValA, "32")] none []],
          Elem.mk wT [] (some "hello".toList) []],
       Elem.mk wR [] none [Elem.mk wT [] (some "plain".toList) []],
       Elem.mk mOMath [] none
         [Elem.mk mR [] none [Elem.mk mT [] (some "x+1".toList) []]]]]

instance stylesRStyleFree_dec (sm : StyleManager) :
    Decidable (stylesRStyleFree sm) :=
  inferInstanceAs (Decidable
    (∀ kv ∈ sm.styles, ∀ c ∈ rprKidsOf kv.2.rPr, ¬ c.tag = wRStyle))

theorem Elem.eta (e : Elem) : Elem.mk e.tag e.attrs e.text e.children = e := by
  cases e; rfl

theorem Elem.size_pos (e : Elem) : 0 < e.size := by
  cases e with
  | mk t a x cs => simp only [Elem.size]; omega

theorem Elem.sizeList_lt_of_mem {c : Elem} {cs : List Elem} (h : c ∈ cs) :
    c.size ≤ Elem.size.sizeList cs := by
  induction cs with
  | nil => cases h
  | cons d ds ih =>
    rcases List.mem_cons.mp h with rfl | h2
    · simp only [Elem.size.sizeList]; omega
    · have := ih h2
      simp only [Elem.size.sizeList]; omega

theorem Elem.size_lt_of_mem {c : Elem} {t : String} {a : List (String × String)}
    {x : Option Str} {cs : List Elem} (h : c ∈ cs) :
    c.size < (Elem.mk t a x cs).size := by
  have := Elem.sizeList_lt_of_mem h
  simp only [Elem.size]; omega

/-- Strong induction over elements: to prove `motive e` one may assume the
motive for every strictly smaller element (in particular all descendants). -/
theorem Elem.strongInduction {motive : Elem → Prop}
    (h : ∀ e : Elem, (∀ d : Elem, d.size < e.size → motive d) → motive e) :
    ∀ e, motive e := by
  intro e
  have key : ∀ n : Nat, ∀ e : Elem, e.size ≤ n → motive e := by
    intro n
    induction n with
    | zero => intro e he; have := Elem.size_pos e; omega
    | succ n ih =>
      intro e he
      exact h e (fun d hd => ih d (by omega))
  exact key e.size e le_rfl

theorem mem_descList_of_mem {c : Elem} {cs : List Elem} (h : c ∈ cs) :
    c ∈ descList cs := by
  induction cs with
  | nil => cases h
  | cons d ds ih =>
    rcases List.mem_cons.mp h with rfl | h2
    · simp [descList]
    · simp only [descList, List.mem_cons, List.mem_append]
      exact Or.inr (Or.inr (ih h2))

theorem descendants_trans {d c : Elem} {cs : List Elem}
    (hc : c ∈ cs) (hd : d ∈ descendants c) : d ∈ descList cs := by
  induction cs with
  | nil => cases hc
  | cons e es ih =>
    rcases List.mem_cons.mp hc with rfl | h2
    · simp only [descList, List.mem_cons, List.mem_append]
      exact Or.inr (Or.inl hd)
    · simp only [descList, List.mem_cons, List.mem_append]
      exact Or.inr (Or.inr (ih h2))

theorem mem_descendants_of_child {d e : Elem} (h : d ∈ e.children) :
    d ∈ descendants e := by
  cases e with
  | mk t a x cs => simpa [descendants, Elem.children] using mem_descList_of_mem h

/-! #### Lookup semantics of the dict comparisons -/

theorem amLookup_eq_none {k : String} {d : AttrMap} (h : k ∉ d.map Prod.fst) :
    amLookup k d = none := by
  induction d with
  | nil => rfl
  | cons kv rest ih =>
    simp only [List.map_cons, List.mem_cons, not_or] at h
    have hne : (kv.1 = k) = False := eq_false (fun hh => h.1 hh.symm)
    simp only [amLookup, List.find?_cons, hne, decide_False, cond_false]
    exact ih h.2

theorem amEq_iff {a b : AttrMap} :
    amEq a b = true ↔ ∀ k, amLookup k a = amLookup k b := by
  constructor
  · intro h k
    by_cases hk : k ∈ a.map Prod.fst ++ b.map Prod.fst
    · have := List.all_eq_true.mp h k hk
      exact beq_iff_eq.mp this
    · simp only [List.mem_append] at hk
      push_neg at hk
      rw [amLookup_eq_none hk.1, amLookup_eq_none hk.2]
  · intro h
    apply List.all_eq_true.mpr
    intro k _
    exact beq_iff_eq.mpr (h k)

theorem nmLookup_eq_none {k : String} {d : NormMap} (h : k ∉ d.map Prod.fst) :
    nmLookup k d = none := by
  induction d with
  | nil => rfl
  | cons kv rest ih =>
    simp only [List.map_cons, List.mem_cons, not_or] at h
    have hne : (kv.1 = k) = False := eq_false (fun hh => h.1 hh.symm)
    simp only [nmLookup, List.find?_cons, hne, decide_False, cond_false]
    exact ih h.2

theorem optAmEq_iff {x y : Option AttrMap} : optAmEq x y = true ↔ OptAmRel x y := by
  cases x <;> cases y <;> simp [optAmEq, OptAmRel, amEq_iff]

theorem optAmRel_refl (x : Option AttrMap) : OptAmRel x x := by
  cases x <;> simp [OptAmRel]

theorem optAmRel_symm {x y : Option AttrMap} (h : OptAmRel x y) : OptAmRel y x := by
  cases x <;> cases y
  · trivial
  · exact h.elim
  · exact h.elim
  · exact fun j => (h j).symm

theorem optAmRel_trans {x y z : Option AttrMap}
    (h1 : OptAmRel x y) (h2 : OptAmRel y z) : OptAmRel x z := by
  cases x <;> cases y <;> cases z
  all_goals first
    | trivial
    | exact h1.elim
    | exact h2.elim
    | exact fun j => (h1 j).trans (h2 j)

theorem nmEq_iff {a b : NormMap} : nmEq a b = true ↔ NmRel a b := by
  constructor
  · intro h k
    by_cases hk : k ∈ a.map Prod.fst ++ b.map Prod.fst
    · exact optAmEq_iff.mp (List.all_eq_true.mp h k hk)
    · simp only [List.mem_append] at hk
      push_neg at hk
      rw [nmLookup_eq_none hk.1, nmLookup_eq_none hk.2]
      trivial
  · intro h
    apply List.all_eq_true.mpr
    intro k _
    exact optAmEq_iff.mpr (h k)

theorem nmRel_refl (a : NormMap) : NmRel a a := fun k => optAmRel_refl _

theorem nmRel_symm {a b : NormMap} (h : NmRel a b) : NmRel b a :=
  fun k => optAmRel_symm (h k)

theorem nmRel_trans {a b c : NormMap} (h1 : NmRel a b) (h2 : NmRel b c) : NmRel a c :=
  fun k => optAmRel_trans (h1 k) (h2 k)

/-- A normalized rPr map is dict-equal to the empty dict exactly when it is
empty: its head key would otherwise look up to a value. -/
theorem nmRel_nil_iff {n : NormMap} : NmRel n [] ↔ n = [] := by
  constructor
  · intro h
    cases n with
    | nil => rfl
    | cons kv rest =>
      exfalso
      have h2 := h kv.1
      have hl : nmLookup kv.1 (kv :: rest) = some kv.2 := by
        simp [nmLookup, List.find?_cons]
      rw [hl] at h2
      exact h2
  · rintro rfl
    exact nmRel_refl []

/-- `_compare_rpr_elements` decides exactly dict equality of the two
normalized property maps (with `None` as the empty map). -/
theorem compare_rpr_iff {o1 o2 : Option Elem} :
    compare_rpr_elements o1 o2 = true ↔ NmRel (normO o1) (normO o2) := by
  cases o1 with
  | none =>
    cases o2 with
    | none => simp [compare_rpr_elements, normO, nmRel_refl]
    | some r =>
      simp only [compare_rpr_elements, normO, is_empty_rpr_after_normalization,
        List.isEmpty_iff]
      constructor
      · intro h; rw [h]; exact nmRel_refl []
      · intro h; exact nmRel_nil_iff.mp (nmRel_symm h)
  | some r =>
    cases o2 with
    | none =>
      simp only [compare_rpr_elements, normO, is_empty_rpr_after_normalization,
        List.isEmpty_iff]
      constructor
      · intro h; rw [h]; exact nmRel_refl []
      · intro h; exact nmRel_nil_iff.mp h
    | some b =>
      simp [compare_rpr_elements, normO, nmEq_iff]

theorem select_isSome_iff {r0 : Elem} {rest : List Elem} :
    (select_consistent_style (r0 :: rest)).isSome = true ↔
      ∀ r ∈ rest, compat r0 r = true := by
  simp only [select_consistent_style, compat]
  by_cases h : rest.all (fun r => compare_rpr_elements (rprOfRun r0) (rprOfRun r)) = true
  · rw [if_pos h]
    simp only [List.all_eq_true] at h
    constructor
    · intro _
      exact h
    · intro _
      cases rprOfRun r0 <;> rfl
  · rw [if_neg h]
    simp only [List.all_eq_true] at h
    constructor
    · intro hh
      simp at hh
    · intro hall
      exact absurd hall h

theorem takeGroup_rest_length (xs : List Elem) :
    ∀ grp, (takeGroup grp xs).2.length ≤ xs.length := by
  induction xs with
  | nil => intro grp; simp [takeGroup]
  | cons c cs ih =>
    intro grp
    simp only [takeGroup]
    by_cases h1 : c.tag = wR
    · rw [if_pos h1]
      by_cases h2 : (select_consistent_style (grp ++ [c])).isSome = true
      · rw [if_pos h2]
        exact le_trans (ih _) (by simp)
      · rw [if_neg h2]
      
    · rw [if_neg h1]

/-- The structural decomposition performed by `takeGroup`: the input splits as
`taken ++ rest`, the group extends the accumulator by `taken`, and every taken
element is a `w:r`. -/
theorem takeGroup_spec (xs : List Elem) :
    ∀ grp, ∃ taken, takeGroup grp xs = (grp ++ taken, (takeGroup grp xs).2)
      ∧ xs = taken ++ (takeGroup grp xs).2
      ∧ ∀ y ∈ taken, y.tag = wR := by
  induction xs with
  | nil =>
    intro grp
    exact ⟨[], by simp [takeGroup]⟩
  | cons c cs ih =>
    intro grp
    simp only [takeGroup]
    by_cases h1 : c.tag = wR
    · rw [if_pos h1]
      by_cases h2 : (select_consistent_style (grp ++ [c])).isSome = true
      · rw [if_pos h2]
        obtain ⟨taken, heq, hsplit, htags⟩ := ih (grp ++ [c])
        refine ⟨c :: taken, ?_, ?_, ?_⟩
        · rw [heq]; simp
        · exact congrArg (List.cons c) hsplit
        · intro y hy
          rcases List.mem_cons.mp hy with rfl | hy2
          · exact h1
          · exact htags y hy2
      · rw [if_neg h2]
        exact ⟨[], by simp⟩
    · rw [if_neg h1]
      exact ⟨[], by simp⟩

/-- Any sufficient amount of fuel computes the same scan. -/
theorem parseLoopF_stable :
    ∀ (f g : Nat) (cs : List Elem), cs.length ≤ f → cs.length ≤ g →
      parseLoopF f cs = parseLoopF g cs := by
  intro f
  induction f with
  | zero =>
    intro g cs hf _
    have : cs = [] := List.length_eq_zero.mp (Nat.le_zero.mp hf)
    subst this
    cases g <;> rfl
  | succ f ih =>
    intro g cs hf hg
    cases cs with
    | nil => cases g <;> rfl
    | cons c cs' =>
      cases g with
      | zero => simp at hg
      | succ g' =>
        simp only [List.length_cons, Nat.succ_le_succ_iff] at hf hg
        have hrest : (takeGroup [c] cs').2.length ≤ cs'.length :=
          takeGroup_rest_length cs' [c]
        simp only [parseLoopF]
        rw [ih g' cs' hf hg,
            ih g' (takeGroup [c] cs').2 (le_trans hrest hf) (le_trans hrest hg)]

/-! ### Branch equations for `parseLoop` -/

theorem parseLoop_nil : parseLoop [] = ([], []) := rfl

theorem parseLoop_special {c : Elem} {cs : List Elem}
    (h1 : c.tag = wR) (h2 : hasSpecialContent c = true) :
    parseLoop (c :: cs) =
      (Seg.nonText c false :: (parseLoop cs).1, placeholderStr :: (parseLoop cs).2) := by
  show parseLoopF (cs.length + 1) (c :: cs) = _
  simp only [parseLoopF, h1, h2, if_true, if_pos]
  rfl

theorem parseLoop_plain {c : Elem} {cs : List Elem}
    (h1 : c.tag = wR) (h2 : hasSpecialContent c = false) :
    parseLoop (c :: cs) =
      (Seg.text (groupMergedText (takeGroup [c] cs).1) (groupCommonRpr (takeGroup [c] cs).1)
         (takeGroup [c] cs).1 :: (parseLoop (takeGroup [c] cs).2).1,
       groupMergedText (takeGroup [c] cs).1 :: (parseLoop (takeGroup [c] cs).2).2) := by
  show parseLoopF (cs.length + 1) (c :: cs) = _
  simp only [parseLoopF, h1, h2, if_pos, Bool.false_eq_true, if_false]
  rw [parseLoopF_stable cs.length (takeGroup [c] cs).2.length (takeGroup [c] cs).2
        (takeGroup_rest_length cs [c]) le_rfl]
  rfl

theorem parseLoop_math {c : Elem} {cs : List Elem}
    (h1 : ¬ c.tag = wR)
    (h2 : c.tag = mOMath ∨ c.tag = mOMathPara ∨ c.tag = wDrawing ∨ c.tag = wObject) :
    parseLoop (c :: cs) =
      (Seg.nonText c (decide (c.tag = mOMath ∨ c.tag = mOMathPara)) :: (parseLoop cs).1,
       placeholderStr :: (parseLoop cs).2) := by
  show parseLoopF (cs.length + 1) (c :: cs) = _
  simp only [parseLoopF, h1, h2, if_false, if_true, if_pos, if_neg]
  rfl

theorem parseLoop_hyper {c : Elem} {cs : List Elem}
    (h1 : ¬ c.tag = wR)
    (h2 : ¬ (c.tag = mOMath ∨ c.tag = mOMathPara ∨ c.tag = wDrawing ∨ c.tag = wObject))
    (h3 : c.tag = wHyperlink) :
    parseLoop (c :: cs) =
      (Seg.hyper c (hyperMergedText c) (hyperCommonRpr c) :: (parseLoop cs).1,
       hyperMergedText c :: (parseLoop cs).2) := by
  show parseLoopF (cs.length + 1) (c :: cs) = _
  simp only [parseLoopF, if_neg h1, if_neg h2, if_pos h3]
  rfl

theorem parseLoop_unknown {c : Elem} {cs : List Elem}
    (h1 : ¬ c.tag = wR)
    (h2 : ¬ (c.tag = mOMath ∨ c.tag = mOMathPara ∨ c.tag = wDrawing ∨ c.tag = wObject))
    (h3 : ¬ c.tag = wHyperlink) :
    parseLoop (c :: cs) = parseLoop cs := by
  show parseLoopF (cs.length + 1) (c :: cs) = _
  simp only [parseLoopF, if_neg h1, if_neg h2, if_neg h3]
  rfl

/-! ### Separator arithmetic

The separator `【SEG】` starts with `【`; an occurrence can only begin at a
`【`, so chunks free of that character contribute no occurrences and do not
disturb the scan. -/

theorem isPref_self_append (p r : Str) : isPref p (p ++ r) = true := by
  induction p with
  | nil => rfl
  | cons a as ih => simp [isPref, ih]

theorem isPref_cons_ne {p : Char} {ps : Str} {c : Char} {cs : Str} (h : ¬ p = c) :
    isPref (p :: ps) (c :: cs) = false := by
  simp [isPref, h]

theorem countSubAux_cons0 (pat : Str) (c : Char) (cs : Str) :
    countSubAux pat 0 (c :: cs) =
      if isPref pat (c :: cs) then 1 + countSubAux pat (pat.length - 1) cs
      else countSubAux pat 0 cs := rfl

theorem splitAux_cons0 (pat acc : Str) (c : Char) (cs : Str) :
    splitAux pat 0 acc (c :: cs) =
      if isPref pat (c :: cs) then acc :: splitAux pat (pat.length - 1) [] cs
      else splitAux pat 0 (acc ++ [c]) cs := rfl

theorem countSubAux_skip (pat : Str) (l : Str) :
    ∀ r, countSubAux pat l.length (l ++ r) = countSubAux pat 0 r := by
  induction l with
  | nil => intro r; rfl
  | cons x l' ih =>
    intro r
    simp only [List.length_cons, List.cons_append, countSubAux]
    exact ih r

theorem countSubAux_clean (s : Str) (h : '【' ∉ s) :
    ∀ r, countSubAux sepStr 0 (s ++ r) = countSubAux sepStr 0 r := by
  induction s with
  | nil => intro r; rfl
  | cons c s' ih =>
    intro r
    simp only [List.mem_cons, not_or] at h
    have hpref : isPref sepStr (c :: (s' ++ r)) = false := isPref_cons_ne h.1
    rw [List.cons_append, countSubAux_cons0, hpref]
    simp only [Bool.false_eq_true, if_false]
    exact ih h.2 r

theorem countSubAux_sep (r : Str) :
    countSubAux sepStr 0 (sepStr ++ r) = 1 + countSubAux sepStr 0 r := by
  have hpref : isPref sepStr ('【' :: (['S', 'E', 'G', '】'] ++ r)) = true :=
    isPref_self_append sepStr r
  show countSubAux sepStr 0 ('【' :: (['S', 'E', 'G', '】'] ++ r)) = _
  rw [countSubAux_cons0, hpref]
  simp only [if_true]
  exact congrArg (1 + ·) (countSubAux_skip sepStr ['S', 'E', 'G', '】'] r)

/-- Counting the separator in a separator-joined list of clean chunks gives
exactly (number of chunks) − 1. -/
theorem countSub_joinSep (parts : List Str) (hne : parts ≠ [])
    (hclean : ∀ s ∈ parts, '【' ∉ s) :
    countSub sepStr (joinSep sepStr parts) = parts.length - 1 := by
  have main : ∀ ps : List Str, ps ≠ [] → (∀ s ∈ ps, '【' ∉ s) →
      countSubAux sepStr 0 (joinSep sepStr ps) = ps.length - 1 := by
    intro ps
    induction ps with
    | nil => intro h; exact absurd rfl h
    | cons p qs ih =>
      intro _ hcl
      cases qs with
      | nil =>
        show countSubAux sepStr 0 (joinSep sepStr [p]) = 0
        have h2 := countSubAux_clean p (hcl p (by simp)) []
        rw [List.append_nil] at h2
        exact h2
      | cons q qs' =>
        have hj : joinSep sepStr (p :: q :: qs') =
            p ++ (sepStr ++ joinSep sepStr (q :: qs')) := by
          simp [joinSep, List.append_assoc]
        rw [hj, countSubAux_clean p (hcl p (by simp)) _, countSubAux_sep,
            ih (by simp) (fun s hs => hcl s (List.mem_cons_of_mem p hs))]
        simp [Nat.add_comm]
  rw [countSub, if_neg (by simp [sepStr])]
  exact main parts hne hclean

theorem splitAux_skip (pat : Str) (l : Str) :
    ∀ acc r, splitAux pat l.length acc (l ++ r) = splitAux pat 0 acc r := by
  induction l with
  | nil => intro acc r; rfl
  | cons x l' ih =>
    intro acc r
    simp only [List.length_cons, List.cons_append, splitAux]
    exact ih acc r

theorem splitAux_clean (s : Str) (h : '【' ∉ s) :
    ∀ acc r, splitAux sepStr 0 acc (s ++ r) = splitAux sepStr 0 (acc ++ s) r := by
  induction s with
  | nil => intro acc r; rw [List.append_nil]; rfl
  | cons c s' ih =>
    intro acc r
    simp only [List.mem_cons, not_or] at h
    have hpref : isPref sepStr (c :: (s' ++ r)) = false := isPref_cons_ne h.1
    rw [List.cons_append, splitAux_cons0, hpref]
    simp only [Bool.false_eq_true, if_false]
    rw [ih h.2 (acc ++ [c]) r]
    simp

theorem splitAux_sep (acc r : Str) :
    splitAux sepStr 0 acc (sepStr ++ r) = acc :: splitAux sepStr 0 [] r := by
  have hpref : isPref sepStr ('【' :: (['S', 'E', 'G', '】'] ++ r)) = true :=
    isPref_self_append sepStr r
  show splitAux sepStr 0 acc ('【' :: (['S', 'E', 'G', '】'] ++ r)) = _
  rw [splitAux_cons0, hpref]
  simp only [if_true]
  exact congrArg (acc :: ·) (splitAux_skip sepStr ['S', 'E', 'G', '】'] [] r)

/-- Splitting a separator-joined list of clean chunks recovers the chunks. -/
theorem splitOn_joinSep (parts : List Str) (hne : parts ≠ [])
    (hclean : ∀ s ∈ parts, '【' ∉ s) :
    splitOnStr sepStr (joinSep sepStr parts) = parts := by
  have main : ∀ ps : List Str, ps ≠ [] → (∀ s ∈ ps, '【' ∉ s) →
      splitAux sepStr 0 [] (joinSep sepStr ps) = ps := by
    intro ps
    induction ps with
    | nil => intro h; exact absurd rfl h
    | cons p qs ih =>
      intro _ hcl
      cases qs with
      | nil =>
        show splitAux sepStr 0 [] (joinSep sepStr [p]) = [p]
        have h2 := splitAux_clean p (hcl p (by simp)) [] []
        rw [List.append_nil] at h2
        rw [show joinSep sepStr [p] = p from rfl, h2]
        rfl
      | cons q qs' =>
        have hj : joinSep sepStr (p :: q :: qs') =
            p ++ (sepStr ++ joinSep sepStr (q :: qs')) := by
          simp [joinSep, List.append_assoc]
        rw [hj, splitAux_clean p (hcl p (by simp)) [] _]
        simp only [List.nil_append]
        rw [splitAux_sep, ih (by simp) (fun s hs => hcl s (List.mem_cons_of_mem p hs))]
  rw [splitOnStr, if_neg (by simp [sepStr])]
  exact main parts hne hclean

/-! ### Structural facts about the segmenter -/

/-- Induction following the recursion structure of `parseLoop`. -/
theorem parseLoop_induction {motive : List Elem → Prop}
    (hnil : motive [])
    (hspecial : ∀ c cs, c.tag = wR → hasSpecialContent c = true →
      motive cs → motive (c :: cs))
    (hplain : ∀ c cs, c.tag = wR → hasSpecialContent c = false →
      motive (takeGroup [c] cs).2 → motive (c :: cs))
    (hmath : ∀ c cs, ¬ c.tag = wR →
      (c.tag = mOMath ∨ c.tag = mOMathPara ∨ c.tag = wDrawing ∨ c.tag = wObject) →
      motive cs → motive (c :: cs))
    (hhyper : ∀ c cs, ¬ c.tag = wR →
      ¬ (c.tag = mOMath ∨ c.tag = mOMathPara ∨ c.tag = wDrawing ∨ c.tag = wObject) →
      c.tag = wHyperlink → motive cs → motive (c :: cs))
    (hunknown : ∀ c cs, ¬ c.tag = wR →
      ¬ (c.tag = mOMath ∨ c.tag = mOMathPara ∨ c.tag = wDrawing ∨ c.tag = wObject) →
      ¬ c.tag = wHyperlink → motive cs → motive (c :: cs)) :
    ∀ cs, motive cs := by
  have key : ∀ n cs, List.length cs ≤ n → motive cs := by
    intro n
    induction n with
    | zero =>
      intro cs h
      rw [List.length_eq_zero.mp (Nat.le_zero.mp h)]
      exact hnil
    | succ n ih =>
      intro cs h
      cases cs with
      | nil => exact hnil
      | cons c cs' =>
        simp only [List.length_cons, Nat.succ_le_succ_iff] at h
        by_cases h1 : c.tag = wR
        · by_cases h2 : hasSpecialContent c = true
          · exact hspecial c cs' h1 h2 (ih cs' h)
          · refine hplain c cs' h1 (Bool.not_eq_true _ ▸ h2) ?_
            exact ih _ (le_trans (takeGroup_rest_length cs' [c]) h)
        · by_cases h2 : c.tag = mOMath ∨ c.tag = mOMathPara ∨ c.tag = wDrawing ∨
              c.tag = wObject
          · exact hmath c cs' h1 h2 (ih cs' h)
          · by_cases h3 : c.tag = wHyperlink
            · exact hhyper c cs' h1 h2 h3 (ih cs' h)
            · exact hunknown c cs' h1 h2 h3 (ih cs' h)
  intro cs
  exact key cs.length cs le_rfl

/-- The scan produces exactly one blob entry per segment. -/
theorem parseLoop_lengths (cs : List Elem) :
    (parseLoop cs).2.length = (parseLoop cs).1.length := by
  induction cs using parseLoop_induction with
  | hnil => rfl
  | hspecial c cs h1 h2 ih => rw [parseLoop_special h1 h2]; simpa using ih
  | hplain c cs h1 h2 ih => rw [parseLoop_plain h1 h2]; simpa using ih
  | hmath c cs h1 h2 ih => rw [parseLoop_math h1 h2]; simpa using ih
  | hhyper c cs h1 h2 h3 ih => rw [parseLoop_hyper h1 h2 h3]; simpa using ih
  | hunknown c cs h1 h2 h3 ih => rw [parseLoop_unknown h1 h2 h3]; exact ih

/-- Convenient form of `takeGroup_spec` for a group started at `c`. -/
theorem takeGroup_start (c : Elem) (cs : List Elem) :
    ∃ taken, (takeGroup [c] cs).1 = c :: taken ∧ cs = taken ++ (takeGroup [c] cs).2 ∧
      ∀ y ∈ taken, y.tag = wR := by
  obtain ⟨taken, heq, hsplit, htags⟩ := takeGroup_spec cs [c]
  refine ⟨taken, ?_, hsplit, htags⟩
  rw [heq]
  rfl

/-- The segment sources are exactly the handled children, in original order:
unknown-tagged children are dropped, everything else appears exactly once. -/
theorem parseLoop_sources (cs : List Elem) :
    ((parseLoop cs).1.map segSources).flatten = cs.filter isHandledTag := by
  induction cs using parseLoop_induction with
  | hnil => rfl
  | hspecial c cs h1 h2 ih =>
    rw [parseLoop_special h1 h2]
    have hh : isHandledTag c = true := by simp [isHandledTag, h1]
    simp only [List.map_cons, List.flatten_cons, List.filter_cons, hh, if_true]
    simpa [segSources] using ih
  | hplain c cs h1 h2 ih =>
    rw [parseLoop_plain h1 h2]
    obtain ⟨taken, hgrp, hsplit, htags⟩ := takeGroup_start c cs
    have hh : isHandledTag c = true := by simp [isHandledTag, h1]
    have hft : taken.filter isHandledTag = taken := by
      apply List.filter_eq_self.mpr
      intro y hy
      simp [isHandledTag, htags y hy]
    have hfil : cs.filter isHandledTag =
        taken ++ (takeGroup [c] cs).2.filter isHandledTag := by
      conv_lhs => rw [hsplit]
      rw [List.filter_append, hft]
    simp only [List.map_cons, List.flatten_cons, List.filter_cons, hh, if_true,
      segSources]
    rw [hgrp, hfil, ih]
    simp
  | hmath c cs h1 h2 ih =>
    rw [parseLoop_math h1 h2]
    have hh : isHandledTag c = true := by
      rcases h2 with h | h | h | h <;> simp [isHandledTag, h]
    simp only [List.map_cons, List.flatten_cons, List.filter_cons, hh, if_true]
    simpa [segSources] using ih
  | hhyper c cs h1 h2 h3 ih =>
    rw [parseLoop_hyper h1 h2 h3]
    have hh : isHandledTag c = true := by simp [isHandledTag, h3]
    simp only [List.map_cons, List.flatten_cons, List.filter_cons, hh, if_true]
    simpa [segSources] using ih
  | hunknown c cs h1 h2 h3 ih =>
    rw [parseLoop_unknown h1 h2 h3]
    have hh : isHandledTag c = false := by
      push_neg at h2
      simp [isHandledTag, h1, h2.1, h2.2.1, h2.2.2.1, h2.2.2.2, h3]
    simp only [List.filter_cons, hh]
    exact ih

/-! ### Clean texts: paragraphs whose text nodes avoid the separator's
opening character -/

theorem findByTag_mem {t : String} {l : List Elem} {e : Elem}
    (h : findByTag t l = some e) : e ∈ l := by
  induction l with
  | nil => cases h
  | cons c cs ih =>
    by_cases hc : c.tag = t
    · rw [findByTag, if_pos hc] at h
      cases h
      simp
    · rw [findByTag, if_neg hc] at h
      exact List.mem_cons_of_mem c (ih h)

theorem descList_append (a b : List Elem) :
    descList (a ++ b) = descList a ++ descList b := by
  induction a with
  | nil => rfl
  | cons c cs ih => simp [descList, ih]

/-- Descendant transitivity: descendants of a descendant are descendants. -/
theorem descList_trans :
    ∀ cs : List Elem, ∀ x ∈ descList cs, ∀ d ∈ descendants x, d ∈ descList cs := by
  have key : ∀ n : Nat, ∀ cs : List Elem, Elem.size.sizeList cs ≤ n →
      ∀ x ∈ descList cs, ∀ d ∈ descendants x, d ∈ descList cs := by
    intro n
    induction n with
    | zero =>
      intro cs h x hx
      cases cs with
      | nil => cases hx
      | cons y ys =>
        exfalso
        have := Elem.size_pos y
        simp only [Elem.size.sizeList] at h
        omega
    | succ n ih =>
      intro cs h x hx d hd
      cases cs with
      | nil => cases hx
      | cons y ys =>
        simp only [descList, List.mem_cons, List.mem_append] at hx
        simp only [Elem.size.sizeList] at h
        rcases hx with rfl | hx2 | hx3
        · simp only [descList, List.mem_cons, List.mem_append]
          exact Or.inr (Or.inl hd)
        · have hsub : ∀ d2 ∈ descendants x, d2 ∈ descendants y := by
            cases y with
            | mk ty ay xy csy =>
              intro d2 hd2
              have hsz : Elem.size.sizeList csy ≤ n := by
                have := Elem.size_pos x
                simp only [Elem.size] at h
                omega
              exact ih csy hsz x hx2 d2 hd2
          simp only [descList, List.mem_cons, List.mem_append]
          exact Or.inr (Or.inl (hsub d hd))
        · have hsz : Elem.size.sizeList ys ≤ n := by
            have := Elem.size_pos y
            omega
          simp only [descList, List.mem_cons, List.mem_append]
          exact Or.inr (Or.inr (ih ys hsz x hx3 d hd))
  intro cs x hx d hd
  exact key (Elem.size.sizeList cs) cs le_rfl x hx d hd

theorem cleanForest_of_append_left {a b : List Elem} (h : CleanForest (a ++ b)) :
    CleanForest a := by
  intro d hd
  exact h d (by rw [descList_append]; exact List.mem_append_left _ hd)

theorem cleanForest_of_append_right {a b : List Elem} (h : CleanForest (a ++ b)) :
    CleanForest b := by
  intro d hd
  exact h d (by rw [descList_append]; exact List.mem_append_right _ hd)

theorem cleanForest_of_cons {c : Elem} {cs : List Elem} (h : CleanForest (c :: cs)) :
    CleanForest cs := by
  intro d hd
  apply h d
  simp only [descList, List.mem_cons, List.mem_append]
  exact Or.inr (Or.inr hd)

/-- Any run reachable in a clean forest yields clean merged text. -/
theorem runText_clean {cs : List Elem} (h : CleanForest cs) {r : Elem}
    (hr : r ∈ descList cs) : '【' ∉ runText r := by
  unfold runText
  cases hfind : findByTag wT r.children with
  | none => simp
  | some t =>
    have ht : t ∈ descendants r := mem_descendants_of_child (findByTag_mem hfind)
    have htd : t ∈ descList cs := descList_trans cs r hr t ht
    exact h t htd

/-- Hyperlink merged text is clean in a clean forest. -/
theorem hyperText_clean {cs : List Elem} (h : CleanForest cs) {c : Elem}
    (hc : c ∈ cs) : '【' ∉ hyperMergedText c := by
  unfold hyperMergedText
  intro hmem
  rw [List.mem_flatten] at hmem
  obtain ⟨l, hl, hcl⟩ := hmem
  rw [List.mem_map] at hl
  obtain ⟨r, hr, rfl⟩ := hl
  have hrdesc : r ∈ descendants c := by
    have := List.mem_of_mem_filter hr
    exact List.mem_of_mem_filter this
  have hrd : r ∈ descList cs := descendants_trans hc hrdesc
  exact runText_clean h hrd hcl

/-- The placeholder token contains no separator character. -/
theorem placeholder_clean : '【' ∉ placeholderStr := by decide

/-- Group merged text is clean when all group members live in the forest. -/
theorem groupText_clean {cs : List Elem} (h : CleanForest cs) {g : List Elem}
    (hg : ∀ r ∈ g, r ∈ descList cs) : '【' ∉ groupMergedText g := by
  unfold groupMergedText
  intro hmem
  rw [List.mem_flatten] at hmem
  obtain ⟨l, hl, hcl⟩ := hmem
  rw [List.mem_map] at hl
  obtain ⟨r, hr, rfl⟩ := hl
  exact runText_clean h (hg r hr) hcl

/-- Every blob entry produced by the scan over a clean forest is clean. -/
theorem parseLoop_entries_clean (cs : List Elem) (h : CleanForest cs) :
    ∀ s ∈ (parseLoop cs).2, '【' ∉ s := by
  induction cs using parseLoop_induction with
  | hnil => intro s hs; cases hs
  | hspecial c cs h1 h2 ih =>
    rw [parseLoop_special h1 h2]
    intro s hs
    rcases List.mem_cons.mp hs with rfl | hs2
    · exact placeholder_clean
    · exact ih (cleanForest_of_cons h) s hs2
  | hplain c cs h1 h2 ih =>
    rw [parseLoop_plain h1 h2]
    obtain ⟨taken, hgrp, hsplit, _⟩ := takeGroup_start c cs
    have hclean2 : CleanForest (takeGroup [c] cs).2 := by
      apply @cleanForest_of_append_right taken _
      rw [← hsplit]
      exact cleanForest_of_cons h
    intro s hs
    rcases List.mem_cons.mp hs with rfl | hs2
    · refine groupText_clean h ?_
      rw [hgrp]
      intro r hr
      apply mem_descList_of_mem
      rcases List.mem_cons.mp hr with rfl | hr2
      · simp
      · rw [hsplit]
        exact List.mem_cons_of_mem c (List.mem_append_left _ hr2)
    · exact ih hclean2 s hs2
  | hmath c cs h1 h2 ih =>
    rw [parseLoop_math h1 h2]
    intro s hs
    rcases List.mem_cons.mp hs with rfl | hs2
    · exact placeholder_clean
    · exact ih (cleanForest_of_cons h) s hs2
  | hhyper c cs h1 h2 h3 ih =>
    rw [parseLoop_hyper h1 h2 h3]
    intro s hs
    rcases List.mem_cons.mp hs with rfl | hs2
    · exact hyperText_clean h (by simp)
    · exact ih (cleanForest_of_cons h) s hs2
  | hunknown c cs h1 h2 h3 ih =>
    rw [parseLoop_unknown h1 h2 h3]
    exact ih (cleanForest_of_cons h)

/-- Claim C1, counterexample: the blob-separator invariant fails as stated.
For the paragraph whose single run's text is the separator token `【SEG】`
itself, segmentation yields one segment but the constructed blob contains the
separator once, not zero times. -/
theorem c1_counterexample :
    (parse_paragraph_structure c1Para).segments.length = 1 ∧
    countSub (parse_paragraph_structure c1Para).segment_separator
        (parse_paragraph_structure c1Para).full_text_for_llm ≠
      (parse_paragraph_structure c1Para).segments.length - 1 := by
  constructor
  · rfl
  · decide

/-- Claim C1, amended: for every paragraph node none of whose descendant text
nodes contains the separator's opening character `【`, a segmentation with a
non-empty segment list of length N yields a translation blob containing the
separator token exactly N − 1 times (one between each pair of consecutive
segment entries, no leading or trailing separator). -/
theorem c1_separator_count_amended (p : Elem)
    (hclean : CleanForest p.children)
    (hne : 0 < (parse_paragraph_structure p).segments.length) :
    countSub (parse_paragraph_structure p).segment_separator
        (parse_paragraph_structure p).full_text_for_llm =
      (parse_paragraph_structure p).segments.length - 1 := by
  have hlen := parseLoop_lengths p.children
  have hcl := parseLoop_entries_clean p.children hclean
  have hne2 : (parseLoop p.children).2 ≠ [] := by
    intro h0
    rw [show (parse_paragraph_structure p).segments = (parseLoop p.children).1 from rfl]
      at hne
    rw [← hlen, h0] at hne
    simp at hne
  show countSub sepStr (joinSep sepStr (parseLoop p.children).2) =
    (parseLoop p.children).1.length - 1
  rw [countSub_joinSep _ hne2 hcl, hlen]

/-- Claim C1, witness: the amended theorem applied to a concrete paragraph
with three segments (text, drawing placeholder, text): its blob contains the
separator exactly twice. -/
theorem c1_witness :
    countSub (parse_paragraph_structure c1WitnessPara).segment_separator
        (parse_paragraph_structure c1WitnessPara).full_text_for_llm =
      (parse_paragraph_structure c1WitnessPara).segments.length - 1 ∧
    (parse_paragraph_structure c1WitnessPara).segments.length = 3 :=
  ⟨c1_separator_count_amended c1WitnessPara (by decide) (by decide), rfl⟩

/-- Claim C6, counterexample: an unknown-tagged paragraph child is not passed
through.  The paragraph has two children (a bookmark and a run), but the
reconstructed paragraph has only one child — the bookmark is lost. -/
theorem c6_counterexample :
    c6Para.children.length = 2 ∧
    (reconstruct_translated_paragraph (parse_paragraph_structure c6Para)
        (some (parse_paragraph_structure c6Para).full_text_for_llm)).map
      (fun q => q.children.length) = .ok 1 :=
  ⟨rfl, rfl⟩

/-- Claim C6, amended: a paragraph child whose tag is not one of the handled
kinds is skipped with a warning and dropped from the output; the handled
children are carried into the segment list exactly once each and in the
original order (the concatenated segment sources equal the handled-children
subsequence). -/
theorem c6_unknown_children_amended (p : Elem) :
    ((parse_paragraph_structure p).segments.map segSources).flatten =
      p.children.filter isHandledTag :=
  parseLoop_sources p.children

/-! ### The merge relation is an equivalence, and group invariants -/

theorem compat_refl (a : Elem) : compat a a = true :=
  compare_rpr_iff.mpr (nmRel_refl _)

theorem compat_symm {a b : Elem} (h : compat a b = true) : compat b a = true :=
  compare_rpr_iff.mpr (nmRel_symm (compare_rpr_iff.mp h))

theorem compat_trans {a b c : Elem} (h1 : compat a b = true) (h2 : compat b c = true) :
    compat a c = true :=
  compare_rpr_iff.mpr (nmRel_trans (compare_rpr_iff.mp h1) (compare_rpr_iff.mp h2))

/-- Every element the loop adds to a group is comparator-equal to the group's
first run (or is that run itself). -/
theorem takeGroup_compat :
    ∀ (xs : List Elem) (f : Elem) (t : List Elem),
      (∀ y ∈ t, compat f y = true) →
      ∀ y ∈ (takeGroup (f :: t) xs).1, y = f ∨ compat f y = true := by
  intro xs
  induction xs with
  | nil =>
    intro f t ht y hy
    simp only [takeGroup] at hy
    rcases List.mem_cons.mp hy with rfl | hy2
    · exact Or.inl rfl
    · exact Or.inr (ht y hy2)
  | cons c cs ih =>
    intro f t ht y hy
    simp only [takeGroup] at hy
    by_cases h1 : c.tag = wR
    · rw [if_pos h1] at hy
      by_cases h2 : (select_consistent_style (f :: t ++ [c])).isSome = true
      · rw [if_pos (by rw [show (f :: t) ++ [c] = f :: (t ++ [c]) from rfl]; exact h2)] at hy
        have hall : ∀ r ∈ t ++ [c], compat f r = true := select_isSome_iff.mp h2
        rw [show (f :: t) ++ [c] = f :: (t ++ [c]) from rfl] at hy
        exact ih f (t ++ [c]) hall y hy
      · rw [if_neg (by rw [show (f :: t) ++ [c] = f :: (t ++ [c]) from rfl]; exact h2)] at hy
        rcases List.mem_cons.mp hy with rfl | hy2
        · exact Or.inl rfl
        · exact Or.inr (ht y hy2)
    · rw [if_neg h1] at hy
      rcases List.mem_cons.mp hy with rfl | hy2
      · exact Or.inl rfl
      · exact Or.inr (ht y hy2)

theorem compat_of_group {f : Elem} {t : List Elem}
    (h : ∀ y ∈ t, y = f ∨ compat f y = true) : ∀ y ∈ t, compat f y = true := by
  intro y hy
  rcases h y hy with rfl | hc
  · exact compat_refl y
  · exact hc

/-- When the loop stops in front of a run, the extended group is inconsistent. -/
theorem takeGroup_stop :
    ∀ (xs : List Elem) (grp : List Elem) (d : Elem) (rest2 : List Elem),
      (takeGroup grp xs).2 = d :: rest2 → d.tag = wR →
      (select_consistent_style ((takeGroup grp xs).1 ++ [d])).isSome = false := by
  intro xs
  induction xs with
  | nil =>
    intro grp d rest2 h
    simp [takeGroup] at h
  | cons c cs ih =>
    intro grp d rest2 h hd
    simp only [takeGroup] at h ⊢
    by_cases h1 : c.tag = wR
    · rw [if_pos h1] at h ⊢
      by_cases h2 : (select_consistent_style (grp ++ [c])).isSome = true
      · rw [if_pos h2] at h ⊢
        exact ih (grp ++ [c]) d rest2 h hd
      · rw [if_neg h2] at h ⊢
        cases h
        exact Bool.not_eq_true _ ▸ h2
    · rw [if_neg h1] at h ⊢
      cases h
      exact absurd hd h1

/-- Structure of text-run-group segments: the runs start with the group head
and every later member is comparator-equal to it. -/
theorem parseLoop_group_struct (cs : List Elem) :
    ∀ seg ∈ (parseLoop cs).1, ∀ ot rpr runs, seg = Seg.text ot rpr runs →
      ∃ f t, runs = f :: t ∧ ∀ y ∈ t, compat f y = true := by
  induction cs using parseLoop_induction with
  | hnil => intro seg hseg; cases hseg
  | hspecial c cs h1 h2 ih =>
    rw [parseLoop_special h1 h2]
    intro seg hseg ot rpr runs heq
    rcases List.mem_cons.mp hseg with rfl | hseg2
    · cases heq
    · exact ih seg hseg2 ot rpr runs heq
  | hplain c cs h1 h2 ih =>
    rw [parseLoop_plain h1 h2]
    intro seg hseg ot rpr runs heq
    rcases List.mem_cons.mp hseg with rfl | hseg2
    · cases heq
      obtain ⟨taken, hgrp, _, _⟩ := takeGroup_start c cs
      refine ⟨c, taken, hgrp, ?_⟩
      apply compat_of_group
      intro y hy
      have := takeGroup_compat cs c [] (by intro y hy; cases hy) y
      rw [hgrp] at this
      exact this (List.mem_cons_of_mem c hy)
    · exact ih seg hseg2 ot rpr runs heq
  | hmath c cs h1 h2 ih =>
    rw [parseLoop_math h1 h2]
    intro seg hseg ot rpr runs heq
    rcases List.mem_cons.mp hseg with rfl | hseg2
    · cases heq
    · exact ih seg hseg2 ot rpr runs heq
  | hhyper c cs h1 h2 h3 ih =>
    rw [parseLoop_hyper h1 h2 h3]
    intro seg hseg ot rpr runs heq
    rcases List.mem_cons.mp hseg with rfl | hseg2
    · cases heq
    · exact ih seg hseg2 ot rpr runs heq
  | hunknown c cs h1 h2 h3 ih =>
    rw [parseLoop_unknown h1 h2 h3]
    exact ih

theorem parseLoop_adjacent_merged :
    ∀ (n : Nat) (cs pre post : List Elem) (r1 r2 : Elem),
      cs.length ≤ n →
      cs = pre ++ r1 :: r2 :: post →
      r1.tag = wR → hasSpecialContent r1 = false → r2.tag = wR →
      compat r1 r2 = true →
      ∃ pre2 post2 ot rpr g1 g2,
        (parseLoop cs).1 = pre2 ++ Seg.text ot rpr (g1 ++ r1 :: r2 :: g2) :: post2 := by
  intro n
  induction n with
  | zero =>
    intro cs pre post r1 r2 hn hcs _ _ _ _
    subst hcs
    simp at hn
  | succ n ih =>
    intro cs pre post r1 r2 hn hcs h1r h1s h2r hcomp
    cases pre with
    | nil =>
      subst hcs
      simp only [List.nil_append]
      rw [parseLoop_plain h1r h1s]
      have hsel : (select_consistent_style (r1 :: [r2])).isSome = true := by
        apply select_isSome_iff.mpr
        intro r hr
        rw [List.mem_singleton] at hr
        subst hr
        exact hcomp
      have hTG : takeGroup [r1] (r2 :: post) = takeGroup [r1, r2] post := by
        rw [takeGroup, if_pos h2r,
          if_pos (show (select_consistent_style ([r1] ++ [r2])).isSome = true from hsel)]
        rfl
      obtain ⟨taken, heq, _, _⟩ := takeGroup_spec post [r1, r2]
      refine ⟨[], (parseLoop (takeGroup [r1] (r2 :: post)).2).1,
        groupMergedText (takeGroup [r1] (r2 :: post)).1,
        groupCommonRpr (takeGroup [r1] (r2 :: post)).1, [], taken, ?_⟩
      simp only [List.nil_append]
      have hg1 : (takeGroup [r1] (r2 :: post)).1 = r1 :: r2 :: taken := by
        rw [hTG, heq]
        rfl
      rw [hg1]
    | cons c pre' =>
      have hcs2 : cs = c :: (pre' ++ r1 :: r2 :: post) := by simpa using hcs
      subst hcs2
      have hlen' : (pre' ++ r1 :: r2 :: post).length ≤ n := by
        simp only [List.length_cons] at hn
        omega
      by_cases h1 : c.tag = wR
      · by_cases h2 : hasSpecialContent c = true
        · rw [parseLoop_special h1 h2]
          obtain ⟨p2, q2, ot, rpr, g1, g2, hdec⟩ :=
            ih (pre' ++ r1 :: r2 :: post) pre' post r1 r2 hlen' rfl h1r h1s h2r hcomp
          exact ⟨Seg.nonText c false :: p2, q2, ot, rpr, g1, g2, by
            simp only [hdec, List.cons_append]⟩
        · have h2f : hasSpecialContent c = false := Bool.not_eq_true _ ▸ h2
          rw [parseLoop_plain h1 h2f]
          obtain ⟨taken, hgrp, hsplit, htags⟩ :=
            takeGroup_start c (pre' ++ r1 :: r2 :: post)
          have hEq : taken ++ (takeGroup [c] (pre' ++ r1 :: r2 :: post)).2 =
              pre' ++ (r1 :: r2 :: post) := hsplit.symm
          rcases List.append_eq_append_iff.mp hEq with ⟨a', hpre, hrest⟩ |
            ⟨c', htaken, hpair⟩
          · have hlen2 : (takeGroup [c] (pre' ++ r1 :: r2 :: post)).2.length ≤ n :=
              le_trans (takeGroup_rest_length _ _) hlen'
            obtain ⟨p2, q2, ot, rpr, g1, g2, hdec⟩ :=
              ih _ a' post r1 r2 hlen2 hrest h1r h1s h2r hcomp
            exact ⟨Seg.text (groupMergedText (takeGroup [c] (pre' ++ r1 :: r2 :: post)).1)
              (groupCommonRpr (takeGroup [c] (pre' ++ r1 :: r2 :: post)).1)
              (takeGroup [c] (pre' ++ r1 :: r2 :: post)).1 :: p2, q2, ot, rpr, g1, g2, by
              simp only [hdec, List.cons_append]⟩
          · cases c' with
            | nil =>
              rw [List.append_nil] at htaken
              have hrest : (takeGroup [c] (pre' ++ r1 :: r2 :: post)).2 =
                  r1 :: r2 :: post := by simpa using hpair.symm
              have hlen2 : (takeGroup [c] (pre' ++ r1 :: r2 :: post)).2.length ≤ n := by
                rw [hrest]
                calc (r1 :: r2 :: post).length ≤ (pre' ++ r1 :: r2 :: post).length := by
                      simp
                  _ ≤ n := hlen'
              obtain ⟨p2, q2, ot, rpr, g1, g2, hdec⟩ :=
                ih _ [] post r1 r2 hlen2 (by rw [hrest]; rfl) h1r h1s h2r hcomp
              exact ⟨Seg.text (groupMergedText (takeGroup [c] (pre' ++ r1 :: r2 :: post)).1)
                (groupCommonRpr (takeGroup [c] (pre' ++ r1 :: r2 :: post)).1)
                (takeGroup [c] (pre' ++ r1 :: r2 :: post)).1 :: p2, q2, ot, rpr, g1, g2, by
                simp only [hdec, List.cons_append]⟩
            | cons x c'' =>
              rw [List.cons_append, List.cons.injEq] at hpair
              obtain ⟨hx, hpair2⟩ := hpair
              subst hx
              cases c'' with
              | nil =>
                exfalso
                rw [List.nil_append] at hpair2
                have hrest : (takeGroup [c] (pre' ++ r1 :: r2 :: post)).2 =
                    r2 :: post := hpair2.symm
                have hstop := takeGroup_stop (pre' ++ r1 :: r2 :: post) [c] r2 post
                  hrest h2r
                have hr1mem : r1 ∈ (takeGroup [c] (pre' ++ r1 :: r2 :: post)).1 := by
                  rw [hgrp, htaken]
                  simp
                have hcompat_c : ∀ y ∈ (takeGroup [c] (pre' ++ r1 :: r2 :: post)).1,
                    y = c ∨ compat c y = true := by
                  intro y hy
                  exact takeGroup_compat _ c [] (by intro z hz; cases hz) y hy
                have hc_r1 : compat c r1 = true := by
                  rcases hcompat_c r1 hr1mem with heqq | hcc
                  · rw [heqq]; exact compat_refl c
                  · exact hcc
                have hc_r2 : compat c r2 = true := compat_trans hc_r1 hcomp
                have hsome : (select_consistent_style
                    ((takeGroup [c] (pre' ++ r1 :: r2 :: post)).1 ++ [r2])).isSome = true := by
                  rw [hgrp]
                  rw [show (c :: taken) ++ [r2] = c :: (taken ++ [r2]) from rfl]
                  apply select_isSome_iff.mpr
                  intro r hr
                  rcases List.mem_append.mp hr with hr1 | hr2
                  · rcases hcompat_c r (by rw [hgrp]; exact List.mem_cons_of_mem c hr1)
                      with heqq | hcc
                    · rw [heqq]; exact compat_refl c
                    · exact hcc
                  · rw [List.mem_singleton] at hr2
                    subst hr2
                    exact hc_r2
                rw [hstop] at hsome
                cases hsome
              | cons y c''' =>
                rw [List.cons_append, List.cons.injEq] at hpair2
                obtain ⟨hy, _⟩ := hpair2
                subst hy
                refine ⟨[], (parseLoop (takeGroup [c] (pre' ++ r1 :: r2 :: post)).2).1,
                  groupMergedText (takeGroup [c] (pre' ++ r1 :: r2 :: post)).1,
                  groupCommonRpr (takeGroup [c] (pre' ++ r1 :: r2 :: post)).1,
                  c :: pre', c''', ?_⟩
                simp only [List.nil_append]
                rw [hgrp, htaken]
                simp
      · by_cases h2 : c.tag = mOMath ∨ c.tag = mOMathPara ∨ c.tag = wDrawing ∨
            c.tag = wObject
        · rw [parseLoop_math h1 h2]
          obtain ⟨p2, q2, ot, rpr, g1, g2, hdec⟩ :=
            ih (pre' ++ r1 :: r2 :: post) pre' post r1 r2 hlen' rfl h1r h1s h2r hcomp
          exact ⟨Seg.nonText c (decide (c.tag = mOMath ∨ c.tag = mOMathPara)) :: p2,
            q2, ot, rpr, g1, g2, by simp only [hdec, List.cons_append]⟩
        · by_cases h3 : c.tag = wHyperlink
          · rw [parseLoop_hyper h1 h2 h3]
            obtain ⟨p2, q2, ot, rpr, g1, g2, hdec⟩ :=
              ih (pre' ++ r1 :: r2 :: post) pre' post r1 r2 hlen' rfl h1r h1s h2r hcomp
            exact ⟨Seg.hyper c (hyperMergedText c) (hyperCommonRpr c) :: p2,
              q2, ot, rpr, g1, g2, by simp only [hdec, List.cons_append]⟩
          · rw [parseLoop_unknown h1 h2 h3]
            exact ih (pre' ++ r1 :: r2 :: post) pre' post r1 r2 hlen' rfl h1r h1s h2r hcomp

/-- Claim C3: merge correctness of segmentation.  For any two adjacent plain
runs of a paragraph (both `w:r`, neither carrying special content):
if their run-property sets are comparator-equal after normalization they are
always placed adjacently inside one `text_run_group` segment, and if their
normalized property sets differ they never share a segment. -/
theorem c3_merge_correctness (p : Elem) (pre post : List Elem) (r1 r2 : Elem)
    (hch : p.children = pre ++ r1 :: r2 :: post)
    (h1r : r1.tag = wR) (h2r : r2.tag = wR)
    (h1s : hasSpecialContent r1 = false) (h2s : hasSpecialContent r2 = false) :
    (compat r1 r2 = true →
      ∃ pre2 post2 ot rpr g1 g2,
        (parse_paragraph_structure p).segments =
          pre2 ++ Seg.text ot rpr (g1 ++ r1 :: r2 :: g2) :: post2) ∧
    (compat r1 r2 = false →
      ∀ seg ∈ (parse_paragraph_structure p).segments, ∀ ot rpr runs,
        seg = Seg.text ot rpr runs → ¬ (r1 ∈ runs ∧ r2 ∈ runs)) := by
  constructor
  · intro hc
    exact parseLoop_adjacent_merged p.children.length p.children pre post r1 r2
      le_rfl hch h1r h1s h2r hc
  · intro hc seg hseg ot rpr runs heq hmem
    obtain ⟨hm1, hm2⟩ := hmem
    obtain ⟨f, t, hruns, hall⟩ :=
      parseLoop_group_struct p.children seg hseg ot rpr runs heq
    subst hruns
    have h1 : r1 = f ∨ compat f r1 = true := by
      rcases List.mem_cons.mp hm1 with h | hmem1
      · exact Or.inl h
      · exact Or.inr (hall _ hmem1)
    have h2' : r2 = f ∨ compat f r2 = true := by
      rcases List.mem_cons.mp hm2 with h | hmem2
      · exact Or.inl h
      · exact Or.inr (hall _ hmem2)
    have hcontra : compat r1 r2 = true := by
      rcases h1 with h1e | h1c
      · rcases h2' with h2e | h2c
        · rw [h1e, h2e]; exact compat_refl f
        · rw [h1e]; exact h2c
      · rcases h2' with h2e | h2c
        · rw [h2e]; exact compat_symm h1c
        · exact compat_trans (compat_symm h1c) h2c
    rw [hcontra] at hc
    cases hc

/-- Claim C3, witness: in a paragraph with an italic run followed by the bold
runs `A` and `BC`, the two bold runs are comparator-equal and end up adjacent
in one text-run-group segment. -/
theorem c3_witness :
    ∃ pre2 post2 ot rpr g1 g2,
      (parse_paragraph_structure c3Para).segments =
        pre2 ++ Seg.text ot rpr (g1 ++ c3RunA :: c3RunBC :: g2) :: post2 :=
  (c3_merge_correctness c3Para [c3RunIt] [] c3RunA c3RunBC rfl rfl rfl rfl rfl).1
    (by decide)

theorem wPPr_ne_wR : wPPr ≠ wR := by decide

theorem wRPr_ne_wT : wRPr ≠ wT := by decide

theorem wPPr_not_math :
    ¬ (wPPr = mOMath ∨ wPPr = mOMathPara ∨ wPPr = wDrawing ∨ wPPr = wObject) := by
  decide

theorem wPPr_ne_wHyperlink : wPPr ≠ wHyperlink := by decide

theorem findByTag_none {t : String} {l : List Elem} (h : ∀ x ∈ l, x.tag ≠ t) :
    findByTag t l = none := by
  induction l with
  | nil => rfl
  | cons c cs ih =>
    rw [findByTag, if_neg (h c (by simp))]
    exact ih (fun x hx => h x (List.mem_cons_of_mem c hx))

/-- Children with the skipped `w:pPr` tag do not affect the scan. -/
theorem parseLoop_skip_ppr (pprPart runs : List Elem)
    (hppr : ∀ x ∈ pprPart, x.tag = wPPr) :
    parseLoop (pprPart ++ runs) = parseLoop runs := by
  induction pprPart with
  | nil => rfl
  | cons x xs ih =>
    have hx : x.tag = wPPr := hppr x (by simp)
    rw [List.cons_append,
      parseLoop_unknown (by rw [hx]; exact wPPr_ne_wR)
        (by rw [hx]; exact wPPr_not_math) (by rw [hx]; exact wPPr_ne_wHyperlink)]
    exact ih (fun y hy => hppr y (List.mem_cons_of_mem x hy))

theorem groupMergedText_singleton (r : Elem) : groupMergedText [r] = runText r := by
  simp [groupMergedText]

/-- Under pairwise-distinct adjacent styles every group is a singleton and the
scan maps each run to its own segment and text entry. -/
theorem parseLoop_singletons (runs : List Elem)
    (hruns : ∀ r ∈ runs, simpleRun r = true)
    (hadj : adjacentDistinct runs = true) :
    parseLoop runs =
      (runs.map (fun r => Seg.text (runText r) (rprOfRun r) [r]),
       runs.map runText) := by
  induction runs with
  | nil => rfl
  | cons r rest ih =>
    have hr := hruns r (by simp)
    have hrtag : r.tag = wR := by
      have := hr
      simp only [simpleRun, Bool.and_eq_true, beq_iff_eq] at this
      exact this.1.1.1.1
    have hrspec : hasSpecialContent r = false := by
      have := hr
      simp only [simpleRun, Bool.and_eq_true, beq_iff_eq, Bool.not_eq_true'] at this
      exact this.1.2
    rw [parseLoop_plain hrtag hrspec]
    have hTG : takeGroup [r] rest = ([r], rest) := by
      cases rest with
      | nil => rfl
      | cons r2 rest2 =>
        have hr2tag : r2.tag = wR := by
          have := hruns r2 (by simp)
          simp only [simpleRun, Bool.and_eq_true, beq_iff_eq] at this
          exact this.1.1.1.1
        have hncomp : compat r r2 = false := by
          simp only [adjacentDistinct, Bool.and_eq_true, Bool.not_eq_true'] at hadj
          exact hadj.1
        have hnsel : (select_consistent_style (r :: [r2])).isSome = false := by
          rw [Bool.eq_false_iff]
          intro hsome
          have := select_isSome_iff.mp hsome r2 (by simp)
          rw [hncomp] at this
          cases this
        rw [takeGroup, if_pos hr2tag,
          if_neg (by rw [show [r] ++ [r2] = r :: [r2] from rfl, hnsel]; simp)]
    have hadj2 : adjacentDistinct rest = true := by
      cases rest with
      | nil => rfl
      | cons r2 rest2 =>
        simp only [adjacentDistinct, Bool.and_eq_true] at hadj
        exact hadj.2
    rw [hTG]
    simp only [groupMergedText_singleton]
    have hcr : groupCommonRpr [r] = rprOfRun r := rfl
    rw [hcr, ih (fun x hx => hruns x (List.mem_cons_of_mem r hx)) hadj2]
    rfl

theorem emitSeg_simple {parts : List Str} {i : Nat} {r : Elem}
    (hr : simpleRun r = true) (hp : parts.get? i = some (runText r)) :
    emitSeg parts i (Seg.text (runText r) (rprOfRun r) [r]) = .ok r := by
  cases r with
  | mk tr ar xr csr =>
    simp only [simpleRun, Bool.and_eq_true, beq_iff_eq, Bool.not_eq_true',
      Elem.tag, Elem.attrs, Elem.text, Elem.children] at hr
    obtain ⟨⟨⟨⟨htag, hattrs⟩, htext⟩, _⟩, hshape⟩ := hr
    subst htag
    have hattrs2 : ar = [] := List.isEmpty_iff.mp hattrs
    subst hattrs2
    have htext2 : xr = none := by
      cases xr with
      | none => rfl
      | some s => simp at htext
    subst htext2
    match csr, hshape with
    | [t], hsh =>
      cases t with
      | mk tt att xt ct =>
        simp only [isSimpleT, Bool.and_eq_true, beq_iff_eq,
          Elem.tag, Elem.attrs, Elem.text, Elem.children] at hsh
        obtain ⟨⟨httag, hct⟩, hmatch⟩ := hsh
        subst httag
        have hct2 : ct = [] := List.isEmpty_iff.mp hct
        subst hct2
        cases xt with
        | none => simp at hmatch
        | some tx =>
          have hatt : att = spaceAttrs tx := by simpa using hmatch
          subst hatt
          have hfind : findByTag wT [Elem.mk wT (spaceAttrs tx) (some tx) []] =
              some (Elem.mk wT (spaceAttrs tx) (some tx) []) := by
            rw [findByTag,
              if_pos (show (Elem.mk wT (spaceAttrs tx) (some tx) []).tag = wT from rfl)]
          have hrun : runText (Elem.mk wR [] none [Elem.mk wT (spaceAttrs tx) (some tx) []]) = tx := by
            show ((findByTag wT [Elem.mk wT (spaceAttrs tx) (some tx) []]).bind
              Elem.text).getD [] = tx
            rw [hfind]
            rfl
          have hrpr : rprOfRun (Elem.mk wR [] none [Elem.mk wT (spaceAttrs tx) (some tx) []]) = none := by
            show findByTag wRPr [Elem.mk wT (spaceAttrs tx) (some tx) []] = none
            rw [findByTag, if_neg (show ¬ (Elem.mk wT (spaceAttrs tx) (some tx) []).tag = wRPr
              from fun h => wRPr_ne_wT h.symm)]
            rfl
          rw [hrun] at hp
          simp only [emitSeg, hrpr, hrun, hp, Option.getD_some, List.nil_append]
          rw [show (if spaceCond tx then [(xmlSpaceA, "preserve")] else []) = spaceAttrs tx from rfl]
    | [rpr, t], hsh =>
      have hand := hsh
      simp only [Bool.and_eq_true] at hand
      have hrprtag2 : rpr.tag = wRPr := beq_iff_eq.mp hand.1
      have hsht := hand.2
      cases t with
      | mk tt att xt ct =>
        simp only [isSimpleT, Bool.and_eq_true, beq_iff_eq,
          Elem.tag, Elem.attrs, Elem.text, Elem.children] at hsht
        obtain ⟨⟨httag, hct⟩, hmatch⟩ := hsht
        subst httag
        have hct2 : ct = [] := List.isEmpty_iff.mp hct
        subst hct2
        cases xt with
        | none => simp at hmatch
        | some tx =>
          have hatt : att = spaceAttrs tx := by simpa using hmatch
          subst hatt
          have hfind : findByTag wT [rpr, Elem.mk wT (spaceAttrs tx) (some tx) []] =
              some (Elem.mk wT (spaceAttrs tx) (some tx) []) := by
            rw [findByTag, if_neg (show ¬ rpr.tag = wT by rw [hrprtag2]; exact wRPr_ne_wT),
              findByTag,
              if_pos (show (Elem.mk wT (spaceAttrs tx) (some tx) []).tag = wT from rfl)]
          have hrun : runText (Elem.mk wR [] none [rpr, Elem.mk wT (spaceAttrs tx) (some tx) []]) = tx := by
            show ((findByTag wT [rpr, Elem.mk wT (spaceAttrs tx) (some tx) []]).bind
              Elem.text).getD [] = tx
            rw [hfind]
            rfl
          have hrpr : rprOfRun (Elem.mk wR [] none [rpr, Elem.mk wT (spaceAttrs tx) (some tx) []]) = some rpr := by
            show findByTag wRPr [rpr, Elem.mk wT (spaceAttrs tx) (some tx) []] = some rpr
            rw [findByTag, if_pos hrprtag2]
          rw [hrun] at hp
          simp only [emitSeg, hrpr, hrun, hp, Option.getD_some]
          rw [show (if spaceCond tx then [(xmlSpaceA, "preserve")] else []) = spaceAttrs tx from rfl]
          rfl

theorem emitSegs_simple (rs : List Elem) :
    ∀ (parts : List Str) (i : Nat),
      (∀ r ∈ rs, simpleRun r = true) →
      (∀ j, j < rs.length → parts.get? (i + j) = (rs.map runText).get? j) →
      emitSegs parts i (rs.map (fun r => Seg.text (runText r) (rprOfRun r) [r])) =
        .ok rs := by
  induction rs with
  | nil => intro parts i _ _; rfl
  | cons r rest ih =>
    intro parts i hruns hparts
    have hp0 : parts.get? i = some (runText r) := by
      have := hparts 0 (by simp)
      simpa using this
    simp only [List.map_cons, emitSegs]
    rw [emitSeg_simple (hruns r (by simp)) hp0]
    rw [ih parts (i + 1) (fun x hx => hruns x (List.mem_cons_of_mem r hx))
      (fun j hj => by
        have := hparts (j + 1) (by simpa using Nat.succ_lt_succ hj)
        rw [show i + 1 + j = i + (j + 1) by omega]
        simpa using this)]

theorem reconstruct_ok_form {pd : ParaData} {t : Option Str} {kids : List Elem}
    (h : emitSegs (splitOnStr pd.segment_separator (t.getD pd.full_text_for_llm)) 0
      pd.segments = .ok kids) :
    reconstruct_translated_paragraph pd t = .ok (Elem.mk wP [] none
      ((match findByTag wPPr pd.p_node.children with
        | some ppr => [ppr] | none => []) ++ kids)) := by
  simp only [reconstruct_translated_paragraph]
  rw [h]

theorem pprSlice_eq (pprPart runs : List Elem)
    (hppr : ∀ x ∈ pprPart, x.tag = wPPr) (hplen : pprPart.length ≤ 1)
    (hrtags : ∀ x ∈ runs, x.tag = wR) :
    (match findByTag wPPr (pprPart ++ runs) with
      | some ppr => [ppr] | none => []) = pprPart := by
  cases pprPart with
  | nil =>
    rw [List.nil_append, findByTag_none]
    intro x hx
    rw [hrtags x hx]
    exact fun h => wPPr_ne_wR h.symm
  | cons x xs =>
    cases xs with
    | nil =>
      rw [List.cons_append, List.nil_append, findByTag, if_pos (hppr x (by simp))]
    | cons y ys => simp at hplen

/-- Claim C2 (amended): segmenting and reconstructing with the identical blob
reproduces the paragraph exactly — for paragraphs made of an optional leading
`w:pPr` and plain single-text runs whose adjacent normalized properties are
pairwise distinct and whose texts avoid the separator character.  (When
adjacent runs share properties they are merged into a single reconstructed
run, and multi-run hyperlinks crash reconstruction, so the general statement
is corrected to this class; see the counterexample.) -/
theorem c2_roundtrip_amended (pprPart runs : List Elem)
    (hppr : ∀ x ∈ pprPart, x.tag = wPPr) (hplen : pprPart.length ≤ 1)
    (hruns : ∀ r ∈ runs, simpleRun r = true)
    (hadj : adjacentDistinct runs = true)
    (hclean : CleanForest runs) :
    reconstruct_translated_paragraph
        (parse_paragraph_structure (Elem.mk wP [] none (pprPart ++ runs)))
        (some (parse_paragraph_structure
          (Elem.mk wP [] none (pprPart ++ runs))).full_text_for_llm) =
      .ok (Elem.mk wP [] none (pprPart ++ runs)) := by
  have hrtags : ∀ x ∈ runs, x.tag = wR := by
    intro x hx
    have := hruns x hx
    simp only [simpleRun, Bool.and_eq_true, beq_iff_eq] at this
    exact this.1.1.1.1
  have hloop : parseLoop (pprPart ++ runs) = parseLoop runs :=
    parseLoop_skip_ppr pprPart runs hppr
  have hsing := parseLoop_singletons runs hruns hadj
  have hsegs : (parse_paragraph_structure (Elem.mk wP [] none (pprPart ++ runs))).segments =
      runs.map (fun r => Seg.text (runText r) (rprOfRun r) [r]) := by
    show (parseLoop (Elem.mk wP [] none (pprPart ++ runs)).children).1 = _
    rw [show (Elem.mk wP [] none (pprPart ++ runs)).children = pprPart ++ runs from rfl,
      hloop, hsing]
  have hblob : (parse_paragraph_structure (Elem.mk wP [] none (pprPart ++ runs))).full_text_for_llm =
      joinSep sepStr (runs.map runText) := by
    show joinSep sepStr (parseLoop (Elem.mk wP [] none (pprPart ++ runs)).children).2 = _
    rw [show (Elem.mk wP [] none (pprPart ++ runs)).children = pprPart ++ runs from rfl,
      hloop, hsing]
  have hsep : (parse_paragraph_structure (Elem.mk wP [] none (pprPart ++ runs))).segment_separator =
      sepStr := rfl
  have hparts : splitOnStr sepStr (joinSep sepStr (runs.map runText)) =
      runs.map runText ∨ runs = [] := by
    cases runs with
    | nil => exact Or.inr rfl
    | cons r0 rest =>
      left
      apply splitOn_joinSep
      · simp
      · intro s hs
        rw [List.mem_map] at hs
        obtain ⟨r, hr, rfl⟩ := hs
        exact runText_clean hclean (mem_descList_of_mem hr)
  have hemit : emitSegs (splitOnStr sepStr (joinSep sepStr (runs.map runText))) 0
      (runs.map (fun r => Seg.text (runText r) (rprOfRun r) [r])) = .ok runs := by
    rcases hparts with hp | hp
    · rw [hp]
      apply emitSegs_simple runs _ 0 hruns
      intro j hj
      rw [Nat.zero_add]
    · subst hp
      rfl
  have hfin := @reconstruct_ok_form (parse_paragraph_structure
      (Elem.mk wP [] none (pprPart ++ runs)))
    (some (parse_paragraph_structure
      (Elem.mk wP [] none (pprPart ++ runs))).full_text_for_llm)
    runs (by
      rw [hsegs, hsep, Option.getD_some, hblob]
      exact hemit)
  rw [hfin]
  have hpn : (parse_paragraph_structure (Elem.mk wP [] none (pprPart ++ runs))).p_node =
      Elem.mk wP [] none (pprPart ++ runs) := rfl
  rw [hpn]
  rw [show (Elem.mk wP [] none (pprPart ++ runs)).children = pprPart ++ runs from rfl]
  rw [pprSlice_eq pprPart runs hppr hplen hrtags]

/-- Claim C2, counterexample: the identity round trip does not reproduce the
original paragraph structurally.  The paragraph has two runs with identical
(absent) properties; segmentation merges them, and reconstruction emits a
single run — the run count changes from 2 to 1. -/
theorem c2_counterexample :
    c2Para.children.length = 2 ∧
    (reconstruct_translated_paragraph (parse_paragraph_structure c2Para)
        (some (parse_paragraph_structure c2Para).full_text_for_llm)).map
      (fun q => q.children.length) = .ok 1 :=
  ⟨rfl, rfl⟩

/-- Claim C2, witness: the amended round trip applied to a concrete paragraph
with a `w:pPr`, a bold run and a space-preserving plain run. -/
theorem c2_witness :
    reconstruct_translated_paragraph (parse_paragraph_structure c2WitnessPara)
        (some (parse_paragraph_structure c2WitnessPara).full_text_for_llm) =
      .ok c2WitnessPara :=
  c2_roundtrip_amended [c2Ppr] [c2Run1, c2Run2] (by decide) (by decide) (by decide)
    (by decide) (by decide)

/-- Emission succeeds and follows `segChildSpec` whenever no segment is a
multi-run hyperlink with a text node. -/
theorem emitSegs_ok_of_hyperOk :
    ∀ (segs : List Seg) (parts : List Str) (i : Nat),
      (∀ seg ∈ segs, hyperOk seg = true) →
      ∃ kids, emitSegs parts i segs = .ok kids ∧ kids.length = segs.length ∧
        ∀ j (hj : j < segs.length) (hk : j < kids.length),
          segChildSpec parts (i + j) (segs.get ⟨j, hj⟩) (kids.get ⟨j, hk⟩) := by
  intro segs
  induction segs with
  | nil =>
    intro parts i _
    exact ⟨[], rfl, rfl, by intro j hj; simp at hj⟩
  | cons s rest ih =>
    intro parts i hok
    have hs : ∃ k, emitSeg parts i s = .ok k ∧ segChildSpec parts i s k := by
      cases s with
      | text ot rpr runs =>
        refine ⟨_, rfl, ?_⟩
        simp only [segChildSpec]
        rfl
      | nonText n im => exact ⟨n, rfl, rfl⟩
      | hyper n ot rpr =>
        have hko := hok (Seg.hyper n ot rpr) (by simp)
        simp only [hyperOk, Bool.or_eq_true, Option.isNone_iff_eq_none,
          decide_eq_true_eq] at hko
        cases hfd : findFirstDesc (fun e => e.tag = wT) n with
        | none =>
          refine ⟨n, ?_, ?_⟩
          · simp only [emitSeg, hfd]
          · simp only [segChildSpec, hfd]
        | some t0 =>
          have hcnt : countDesc (fun e => e.tag = wR) n < 2 := by
            rcases hko with h | h
            · rw [hfd] at h; cases h
            · exact h
          refine ⟨updHyperlinkText ((parts.get? i).getD ot) n, ?_, ?_⟩
          · simp only [emitSeg, hfd]
            rw [if_neg (by omega)]
          · simp only [segChildSpec, hfd]
    obtain ⟨k, hk, hspec⟩ := hs
    obtain ⟨kids, hkids, hlen, hrest⟩ :=
      ih parts (i + 1) (fun seg hseg => hok seg (List.mem_cons_of_mem s hseg))
    refine ⟨k :: kids, ?_, by simpa using hlen, ?_⟩
    · simp only [emitSegs, hk, hkids]
    · intro j hj hjk
      cases j with
      | zero => simpa using hspec
      | succ j2 =>
        have hj2 : j2 < rest.length := by simpa using hj
        have hjk2 : j2 < kids.length := by simpa using hjk
        have := hrest j2 hj2 hjk2
        rw [show i + (j2 + 1) = i + 1 + j2 by omega]
        simpa using this

/-- Claim C4 (amended): reconstruction tolerance for short translations.
For every paragraph structure whose hyperlink segments carry at most one
inner run (or no text node — the multi-run case crashes on the missing
`getparent`, see the counterexample), and for every translated blob,
reconstruction succeeds and produces exactly one child per segment after the
optional `w:pPr` copy, in original order; each text slot holds the split
translation entry when supplied and the segment's recorded original text
otherwise, and non-text nodes are re-inserted unchanged. -/
theorem c4_mismatch_tolerance_amended (pnode : Elem) (segs : List Seg)
    (blob0 tb : Str) (hok : ∀ seg ∈ segs, hyperOk seg = true) :
    ∃ kids,
      reconstruct_translated_paragraph ⟨pnode, segs, blob0, sepStr⟩ (some tb) =
        .ok (Elem.mk wP [] none (pprSlice pnode ++ kids)) ∧
      kids.length = segs.length ∧
      ∀ j (hj : j < segs.length) (hk : j < kids.length),
        segChildSpec (splitOnStr sepStr tb) j (segs.get ⟨j, hj⟩)
          (kids.get ⟨j, hk⟩) := by
  obtain ⟨kids, hkids, hlen, hspec⟩ :=
    emitSegs_ok_of_hyperOk segs (splitOnStr sepStr tb) 0 hok
  refine ⟨kids, ?_, hlen, fun j hj hk => by simpa using hspec j hj hk⟩
  have hform := @reconstruct_ok_form ⟨pnode, segs, blob0, sepStr⟩
    (some tb) kids (by simpa using hkids)
  rw [hform]
  rfl

/-- Claim C4, counterexample: for a structure with two segments and a blob
with one fewer separator than expected, reconstruction does not produce two
children — it raises `AttributeError` in the hyperlink branch. -/
theorem c4_counterexample :
    (parse_paragraph_structure c4Para).segments.length = 2 ∧
    countSub sepStr ['X'] < (parse_paragraph_structure c4Para).segments.length - 1 ∧
    reconstruct_translated_paragraph (parse_paragraph_structure c4Para)
        (some ['X']) = .error .attributeError := by
  refine ⟨rfl, by decide, rfl⟩

/-- Claim C4, witness: the amended theorem applied to a three-segment
structure and a translated blob carrying one separator fewer than expected. -/
theorem c4_witness :
    ∃ kids,
      reconstruct_translated_paragraph
          ⟨c4WitnessPara, (parse_paragraph_structure c4WitnessPara).segments,
           (parse_paragraph_structure c4WitnessPara).full_text_for_llm, sepStr⟩
          (some (['X'] ++ sepStr ++ ['Y'])) =
        .ok (Elem.mk wP [] none (pprSlice c4WitnessPara ++ kids)) ∧
      kids.length = (parse_paragraph_structure c4WitnessPara).segments.length ∧
      ∀ j (hj : j < (parse_paragraph_structure c4WitnessPara).segments.length)
        (hk : j < kids.length),
        segChildSpec (splitOnStr sepStr (['X'] ++ sepStr ++ ['Y'])) j
          ((parse_paragraph_structure c4WitnessPara).segments.get ⟨j, hj⟩)
          (kids.get ⟨j, hk⟩) :=
  c4_mismatch_tolerance_amended c4WitnessPara
    (parse_paragraph_structure c4WitnessPara).segments
    (parse_paragraph_structure c4WitnessPara).full_text_for_llm
    (['X'] ++ sepStr ++ ['Y']) (by decide)

/-- Claim C5: evaluating the reconstruction at the failing input.  The
hyperlink carries two inner runs; the deletion loop reaches
`r_elem.getparent()`, which stdlib `ElementTree` elements do not have, so
reconstruction raises `AttributeError` instead of collapsing the hyperlink to
a single text run. -/
theorem c5_hyperlink_reconstruction_crash :
    countDesc (fun e => e.tag = wR) c5Hyper = 2 ∧
    reconstruct_translated_paragraph (parse_paragraph_structure c5Para)
        (some (parse_paragraph_structure c5Para).full_text_for_llm) =
      .error .attributeError :=
  ⟨rfl, rfl⟩

theorem length_filter_mono {α : Type} (p q : α → Bool) (l : List α)
    (h : ∀ x, p x = true → q x = true) :
    (l.filter p).length ≤ (l.filter q).length := by
  induction l with
  | nil => simp
  | cons x xs ih =>
    by_cases hp : p x = true
    · rw [List.filter_cons_of_pos hp, List.filter_cons_of_pos (h x hp)]
      simpa using ih
    · rw [List.filter_cons_of_neg (by simpa using hp)]
      by_cases hq : q x = true
      · rw [List.filter_cons_of_pos hq]
        exact Nat.le_succ_of_le ih
      · rw [List.filter_cons_of_neg (by simpa using hq)]
        exact ih

theorem contains_tail_false {x id : String} {visited : List String}
    (hx : ((id :: visited).contains x) = false) : visited.contains x = false := by
  rw [List.contains_cons, Bool.or_eq_false_iff] at hx
  exact hx.2

theorem filter_visited_cons_lt (keys visited : List String) (id : String)
    (hmem : id ∈ keys) (hnv : visited.contains id = false) :
    (keys.filter (fun k => !((id :: visited).contains k))).length <
      (keys.filter (fun k => !(visited.contains k))).length := by
  have hsub : ∀ x : String,
      (!((id :: visited).contains x)) = true → (!(visited.contains x)) = true := by
    intro x hx
    rw [Bool.not_eq_true'] at hx
    rw [contains_tail_false hx]
    rfl
  induction keys with
  | nil => cases hmem
  | cons k ks ih =>
    simp only [List.filter_cons]
    by_cases hk : k = id
    · subst hk
      have h1 : ((k :: visited).contains k) = true := by simp [List.contains_cons]
      rw [h1, hnv]
      simp only [Bool.not_true, Bool.not_false]
      rw [if_neg (by decide), if_pos trivial, List.length_cons]
      exact Nat.lt_succ_of_le (length_filter_mono _ _ ks hsub)
    · have hck : ((id :: visited).contains k) = visited.contains k := by
        simp [List.contains_cons, hk]
      have hmem' : id ∈ ks := by
        cases List.mem_cons.mp hmem with
        | inl h => exact absurd h.symm hk
        | inr h => exact h
      rw [hck]
      cases hkv : visited.contains k with
      | true =>
        simp only [Bool.not_true]
        rw [if_neg (by decide), if_neg (by decide)]
        exact ih hmem'
      | false =>
        simp only [Bool.not_false]
        rw [if_pos trivial, if_pos trivial, List.length_cons, List.length_cons]
        exact Nat.succ_lt_succ (ih hmem')

theorem lookupStyle_mem {styles : List (String × StyleInfo)} {id : String}
    {info : StyleInfo} (h : lookupStyle styles id = some info) :
    id ∈ styles.map Prod.fst := by
  unfold lookupStyle at h
  cases hf : styles.find? (fun kv => kv.1 = id) with
  | none => rw [hf] at h; cases h
  | some kv =>
    have hkv := List.find?_some hf
    have hmem := List.mem_of_find?_eq_some hf
    have hid : kv.1 = id := of_decide_eq_true hkv
    exact hid ▸ List.mem_map.mpr ⟨kv, hmem, rfl⟩

theorem keysNotVisited_cons_lt {styles : List (String × StyleInfo)}
    {visited : List String} {id : String} (hmem : id ∈ styles.map Prod.fst)
    (hnv : visited.contains id = false) :
    keysNotVisited styles (id :: visited) < keysNotVisited styles visited :=
  filter_visited_cons_lt _ _ _ hmem hnv

theorem keysNotVisited_le (styles : List (String × StyleInfo))
    (visited : List String) : keysNotVisited styles visited ≤ styles.length := by
  unfold keysNotVisited
  calc ((styles.map Prod.fst).filter (fun k => !(visited.contains k))).length
      ≤ (styles.map Prod.fst).length := List.length_filter_le _ _
    _ = styles.length := List.length_map _ _

/-- The inheritance walk's result does not depend on the fuel once the fuel
exceeds the number of unvisited table keys: this is the termination argument
for the `while` loop (each iteration either stops or visits a fresh key). -/
theorem walkFuel_stable (styles : List (String × StyleInfo)) :
    ∀ f g visited cur, keysNotVisited styles visited < f →
      keysNotVisited styles visited < g →
      walkFuel styles f visited cur = walkFuel styles g visited cur := by
  intro f
  induction f with
  | zero => intro g visited cur hf _; exact absurd hf (Nat.not_lt_zero _)
  | succ f ih =>
    intro g visited cur hf hg
    cases g with
    | zero => exact absurd hg (Nat.not_lt_zero _)
    | succ g' =>
      cases cur with
      | none => rfl
      | some id =>
        simp only [walkFuel]
        by_cases hc : id = "" ∨ visited.contains id = true
        · rw [if_pos hc, if_pos hc]
        · rw [if_neg hc, if_neg hc]
          cases hl : lookupStyle styles id with
          | none => rfl
          | some info =>
            have hnv : visited.contains id = false := by
              cases hb : visited.contains id
              · rfl
              · exact absurd (Or.inr hb) hc
            have hlt := keysNotVisited_cons_lt (lookupStyle_mem hl) hnv
            have heq := ih g' (id :: visited) info.based_on
              (lt_of_lt_of_le hlt (Nat.lt_succ_iff.mp hf))
              (lt_of_lt_of_le hlt (Nat.lt_succ_iff.mp hg))
            simp only [heq]

/-- With fuel exceeding the number of unvisited keys the walk never runs out:
the loop terminates normally on every table, cyclic `based_on` chains
included. -/
theorem walkFuel_isSome (styles : List (String × StyleInfo)) :
    ∀ f visited cur, keysNotVisited styles visited < f →
      (walkFuel styles f visited cur).isSome = true := by
  intro f
  induction f with
  | zero => intro visited cur hf; exact absurd hf (Nat.not_lt_zero _)
  | succ f ih =>
    intro visited cur hf
    cases cur with
    | none => rfl
    | some id =>
      simp only [walkFuel]
      by_cases hc : id = "" ∨ visited.contains id = true
      · rw [if_pos hc]
        rfl
      · rw [if_neg hc]
        cases hl : lookupStyle styles id with
        | none => rfl
        | some info =>
          have hnv : visited.contains id = false := by
            cases hb : visited.contains id
            · rfl
            · exact absurd (Or.inr hb) hc
          have hlt := keysNotVisited_cons_lt (lookupStyle_mem hl) hnv
          have hrec := ih (id :: visited) info.based_on
            (lt_of_lt_of_le hlt (Nat.lt_succ_iff.mp hf))
          obtain ⟨rest, hr⟩ := Option.isSome_iff_exists.mp hrec
          simp only [hr]
          rfl

/-- Claim C8: for every style table — cyclic `based_on` chains included — the
inheritance walk of `get_style_rpr` terminates: any fuel beyond the table
size completes the walk (the loop stops at a missing parent, an unknown
identifier, or a revisited identifier), and the result is the merge of the
run properties collected along the walked chain, or `none` when that chain
declared none. -/
theorem c8_style_walk_terminates (sm : StyleManager) (style_id : String) (f : Nat)
    (hf : sm.styles.length < f) :
    ∃ stack, walkFuel sm.styles f [] (some style_id) = some stack ∧
      sm.get_style_rpr style_id =
        (if stack.isEmpty then none else some (mergeRprStack stack)) := by
  have hm : keysNotVisited sm.styles [] < f :=
    lt_of_le_of_lt (keysNotVisited_le _ _) hf
  obtain ⟨stack, hst⟩ := Option.isSome_iff_exists.mp
    (walkFuel_isSome sm.styles f [] (some style_id) hm)
  refine ⟨stack, hst, ?_⟩
  unfold StyleManager.get_style_rpr
  rw [walkFuel_stable sm.styles (sm.styles.length + 1) f [] (some style_id)
      (lt_of_le_of_lt (keysNotVisited_le _ _) (Nat.lt_succ_self _)) hm, hst]

/-- C8 witness: the two-style cycle terminates with fuel 5 and resolves to
the merged stack. -/
theorem c8_witness :
    c8SM.styles.length < 5 ∧
    ∃ stack, walkFuel c8SM.styles 5 [] (some "A") = some stack ∧
      c8SM.get_style_rpr "A" =
        (if stack.isEmpty then none else some (mergeRprStack stack)) :=
  ⟨by decide, c8_style_walk_terminates c8SM "A" 5 (by decide)⟩

theorem emptySM_walk (id : String) : walkFuel [] 1 [] (some id) = some [] := by
  simp only [walkFuel]
  by_cases hc : id = "" ∨ ([] : List String).contains id = true
  · rw [if_pos hc]
  · rw [if_neg hc]
    rfl

theorem emptySM_rpr (id : String) :
    StyleManager.get_style_rpr ⟨[], [], none⟩ id = none := by
  unfold StyleManager.get_style_rpr
  show (match walkFuel [] 1 [] (some id) with
    | none => none
    | some stack => if stack.isEmpty then none else some (mergeRprStack stack)) = none
  rw [emptySM_walk id]
  rfl

theorem emptySM_size (id : String) :
    StyleManager.get_size_by_style_id ⟨[], [], none⟩ id = none := by
  unfold StyleManager.get_size_by_style_id
  rw [emptySM_rpr id]

/-- Claim C10: a `StyleManager` built from empty bytes or unparsable XML
(`initStyleManager none`, the constructor's early return and its
`ParseError` handler) carries empty tables, after which `get_style_rpr`,
`get_size_by_style_id` and `get_default_size` return `none` for every
identifier and `get_style_name` returns `"Unknown"`. -/
theorem c10_stylemanager_error_handling :
    initStyleManager none = ⟨[], [], none⟩ ∧
    (∀ id, (initStyleManager none).get_style_rpr id = none) ∧
    (∀ id, (initStyleManager none).get_size_by_style_id id = none) ∧
    (initStyleManager none).get_default_size = none ∧
    (∀ id, (initStyleManager none).get_style_name id = "Unknown") := by
  refine ⟨rfl, fun id => emptySM_rpr id, fun id => emptySM_size id,
    emptySM_size "Normal", fun id => rfl⟩

/-- The retry loop returns the original blob or a cleaned, non-empty
response from one of its attempts: the refusal and exhaustion paths yield
the original, and the success path is guarded by the post-loop emptiness
check. -/
theorem tpGo_cases (orig : Str) (ph : Nat) (attempts : List ApiResult) :
    tpGo orig ph attempts = orig ∨
    ∃ raw, ApiResult.ok raw ∈ attempts ∧
      tpGo orig ph attempts = clean_llm_output raw ∧
      (clean_llm_output raw).isEmpty = false := by
  induction attempts with
  | nil => exact Or.inl rfl
  | cons a rest ih =>
    cases a with
    | err =>
      rcases ih with h | ⟨raw, hm, he, hne⟩
      · exact Or.inl h
      · exact Or.inr ⟨raw, List.mem_cons_of_mem _ hm, he, hne⟩
    | ok raw =>
      simp only [tpGo]
      split
      · exact Or.inl rfl
      · split
        · rcases ih with h | ⟨r2, hm, he, hne⟩
          · exact Or.inl h
          · exact Or.inr ⟨r2, List.mem_cons_of_mem _ hm, he, hne⟩
        · split
          · split
            · exact Or.inl rfl
            · next hne =>
              exact Or.inr ⟨raw, List.mem_cons_self _ _, rfl, by simpa using hne⟩
          · rcases ih with h | ⟨r2, hm, he, hne⟩
            · exact Or.inl h
            · exact Or.inr ⟨r2, List.mem_cons_of_mem _ hm, he, hne⟩

theorem foldl_set_length (f : Nat → Str) (order : List Nat) :
    ∀ res : List Str,
      (order.foldl (fun r j => r.set j (f j)) res).length = res.length := by
  induction order with
  | nil => intro res; rfl
  | cons j rest ih => intro res; rw [List.foldl_cons, ih, List.length_set]

/-- Index-wise description of the results array after the `as_completed`
fill loop: every index appearing in the completion order holds its
future's value, all others are untouched. -/
theorem foldl_set_getD (f : Nat → Str) (order : List Nat) :
    ∀ (res : List Str) (i : Nat), (∀ j ∈ order, j < res.length) →
      (order.foldl (fun r j => r.set j (f j)) res).getD i [] =
        if i ∈ order then f i else res.getD i [] := by
  induction order with
  | nil => intro res i _; simp
  | cons j rest ih =>
    intro res i hb
    rw [List.foldl_cons,
      ih (res.set j (f j)) i (fun k hk => by
        rw [List.length_set]; exact hb k (List.mem_cons_of_mem _ hk))]
    by_cases hir : i ∈ rest
    · rw [if_pos hir, if_pos (List.mem_cons_of_mem _ hir)]
    · rw [if_neg hir]
      by_cases hij : i = j
      · subst hij
        rw [if_pos (List.mem_cons_self _ _)]
        have hlt : i < res.length := hb i (List.mem_cons_self _ _)
        simp [List.getD_eq_getElem?_getD, List.getElem?_set, hlt]
      · rw [if_neg (fun hmem => (List.mem_cons.mp hmem).elim hij hir)]
        simp [List.getD_eq_getElem?_getD, List.getElem?_set,
          show ¬j = i from fun h => hij h.symm]

theorem foldl_cset_length (p : Nat → Bool) (f : Nat → Str) (order : List Nat) :
    ∀ res : List Str,
      (order.foldl (fun r j => if p j then r else r.set j (f j)) res).length =
        res.length := by
  induction order with
  | nil => intro res; rfl
  | cons j rest ih =>
    intro res
    rw [List.foldl_cons]
    cases hpj : p j with
    | true => rw [if_pos rfl, ih]
    | false => rw [if_neg (by decide), ih, List.length_set]

/-- Index-wise description of the final backfill loop: an index is reset to
its original blob exactly when the skip test rejects it. -/
theorem foldl_cset_getD (p : Nat → Bool) (f : Nat → Str) (order : List Nat) :
    ∀ (res : List Str) (i : Nat), (∀ j ∈ order, j < res.length) →
      (order.foldl (fun r j => if p j then r else r.set j (f j)) res).getD i [] =
        if i ∈ order ∧ p i = false then f i else res.getD i [] := by
  induction order with
  | nil => intro res i _; simp
  | cons j rest ih =>
    intro res i hb
    rw [List.foldl_cons]
    cases hpj : p j with
    | true =>
      rw [if_pos rfl, ih res i (fun k hk => hb k (List.mem_cons_of_mem _ hk))]
      by_cases hc : i ∈ rest ∧ p i = false
      · rw [if_pos hc, if_pos ⟨List.mem_cons_of_mem _ hc.1, hc.2⟩]
      · rw [if_neg hc, if_neg (fun hcon => by
          rcases hcon with ⟨hm, hp⟩
          rcases List.mem_cons.mp hm with h | h
          · subst h
            rw [hpj] at hp
            exact Bool.noConfusion hp
          · exact hc ⟨h, hp⟩)]
    | false =>
      rw [if_neg (by decide),
        ih (res.set j (f j)) i (fun k hk => by
          rw [List.length_set]; exact hb k (List.mem_cons_of_mem _ hk))]
      by_cases hc : i ∈ rest ∧ p i = false
      · rw [if_pos hc, if_pos ⟨List.mem_cons_of_mem _ hc.1, hc.2⟩]
      · rw [if_neg hc]
        by_cases hij : i = j
        · subst hij
          rw [if_pos ⟨List.mem_cons_self _ _, hpj⟩]
          have hlt : i < res.length := hb i (List.mem_cons_self _ _)
          simp [List.getD_eq_getElem?_getD, List.getElem?_set, hlt]
        · rw [if_neg (fun hcon => by
            rcases hcon with ⟨hm, hp⟩
            exact hc ⟨(List.mem_cons.mp hm).resolve_left hij, hp⟩)]
          simp [List.getD_eq_getElem?_getD, List.getElem?_set,
            show ¬j = i from fun h => hij h.symm]

/-- Index-wise value of the concurrent batch, for any completion order that
is a permutation of the submitted indices: whitespace-only blobs and
future-level exceptions come back as the original blob, everything else as
its paragraph's translation. -/
theorem llm_tc_getD (blobs : List Str) (api : Nat → List ApiResult)
    (exc : Nat → Bool) (order : List Nat)
    (horder : order.Perm ((List.range blobs.length).filter
      (fun i => !(pyStrip (blobs.getD i [])).isEmpty)))
    (i : Nat) (hi : i < blobs.length) :
    (llm_translate_concurrent blobs api exc order).getD i [] =
      (if (pyStrip (blobs.getD i [])).isEmpty then blobs.getD i []
       else if exc i then blobs.getD i []
       else translate_paragraph (blobs.getD i []) (api i)) := by
  simp only [llm_translate_concurrent]
  by_cases hE : ((List.range blobs.length).filter
      (fun i => !(pyStrip (blobs.getD i [])).isEmpty)).isEmpty = true
  · rw [if_pos hE]
    have hws : (pyStrip (blobs.getD i [])).isEmpty = true := by
      by_contra hws
      have hmem : i ∈ (List.range blobs.length).filter
          (fun i => !(pyStrip (blobs.getD i [])).isEmpty) :=
        List.mem_filter.mpr ⟨List.mem_range.mpr hi, by simpa using hws⟩
      rw [List.isEmpty_iff.mp hE] at hmem
      exact List.not_mem_nil i hmem
    rw [if_pos hws]
  · rw [if_neg hE]
    have hbody : (fun (res : List Str) i =>
        if exc i then res.set i (blobs.getD i [])
        else res.set i (translate_paragraph (blobs.getD i []) (api i))) =
        (fun (res : List Str) i => res.set i
          (if exc i then blobs.getD i []
           else translate_paragraph (blobs.getD i []) (api i))) := by
      funext res j
      exact (apply_ite (res.set j) _ _ _).symm
    rw [hbody]
    have hlen1 : (order.foldl (fun (res : List Str) j => res.set j
        (if exc j then blobs.getD j []
         else translate_paragraph (blobs.getD j []) (api j)))
        (List.replicate blobs.length [])).length = blobs.length := by
      rw [foldl_set_length, List.length_replicate]
    rw [foldl_cset_getD _ _ _ _ i (fun j hj => by
      rw [hlen1]; exact List.mem_range.mp hj)]
    by_cases hws : (pyStrip (blobs.getD i [])).isEmpty = true
    · have hnm : ¬ i ∈ (List.range blobs.length).filter
          (fun i => !(pyStrip (blobs.getD i [])).isEmpty) := by
        intro hmem
        have := (List.mem_filter.mp hmem).2
        rw [hws] at this
        exact Bool.noConfusion this
      have hnc : ((List.range blobs.length).filter
          (fun i => !(pyStrip (blobs.getD i [])).isEmpty)).contains i = false := by
        simpa using hnm
      rw [if_pos ⟨List.mem_range.mpr hi, hnc⟩, if_pos hws]
    · have hmem : i ∈ (List.range blobs.length).filter
          (fun i => !(pyStrip (blobs.getD i [])).isEmpty) :=
        List.mem_filter.mpr ⟨List.mem_range.mpr hi, by simpa using hws⟩
      have hc : ((List.range blobs.length).filter
          (fun i => !(pyStrip (blobs.getD i [])).isEmpty)).contains i = true := by
        simpa using hmem
      rw [if_neg (fun hcon => by rw [hc] at hcon; exact Bool.noConfusion hcon.2)]
      rw [foldl_set_getD _ _ _ i (fun j hj => by
        rw [List.length_replicate]
        exact List.mem_range.mp (List.mem_filter.mp (horder.mem_iff.mp hj)).1)]
      rw [if_pos (horder.mem_iff.mpr hmem), if_neg hws]

/-- Claim C7: `llm_translate_concurrent` is an order- and length-preserving
list-to-list mapping at blob granularity, whatever order the futures
complete in: entry `i` is determined by paragraph `i` alone — the original
blob when that blob is whitespace-only or its future raises, otherwise the
paragraph's translation; and every entry is either the original blob or a
cleaned non-empty response from one of that paragraph's own API attempts
(an exception or empty result degrades that index only, never the batch). -/
theorem c7_translate_batch (blobs : List Str) (api : Nat → List ApiResult)
    (exc : Nat → Bool) (order : List Nat)
    (horder : order.Perm ((List.range blobs.length).filter
      (fun i => !(pyStrip (blobs.getD i [])).isEmpty))) :
    (llm_translate_concurrent blobs api exc order).length = blobs.length ∧
    (∀ i, i < blobs.length →
      (llm_translate_concurrent blobs api exc order).getD i [] =
        (if (pyStrip (blobs.getD i [])).isEmpty then blobs.getD i []
         else if exc i then blobs.getD i []
         else translate_paragraph (blobs.getD i []) (api i))) ∧
    (∀ i, i < blobs.length →
      (llm_translate_concurrent blobs api exc order).getD i [] = blobs.getD i [] ∨
      ∃ raw, ApiResult.ok raw ∈ api i ∧
        (llm_translate_concurrent blobs api exc order).getD i [] =
          clean_llm_output raw ∧
        (clean_llm_output raw).isEmpty = false) := by
  refine ⟨?_, fun i hi => llm_tc_getD blobs api exc order horder i hi, fun i hi => ?_⟩
  · simp only [llm_translate_concurrent]
    by_cases hE : ((List.range blobs.length).filter
        (fun i => !(pyStrip (blobs.getD i [])).isEmpty)).isEmpty = true
    · rw [if_pos hE]
    · rw [if_neg hE]
      have hbody : (fun (res : List Str) i =>
          if exc i then res.set i (blobs.getD i [])
          else res.set i (translate_paragraph (blobs.getD i []) (api i))) =
          (fun (res : List Str) i => res.set i
            (if exc i then blobs.getD i []
             else translate_paragraph (blobs.getD i []) (api i))) := by
        funext res j
        exact (apply_ite (res.set j) _ _ _).symm
      rw [hbody, foldl_cset_length, foldl_set_length, List.length_replicate]
  · rw [llm_tc_getD blobs api exc order horder i hi]
    by_cases hws : (pyStrip (blobs.getD i [])).isEmpty = true
    · rw [if_pos hws]
      exact Or.inl rfl
    · rw [if_neg hws]
      cases hexc : exc i with
      | true => rw [if_pos rfl]; exact Or.inl rfl
      | false =>
        rw [if_neg (by decide)]
        unfold translate_paragraph
        by_cases hm : is_meaningful_text (blobs.getD i []) = true
        · rw [if_pos hm]
          exact tpGo_cases (blobs.getD i [])
            (countSub placeholderStr (blobs.getD i [])) (api i)
        · rw [if_neg hm]
          exact Or.inl rfl

/-- C7 witness: a three-paragraph batch (translated, whitespace-only,
future-raising) with out-of-submission-order completion. -/
theorem c7_witness :
    (llm_translate_concurrent c7Blobs c7Api c7Exc c7Order).length =
      c7Blobs.length ∧
    (∀ i, i < c7Blobs.length →
      (llm_translate_concurrent c7Blobs c7Api c7Exc c7Order).getD i [] =
        (if (pyStrip (c7Blobs.getD i [])).isEmpty then c7Blobs.getD i []
         else if c7Exc i then c7Blobs.getD i []
         else translate_paragraph (c7Blobs.getD i []) (c7Api i))) ∧
    (∀ i, i < c7Blobs.length →
      (llm_translate_concurrent c7Blobs c7Api c7Exc c7Order).getD i [] =
        c7Blobs.getD i [] ∨
      ∃ raw, ApiResult.ok raw ∈ c7Api i ∧
        (llm_translate_concurrent c7Blobs c7Api c7Exc c7Order).getD i [] =
          clean_llm_output raw ∧
        (clean_llm_output raw).isEmpty = false) :=
  c7_translate_batch c7Blobs c7Api c7Exc c7Order (by decide)

theorem tagsOf_append (a b : List Elem) : tagsOf (a ++ b) = tagsOf a ++ tagsOf b :=
  List.map_append _ _ _

theorem removeFirstTag_subset {t : String} {l : List Elem} {a : Elem}
    (h : a ∈ removeFirstTag t l) : a ∈ l := by
  induction l with
  | nil => cases h
  | cons c cs ih =>
    rw [removeFirstTag] at h
    by_cases hc : c.tag = t
    · rw [if_pos hc] at h
      exact List.mem_cons_of_mem _ h
    · rw [if_neg hc] at h
      rcases List.mem_cons.mp h with h | h
      · exact List.mem_cons.mpr (Or.inl h)
      · exact List.mem_cons_of_mem _ (ih h)

theorem mem_tags_removeFirstTag {s t : String} {l : List Elem}
    (hne : t ≠ s) (h : t ∈ tagsOf l) : t ∈ tagsOf (removeFirstTag s l) := by
  induction l with
  | nil => cases h
  | cons c cs ih =>
    rw [removeFirstTag]
    rcases List.mem_cons.mp h with h | h
    · by_cases hc : c.tag = s
      · exact absurd (h.trans hc) hne
      · rw [if_neg hc]
        exact List.mem_cons.mpr (Or.inl h)
    · by_cases hc : c.tag = s
      · rw [if_pos hc]
        exact h
      · rw [if_neg hc]
        exact List.mem_cons.mpr (Or.inr (ih h))

theorem removeFirstTag_eq_filter {t : String} {l : List Elem}
    (h : (tagsOf l).Nodup) :
    removeFirstTag t l = l.filter (fun a => !(a.tag = t)) := by
  induction l with
  | nil => rfl
  | cons c cs ih =>
    have hnm : c.tag ∉ tagsOf cs := (List.nodup_cons.mp h).1
    have hnd : (tagsOf cs).Nodup := (List.nodup_cons.mp h).2
    rw [removeFirstTag]
    by_cases hc : c.tag = t
    · rw [if_pos hc, List.filter_cons, if_neg (by simp [hc])]
      refine (List.filter_eq_self.mpr (fun a ha => ?_)).symm
      simp only [Bool.not_eq_true', decide_eq_false_iff_not]
      intro hat
      apply hnm
      rw [hc, ← hat]
      exact List.mem_map_of_mem Elem.tag ha
    · rw [if_neg hc, List.filter_cons, if_pos (by simp [hc]), ih hnd]

theorem overlay_nil (acc : List Elem) : overlayChildren acc [] = acc := rfl

theorem overlay_cons (acc : List Elem) (x : Elem) (xs : List Elem) :
    overlayChildren acc (x :: xs) =
      overlayChildren (removeFirstTag x.tag acc ++ [x]) xs := rfl

theorem overlay_step_nodup {acc : List Elem} {x : Elem}
    (h : (tagsOf acc).Nodup) :
    (tagsOf (removeFirstTag x.tag acc ++ [x])).Nodup := by
  rw [removeFirstTag_eq_filter h, tagsOf_append]
  have hsub : List.Sublist (tagsOf (acc.filter (fun a => !(a.tag = x.tag))))
      (tagsOf acc) := (List.filter_sublist acc).map Elem.tag
  have hnd2 : (tagsOf (acc.filter (fun a => !(a.tag = x.tag)))).Nodup :=
    h.sublist hsub
  have hnm : x.tag ∉ tagsOf (acc.filter (fun a => !(a.tag = x.tag))) := by
    intro hmem
    rcases List.mem_map.mp hmem with ⟨a, ha, hat⟩
    have := List.of_mem_filter ha
    rw [hat] at this
    simp at this
  rw [show tagsOf [x] = [x.tag] from rfl]
  exact List.nodup_append.mpr
    ⟨hnd2, List.nodup_singleton _,
     fun a ha hb => hnm ((List.mem_singleton.mp hb) ▸ ha)⟩

theorem overlay_nodup {xs : List Elem} :
    ∀ {acc : List Elem}, (tagsOf acc).Nodup →
      (tagsOf (overlayChildren acc xs)).Nodup := by
  induction xs with
  | nil => intro acc h; exact h
  | cons x xs ih =>
    intro acc h
    rw [overlay_cons]
    exact ih (overlay_step_nodup h)

theorem overlay_mem {xs : List Elem} :
    ∀ {acc : List Elem} {a : Elem}, a ∈ overlayChildren acc xs →
      a ∈ acc ∨ a ∈ xs := by
  induction xs with
  | nil => intro acc a h; exact Or.inl h
  | cons x xs ih =>
    intro acc a h
    rw [overlay_cons] at h
    rcases ih h with h | h
    · rcases List.mem_append.mp h with h | h
      · exact Or.inl (removeFirstTag_subset h)
      · rcases List.mem_singleton.mp h with rfl
        exact Or.inr (List.mem_cons_self _ _)
    · exact Or.inr (List.mem_cons_of_mem _ h)

theorem overlay_tags_superset {xs : List Elem} :
    ∀ {acc : List Elem} {t : String}, t ∈ tagsOf acc →
      t ∈ tagsOf (overlayChildren acc xs) := by
  induction xs with
  | nil => intro acc t h; exact h
  | cons x xs ih =>
    intro acc t h
    rw [overlay_cons]
    apply ih
    rw [tagsOf_append]
    by_cases ht : t = x.tag
    · refine List.mem_append.mpr (Or.inr ?_)
      rw [ht]
      exact List.mem_cons_self _ _
    · exact List.mem_append.mpr (Or.inl (mem_tags_removeFirstTag ht h))

theorem overlay_formula {xs : List Elem} :
    ∀ {acc : List Elem}, (tagsOf acc).Nodup → (tagsOf xs).Nodup →
      overlayChildren acc xs =
        acc.filter (fun a => !((tagsOf xs).contains a.tag)) ++ xs := by
  induction xs with
  | nil =>
    intro acc _ _
    have h0 : acc.filter (fun a => !((tagsOf ([] : List Elem)).contains a.tag)) = acc :=
      List.filter_eq_self.mpr (fun a _ => rfl)
    rw [overlay_nil, h0, List.append_nil]
  | cons x xs ih =>
    intro acc hacc hxs
    have hxnm : x.tag ∉ tagsOf xs := (List.nodup_cons.mp hxs).1
    have hxnd : (tagsOf xs).Nodup := (List.nodup_cons.mp hxs).2
    rw [overlay_cons, ih (overlay_step_nodup hacc) hxnd, List.filter_append]
    have hx1 : ([x].filter (fun a => !((tagsOf xs).contains a.tag))) = [x] := by
      rw [List.filter_cons, if_pos (by simpa using hxnm)]
      rfl
    rw [hx1, removeFirstTag_eq_filter hacc, List.filter_filter]
    rw [List.filter_congr (fun a _ => by
      show ((!((tagsOf xs).contains a.tag)) && !(a.tag = x.tag)) =
        !((tagsOf (x :: xs)).contains a.tag)
      show ((!((tagsOf xs).contains a.tag)) && !(a.tag = x.tag)) =
        !((x.tag :: tagsOf xs).contains a.tag)
      by_cases hax : a.tag = x.tag
      · simp [hax, List.contains_cons]
      · simp [hax, List.contains_cons])]
    rw [List.append_assoc, List.singleton_append]

theorem overlay_absorb {acc xs : List Elem} (hacc : (tagsOf acc).Nodup)
    (hxs : (tagsOf xs).Nodup) (hsub : ∀ t ∈ tagsOf acc, t ∈ tagsOf xs) :
    overlayChildren acc xs = xs := by
  rw [overlay_formula hacc hxs]
  rw [List.filter_eq_nil_iff.mpr (fun a ha => ?_), List.nil_append]
  simp only [Bool.not_eq_true', Bool.not_eq_false]
  have := hsub a.tag (List.mem_map_of_mem Elem.tag ha)
  simpa using this

theorem filter_filter_self (p : Elem → Bool) (l : List Elem) :
    (l.filter p).filter p = l.filter p :=
  List.filter_eq_self.mpr (fun _ ha => List.of_mem_filter ha)

theorem replTail_idem {t : String} {x : Elem} (hx : x.tag = t)
    (kids : List Elem) : replTail t x (replTail t x kids) = replTail t x kids := by
  unfold replTail
  rw [List.filter_append, filter_filter_self,
    List.filter_cons, if_neg (by simp [hx]), List.filter_nil, List.append_nil]

theorem replTail_filter_other {t s : String} {x : Elem} (hx : x.tag = t)
    (hts : ¬ t = s) (kids : List Elem) :
    (replTail t x kids).filter (fun c => !(c.tag = s)) =
      (kids.filter (fun c => !(c.tag = s))).filter (fun c => !(c.tag = t)) ++ [x] := by
  unfold replTail
  rw [List.filter_append, List.filter_cons, if_pos (by simp [hx, hts]),
    List.filter_nil, List.filter_filter, List.filter_filter,
    List.filter_congr (fun a _ => Bool.and_comm _ _)]

theorem replTail_nodup {t : String} {x : Elem} (hx : x.tag = t)
    {kids : List Elem} (h : (tagsOf kids).Nodup) :
    (tagsOf (replTail t x kids)).Nodup := by
  unfold replTail
  rw [tagsOf_append, show tagsOf [x] = [x.tag] from rfl]
  have hnd2 : (tagsOf (kids.filter (fun c => !(c.tag = t)))).Nodup :=
    h.sublist ((List.filter_sublist kids).map Elem.tag)
  have hnm : x.tag ∉ tagsOf (kids.filter (fun c => !(c.tag = t))) := by
    intro hmem
    rcases List.mem_map.mp hmem with ⟨a, ha, hat⟩
    have := List.of_mem_filter ha
    rw [hat, hx] at this
    simp at this
  exact List.nodup_append.mpr
    ⟨hnd2, List.nodup_singleton _,
     fun a ha hb => hnm ((List.mem_singleton.mp hb) ▸ ha)⟩

theorem replTail_tags_superset {t s : String} {x : Elem} (hx : x.tag = t)
    {kids : List Elem} (h : s ∈ tagsOf kids) :
    s ∈ tagsOf (replTail t x kids) := by
  unfold replTail
  rw [tagsOf_append, show tagsOf [x] = [x.tag] from rfl]
  by_cases hst : s = t
  · exact List.mem_append.mpr (Or.inr (by rw [hst, hx]; exact List.mem_cons_self _ _))
  · refine List.mem_append.mpr (Or.inl ?_)
    rcases List.mem_map.mp h with ⟨a, ha, hat⟩
    refine List.mem_map.mpr ⟨a, List.mem_filter.mpr ⟨ha, ?_⟩, hat⟩
    simp only [Bool.not_eq_true', decide_eq_false_iff_not]
    rw [hat]
    exact hst

theorem replTail_mem {t : String} {x : Elem} {kids : List Elem} {a : Elem}
    (h : a ∈ replTail t x kids) : a ∈ kids ∨ a = x := by
  rcases List.mem_append.mp h with h | h
  · exact Or.inl (List.mem_of_mem_filter h)
  · exact Or.inr (List.mem_singleton.mp h)

theorem fontsTail_nodup (fonts langs : Option (String × String))
    {kids : List Elem} (h : (tagsOf kids).Nodup) :
    (tagsOf (fontsTail fonts langs kids)).Nodup := by
  cases fonts with
  | none =>
    cases langs with
    | none => exact h
    | some ll => exact @replTail_nodup wLang (langElem ll) rfl _ h
  | some fl =>
    cases langs with
    | none => exact @replTail_nodup wRFonts (rFontsElem fl) rfl _ h
    | some ll =>
      exact @replTail_nodup wLang (langElem ll) rfl _
        (@replTail_nodup wRFonts (rFontsElem fl) rfl _ h)

theorem fontsTail_tags_superset (fonts langs : Option (String × String))
    {kids : List Elem} {s : String} (h : s ∈ tagsOf kids) :
    s ∈ tagsOf (fontsTail fonts langs kids) := by
  cases fonts with
  | none =>
    cases langs with
    | none => exact h
    | some ll => exact @replTail_tags_superset wLang s (langElem ll) rfl _ h
  | some fl =>
    cases langs with
    | none => exact @replTail_tags_superset wRFonts s (rFontsElem fl) rfl _ h
    | some ll =>
      exact @replTail_tags_superset wLang s (langElem ll) rfl _
        (@replTail_tags_superset wRFonts s (rFontsElem fl) rfl _ h)

theorem fontsTail_mem (fonts langs : Option (String × String))
    {kids : List Elem} {a : Elem} (h : a ∈ fontsTail fonts langs kids) :
    a ∈ kids ∨ (∃ fl, a = rFontsElem fl) ∨ ∃ ll, a = langElem ll := by
  cases fonts with
  | none =>
    cases langs with
    | none => exact Or.inl h
    | some ll =>
      rcases replTail_mem h with h | h
      · exact Or.inl h
      · exact Or.inr (Or.inr ⟨ll, h⟩)
  | some fl =>
    cases langs with
    | none =>
      rcases replTail_mem h with h | h
      · exact Or.inl h
      · exact Or.inr (Or.inl ⟨fl, h⟩)
    | some ll =>
      rcases replTail_mem h with h | h
      · rcases replTail_mem h with h | h
        · exact Or.inl h
        · exact Or.inr (Or.inl ⟨fl, h⟩)
      · exact Or.inr (Or.inr ⟨ll, h⟩)

theorem fontsTail_idem (fonts langs : Option (String × String))
    (kids : List Elem) :
    fontsTail fonts langs (fontsTail fonts langs kids) =
      fontsTail fonts langs kids := by
  cases fonts with
  | none =>
    cases langs with
    | none => rfl
    | some ll => exact @replTail_idem wLang (langElem ll) rfl kids
  | some fl =>
    cases langs with
    | none => exact @replTail_idem wRFonts (rFontsElem fl) rfl kids
    | some ll =>
      show replTail wLang (langElem ll)
          (replTail wRFonts (rFontsElem fl)
            (replTail wLang (langElem ll) (replTail wRFonts (rFontsElem fl) kids))) =
        replTail wLang (langElem ll) (replTail wRFonts (rFontsElem fl) kids)
      have hFtag : (rFontsElem fl).tag = wRFonts := rfl
      have hne : ¬ wRFonts = wLang := by decide
      have hinner : replTail wLang (langElem ll) (replTail wRFonts (rFontsElem fl) kids) =
          ((kids.filter (fun c => !(c.tag = wLang))).filter (fun c => !(c.tag = wRFonts))
            ++ [rFontsElem fl]) ++ [langElem ll] := by
        show (replTail wRFonts (rFontsElem fl) kids).filter
            (fun c => !(c.tag = wLang)) ++ [langElem ll] = _
        rw [replTail_filter_other hFtag hne]
      have hA' : ∀ a ∈ (kids.filter (fun c => !(c.tag = wLang))).filter
          (fun c => !(c.tag = wRFonts)), (!(a.tag = wLang)) = true := by
        intro a ha
        have h1 : a ∈ kids.filter (fun c => !(c.tag = wLang)) :=
          List.mem_of_mem_filter ha
        have h2 := List.of_mem_filter h1
        exact h2
      have hFnf : ¬ ((!(decide ((rFontsElem fl).tag = wRFonts))) = true) := by
        show ¬ ((!(decide (wRFonts = wRFonts))) = true)
        decide
      have hLnf : ((!(decide ((langElem ll).tag = wRFonts))) = true) := by
        show ((!(decide (wLang = wRFonts))) = true)
        decide
      have hLnl : ¬ ((!(decide ((langElem ll).tag = wLang))) = true) := by
        show ¬ ((!(decide (wLang = wLang))) = true)
        decide
      have hFnl : ((!(decide ((rFontsElem fl).tag = wLang))) = true) := by
        show ((!(decide (wRFonts = wLang))) = true)
        decide
      have hstep2 : replTail wRFonts (rFontsElem fl)
          (((kids.filter (fun c => !(c.tag = wLang))).filter
            (fun c => !(c.tag = wRFonts)) ++ [rFontsElem fl]) ++ [langElem ll]) =
          ((kids.filter (fun c => !(c.tag = wLang))).filter
            (fun c => !(c.tag = wRFonts)) ++ [langElem ll]) ++ [rFontsElem fl] := by
        unfold replTail
        rw [List.filter_append, List.filter_append, filter_filter_self,
          List.filter_cons, if_neg hFnf, List.filter_nil,
          List.filter_cons, if_pos hLnf, List.filter_nil,
          List.append_nil]
      have hstep3 : replTail wLang (langElem ll)
          (((kids.filter (fun c => !(c.tag = wLang))).filter
            (fun c => !(c.tag = wRFonts)) ++ [langElem ll]) ++ [rFontsElem fl]) =
          ((kids.filter (fun c => !(c.tag = wLang))).filter
            (fun c => !(c.tag = wRFonts)) ++ [rFontsElem fl]) ++ [langElem ll] := by
        unfold replTail
        rw [List.filter_append, List.filter_append, List.filter_eq_self.mpr hA',
          List.filter_cons, if_neg hLnl, List.filter_nil,
          List.filter_cons, if_pos hFnl, List.filter_nil,
          List.append_nil]
      rw [hinner, hstep2, hstep3]

theorem lookupStyle_entry {styles : List (String × StyleInfo)} {id : String}
    {info : StyleInfo} (h : lookupStyle styles id = some info) :
    ∃ kv ∈ styles, kv.2 = info := by
  unfold lookupStyle at h
  cases hf : styles.find? (fun kv => kv.1 = id) with
  | none => rw [hf] at h; cases h
  | some kv =>
    rw [hf] at h
    have h2 : kv.2 = info := Option.some.inj h
    exact ⟨kv, List.mem_of_find?_eq_some hf, h2⟩

/-- Every element of the walk's rPr stack is the declared rPr of some table
entry. -/
theorem walkFuel_stack_mem {styles : List (String × StyleInfo)} :
    ∀ {f : Nat} {visited : List String} {cur : Option String} {stack : List Elem},
      walkFuel styles f visited cur = some stack →
      ∀ r ∈ stack, ∃ kv ∈ styles, kv.2.rPr = some r := by
  intro f
  induction f with
  | zero => intro visited cur stack h; cases h
  | succ f ih =>
    intro visited cur stack h
    cases cur with
    | none =>
      have h' : (some ([] : List Elem)) = some stack := h
      rw [← Option.some.inj h']
      intro r hr
      exact absurd hr (List.not_mem_nil r)
    | some id =>
      simp only [walkFuel] at h
      by_cases hc : id = "" ∨ visited.contains id = true
      · rw [if_pos hc] at h
        rw [← Option.some.inj h]
        intro r hr
        exact absurd hr (List.not_mem_nil r)
      · rw [if_neg hc] at h
        split at h
        · rw [← Option.some.inj h]
          intro r hr
          exact absurd hr (List.not_mem_nil r)
        · rename_i info heq
          split at h
          · exact absurd h (by simp)
          · rename_i rest hw
            rw [← Option.some.inj h]
            intro r hr
            rcases List.mem_append.mp hr with hr | hr
            · cases hrp : info.rPr with
              | none =>
                rw [hrp] at hr
                exact absurd hr (List.not_mem_nil r)
              | some rp =>
                rw [hrp] at hr
                have hrrp : r = rp := List.mem_singleton.mp hr
                obtain ⟨kv, hkv, hkvinfo⟩ := lookupStyle_entry heq
                exact ⟨kv, hkv, by rw [hkvinfo, hrp, hrrp]⟩
            · exact ih hw r hr

theorem foldl_overlay_nodup :
    ∀ (stack : List Elem) (acc : List Elem), (tagsOf acc).Nodup →
      (tagsOf (stack.foldl (fun acc r => overlayChildren acc r.children) acc)).Nodup := by
  intro stack
  induction stack with
  | nil => intro acc h; exact h
  | cons r rest ih =>
    intro acc h
    rw [List.foldl_cons]
    exact ih _ (overlay_nodup h)

theorem foldl_overlay_mem :
    ∀ (stack : List Elem) (acc : List Elem) (c : Elem),
      c ∈ stack.foldl (fun acc r => overlayChildren acc r.children) acc →
      c ∈ acc ∨ ∃ r ∈ stack, c ∈ r.children := by
  intro stack
  induction stack with
  | nil => intro acc c h; exact Or.inl h
  | cons r rest ih =>
    intro acc c h
    rw [List.foldl_cons] at h
    rcases ih _ c h with h | ⟨r2, hr2, hc⟩
    · rcases overlay_mem h with h | h
      · exact Or.inl h
      · exact Or.inr ⟨r, List.mem_cons_self _ _, h⟩
    · exact Or.inr ⟨r2, List.mem_cons_of_mem _ hr2, hc⟩

/-- The resolved style rPr has pairwise distinct child tags: the merge fold
maintains at most one child per tag. -/
theorem get_style_rpr_nodup {sm : StyleManager} {sid : String} {rpr : Elem}
    (h : sm.get_style_rpr sid = some rpr) : (tagsOf rpr.children).Nodup := by
  unfold StyleManager.get_style_rpr at h
  split at h
  · cases h
  · split at h
    · cases h
    · rw [← Option.some.inj h]
      exact foldl_overlay_nodup _ [] (by simp [tagsOf])

/-- Under `stylesRStyleFree`, no resolved style rPr carries a `w:rStyle`
child. -/
theorem get_style_rpr_free {sm : StyleManager} (hfree : stylesRStyleFree sm)
    {sid : String} {rpr : Elem} (h : sm.get_style_rpr sid = some rpr) :
    ∀ c ∈ rpr.children, ¬ c.tag = wRStyle := by
  unfold StyleManager.get_style_rpr at h
  split at h
  · cases h
  · rename_i stack hw
    split at h
    · cases h
    · rw [← Option.some.inj h]
      intro c hc
      rcases foldl_overlay_mem stack [] c hc with hc | ⟨r, hr, hcr⟩
      · exact absurd hc (List.not_mem_nil c)
      · obtain ⟨kv, hkv, hkvrpr⟩ := walkFuel_stack_mem hw r hr
        have := hfree kv hkv c
        rw [hkvrpr] at this
        exact this hcr

theorem getParaRpr_good {sm : StyleManager} (hfree : stylesRStyleFree sm)
    (p : Elem) : goodRprOpt (getParaRpr sm p) := by
  intro pr hpr
  unfold getParaRpr at hpr
  split at hpr
  · cases hpr
  · split at hpr
    · cases hpr
    · split at hpr
      · cases hpr
      · split at hpr
        · cases hpr
        · exact ⟨get_style_rpr_nodup hpr, get_style_rpr_free hfree hpr⟩

theorem styleRprOfRpr_good {sm : StyleManager} (hfree : stylesRStyleFree sm)
    (rpr : Elem) : goodRprOpt (styleRprOfRpr sm rpr) := by
  intro pr hpr
  unfold styleRprOfRpr at hpr
  split at hpr
  · cases hpr
  · split at hpr
    · cases hpr
    · split at hpr
      · cases hpr
      · exact ⟨get_style_rpr_nodup hpr, get_style_rpr_free hfree hpr⟩

theorem dropRStyleKids_free (kids : List Elem) :
    ∀ c ∈ dropRStyleKids kids, ¬ c.tag = wRStyle := by
  intro c hc
  have := List.of_mem_filter hc
  simpa using this

theorem matRunRprKids_nodup {sm : StyleManager} (hfree : stylesRStyleFree sm)
    {paraRpr : Option Elem} (hpara : goodRprOpt paraRpr) (rpr : Elem) :
    (tagsOf (matRunRprKids sm paraRpr rpr)).Nodup := by
  cases hp : paraRpr with
  | none =>
    simp only [matRunRprKids]
    apply overlay_nodup
    cases hs : styleRprOfRpr sm rpr with
    | none => exact List.nodup_nil
    | some sr => exact overlay_nodup List.nodup_nil
  | some pr =>
    obtain ⟨hnd, hfr⟩ := hpara pr hp
    simp only [matRunRprKids]
    apply overlay_nodup
    cases hs : styleRprOfRpr sm rpr with
    | none => exact hnd
    | some sr => exact overlay_nodup hnd

theorem matRunRprKids_free {sm : StyleManager} (hfree : stylesRStyleFree sm)
    {paraRpr : Option Elem} (hpara : goodRprOpt paraRpr) (rpr : Elem) :
    ∀ c ∈ matRunRprKids sm paraRpr rpr, ¬ c.tag = wRStyle := by
  cases hp : paraRpr with
  | none =>
    intro c hc
    simp only [matRunRprKids] at hc
    rcases overlay_mem hc with hc | hc
    · revert hc
      cases hs : styleRprOfRpr sm rpr with
      | none => exact fun hc => absurd hc (List.not_mem_nil c)
      | some sr =>
        intro hc
        rcases overlay_mem hc with hc | hc
        · exact absurd hc (List.not_mem_nil c)
        · exact (styleRprOfRpr_good hfree rpr sr hs).2 c hc
    · exact dropRStyleKids_free _ c hc
  | some pr =>
    obtain ⟨hnd, hfr⟩ := hpara pr hp
    intro c hc
    simp only [matRunRprKids] at hc
    rcases overlay_mem hc with hc | hc
    · revert hc
      cases hs : styleRprOfRpr sm rpr with
      | none => exact fun hc => hfr c hc
      | some sr =>
        intro hc
        rcases overlay_mem hc with hc | hc
        · exact hfr c hc
        · exact (styleRprOfRpr_good hfree rpr sr hs).2 c hc
    · exact dropRStyleKids_free _ c hc

theorem matRunRprKids_tags_superset {sm : StyleManager} {paraRpr : Option Elem}
    {pr : Elem} (hp : paraRpr = some pr) (rpr : Elem) :
    ∀ t ∈ tagsOf pr.children, t ∈ tagsOf (matRunRprKids sm paraRpr rpr) := by
  subst hp
  intro t ht
  simp only [matRunRprKids]
  apply overlay_tags_superset
  cases hs : styleRprOfRpr sm rpr with
  | none => exact ht
  | some sr => exact overlay_tags_superset ht

theorem matMathRprKids_nodup {sm : StyleManager} (hfree : stylesRStyleFree sm)
    (wrpr : Elem) : (tagsOf (matMathRprKids sm wrpr)).Nodup := by
  simp only [matMathRprKids]
  apply overlay_nodup
  cases hs : styleRprOfRpr sm wrpr with
  | none => exact List.nodup_nil
  | some sr => exact (styleRprOfRpr_good hfree wrpr sr hs).1

theorem matMathRprKids_free {sm : StyleManager} (hfree : stylesRStyleFree sm)
    (wrpr : Elem) : ∀ c ∈ matMathRprKids sm wrpr, ¬ c.tag = wRStyle := by
  intro c hc
  simp only [matMathRprKids] at hc
  rcases overlay_mem hc with hc | hc
  · revert hc
    cases hs : styleRprOfRpr sm wrpr with
    | none => exact fun hc => absurd hc (List.not_mem_nil c)
    | some sr => exact fun hc => (styleRprOfRpr_good hfree wrpr sr hs).2 c hc
  · exact dropRStyleKids_free _ c hc

theorem findByTag_replaceFirstTag_other {t tq : String} {v : Elem}
    (hv : v.tag = t) (hne : ¬ tq = t) (cs : List Elem) :
    findByTag tq (replaceFirstTag t v cs) = findByTag tq cs := by
  induction cs with
  | nil => rfl
  | cons c cs ih =>
    rw [replaceFirstTag]
    by_cases hc : c.tag = t
    · have hvq : ¬ v.tag = tq := by rw [hv]; exact fun h => hne h.symm
      have hcq : ¬ c.tag = tq := by rw [hc]; exact fun h => hne h.symm
      rw [if_pos hc, findByTag, if_neg hvq, findByTag, if_neg hcq]
    · rw [if_neg hc, findByTag, findByTag]
      by_cases hct : c.tag = tq
      · rw [if_pos hct, if_pos hct]
      · rw [if_neg hct, if_neg hct, ih]

theorem findByTag_replaceFirstTag_self {t : String} {v x : Elem}
    (hv : v.tag = t) {cs : List Elem} (h : findByTag t cs = some x) :
    findByTag t (replaceFirstTag t v cs) = some v := by
  induction cs with
  | nil => cases h
  | cons c cs ih =>
    rw [findByTag] at h
    rw [replaceFirstTag]
    by_cases hc : c.tag = t
    · rw [if_pos hc, findByTag, if_pos hv]
    · rw [if_neg hc] at h
      rw [if_neg hc, findByTag, if_neg hc]
      exact ih h

theorem replaceFirstTag_self {t : String} {cs : List Elem} {x : Elem}
    (h : findByTag t cs = some x) : replaceFirstTag t x cs = cs := by
  induction cs with
  | nil => rfl
  | cons c cs ih =>
    rw [findByTag] at h
    rw [replaceFirstTag]
    by_cases hc : c.tag = t
    · rw [if_pos hc] at h
      rw [if_pos hc, ← Option.some.inj h]
    · rw [if_neg hc] at h
      rw [if_neg hc, ih h]

theorem findByTag_insertAfter_other {t tq : String} {v : Elem}
    (hv : ¬ v.tag = tq) (cs : List Elem) :
    findByTag tq (insertAfterFirstTag t v cs) = findByTag tq cs := by
  induction cs with
  | nil =>
    show findByTag tq [v] = none
    rw [findByTag, if_neg hv]
    rfl
  | cons c cs ih =>
    rw [insertAfterFirstTag]
    by_cases hc : c.tag = t
    · rw [if_pos hc]
      conv_lhs => rw [findByTag]
      conv_rhs => rw [findByTag]
      by_cases hct : c.tag = tq
      · rw [if_pos hct, if_pos hct]
      · rw [if_neg hct, if_neg hct]
        conv_lhs => rw [findByTag]
        rw [if_neg hv]
    · rw [if_neg hc]
      conv_lhs => rw [findByTag]
      conv_rhs => rw [findByTag]
      by_cases hct : c.tag = tq
      · rw [if_pos hct, if_pos hct]
      · rw [if_neg hct, if_neg hct, ih]

theorem findByTag_insertAfter_self {t tq : String} {v : Elem}
    (hv : v.tag = tq) {cs : List Elem} (h : findByTag tq cs = none) :
    findByTag tq (insertAfterFirstTag t v cs) = some v := by
  induction cs with
  | nil =>
    show findByTag tq [v] = some v
    rw [findByTag, if_pos hv]
  | cons c cs ih =>
    rw [findByTag] at h
    by_cases hct : c.tag = tq
    · rw [if_pos hct] at h
      cases h
    · rw [if_neg hct] at h
      rw [insertAfterFirstTag]
      by_cases hc : c.tag = t
      · rw [if_pos hc, findByTag, if_neg hct, findByTag, if_pos hv]
      · rw [if_neg hc, findByTag, if_neg hct, ih h]

theorem styleRprOfRpr_none_of_free {sm : StyleManager} {rpr : Elem}
    (h : ∀ c ∈ rpr.children, ¬ c.tag = wRStyle) :
    styleRprOfRpr sm rpr = none := by
  unfold styleRprOfRpr
  rw [findByTag_none (fun x hx => h x hx)]

theorem dropRStyleKids_eq_self {kids : List Elem}
    (h : ∀ c ∈ kids, ¬ c.tag = wRStyle) : dropRStyleKids kids = kids :=
  List.filter_eq_self.mpr (fun a ha => by simpa using h a ha)

theorem fontsTail_free (fonts langs : Option (String × String))
    {kids : List Elem} (h : ∀ c ∈ kids, ¬ c.tag = wRStyle) :
    ∀ c ∈ fontsTail fonts langs kids, ¬ c.tag = wRStyle := by
  intro c hc
  rcases fontsTail_mem fonts langs hc with hc | ⟨fl, rfl⟩ | ⟨ll, rfl⟩
  · exact h c hc
  · show ¬ wRFonts = wRStyle
    decide
  · show ¬ wLang = wRStyle
    decide

theorem matRun_no_t {sm : StyleManager} {fonts langs : Option (String × String)}
    {paraRpr : Option Elem} {r : Elem} (ht : findByTag wT r.children = none) :
    matRun sm fonts langs paraRpr r = r := by
  simp only [matRun, ht]

theorem matRun_not_meaningful {sm : StyleManager}
    {fonts langs : Option (String × String)} {paraRpr : Option Elem} {r t : Elem}
    (ht : findByTag wT r.children = some t)
    (hm : ¬ is_meaningful_text (t.text.getD []) = true) :
    matRun sm fonts langs paraRpr r = r := by
  simp only [matRun, ht, hm]
  rw [if_neg (by decide)]

theorem matRun_found {sm : StyleManager} {fonts langs : Option (String × String)}
    {paraRpr : Option Elem} {r t rpr : Elem}
    (ht : findByTag wT r.children = some t)
    (hm : is_meaningful_text (t.text.getD []) = true)
    (hrp : findByTag wRPr r.children = some rpr) :
    matRun sm fonts langs paraRpr r = Elem.mk r.tag r.attrs r.text
      (replaceFirstTag wRPr (Elem.mk wRPr rpr.attrs rpr.text
        (fontsTail fonts langs (matRunRprKids sm paraRpr rpr))) r.children) := by
  simp only [matRun, ht, hm, hrp, if_true]

theorem matRun_fresh {sm : StyleManager} {fonts langs : Option (String × String)}
    {paraRpr : Option Elem} {r t : Elem}
    (ht : findByTag wT r.children = some t)
    (hm : is_meaningful_text (t.text.getD []) = true)
    (hrp : findByTag wRPr r.children = none) :
    matRun sm fonts langs paraRpr r = Elem.mk r.tag r.attrs r.text
      (Elem.mk wRPr [] none
        (fontsTail fonts langs
          (matRunRprKids sm paraRpr (Elem.mk wRPr [] none []))) :: r.children) := by
  simp only [matRun, ht, hm, hrp, if_true]

theorem matMathRun_no_t {sm : StyleManager}
    {fonts langs : Option (String × String)} {mr : Elem}
    (ht : findByTag mT mr.children = none) :
    matMathRun sm fonts langs mr = mr := by
  simp only [matMathRun, ht]

theorem matMathRun_not_meaningful {sm : StyleManager}
    {fonts langs : Option (String × String)} {mr t : Elem}
    (ht : findByTag mT mr.children = some t)
    (hm : ¬ is_meaningful_text (t.text.getD []) = true) :
    matMathRun sm fonts langs mr = mr := by
  simp only [matMathRun, ht, hm]
  rw [if_neg (by decide)]

theorem matMathRun_found {sm : StyleManager}
    {fonts langs : Option (String × String)} {mr t wrpr : Elem}
    (ht : findByTag mT mr.children = some t)
    (hm : is_meaningful_text (t.text.getD []) = true)
    (hrp : findByTag wRPr mr.children = some wrpr) :
    matMathRun sm fonts langs mr = Elem.mk mr.tag mr.attrs mr.text
      (replaceFirstTag wRPr (Elem.mk wRPr wrpr.attrs wrpr.text
        (fontsTail fonts langs (matMathRprKids sm wrpr))) mr.children) := by
  simp only [matMathRun, ht, hm, hrp, if_true]

theorem matMathRun_fresh_after {sm : StyleManager}
    {fonts langs : Option (String × String)} {mr t mrp : Elem}
    (ht : findByTag mT mr.children = some t)
    (hm : is_meaningful_text (t.text.getD []) = true)
    (hrp : findByTag wRPr mr.children = none)
    (hmrp : findByTag mRPr mr.children = some mrp) :
    matMathRun sm fonts langs mr = Elem.mk mr.tag mr.attrs mr.text
      (insertAfterFirstTag mRPr (Elem.mk wRPr [] none
        (fontsTail fonts langs (matMathRprKids sm (Elem.mk wRPr [] none []))))
        mr.children) := by
  simp only [matMathRun, ht, hm, hrp, hmrp, if_true]

theorem matMathRun_fresh_front {sm : StyleManager}
    {fonts langs : Option (String × String)} {mr t : Elem}
    (ht : findByTag mT mr.children = some t)
    (hm : is_meaningful_text (t.text.getD []) = true)
    (hrp : findByTag wRPr mr.children = none)
    (hmrp : findByTag mRPr mr.children = none) :
    matMathRun sm fonts langs mr = Elem.mk mr.tag mr.attrs mr.text
      (Elem.mk wRPr [] none
        (fontsTail fonts langs (matMathRprKids sm (Elem.mk wRPr [] none [])))
        :: mr.children) := by
  simp only [matMathRun, ht, hm, hrp, hmrp, if_true]

theorem Elem.tag_mk (t : String) (a : List (String × String)) (x : Option Str)
    (cs : List Elem) : (Elem.mk t a x cs).tag = t := rfl

theorem Elem.attrs_mk (t : String) (a : List (String × String)) (x : Option Str)
    (cs : List Elem) : (Elem.mk t a x cs).attrs = a := rfl

theorem Elem.text_mk (t : String) (a : List (String × String)) (x : Option Str)
    (cs : List Elem) : (Elem.mk t a x cs).text = x := rfl

theorem Elem.children_mk (t : String) (a : List (String × String)) (x : Option Str)
    (cs : List Elem) : (Elem.mk t a x cs).children = cs := rfl

theorem matRunRprKids_pass2 {sm : StyleManager}
    {paraRpr : Option Elem} (hpara : goodRprOpt paraRpr)
    (K : List Elem) (hKnd : (tagsOf K).Nodup)
    (hKfree : ∀ c ∈ K, ¬ c.tag = wRStyle)
    (hKsup : ∀ pr, paraRpr = some pr → ∀ t ∈ tagsOf pr.children, t ∈ tagsOf K)
    (attrs : List (String × String)) (tx : Option Str) :
    matRunRprKids sm paraRpr (Elem.mk wRPr attrs tx K) = K := by
  have hstyle : styleRprOfRpr sm (Elem.mk wRPr attrs tx K) = none :=
    @styleRprOfRpr_none_of_free sm (Elem.mk wRPr attrs tx K) hKfree
  simp only [matRunRprKids, hstyle, Elem.children]
  rw [dropRStyleKids_eq_self hKfree]
  cases hp : paraRpr with
  | none =>
    exact overlay_absorb List.nodup_nil hKnd (fun t ht => absurd ht (List.not_mem_nil t))
  | some pr =>
    exact overlay_absorb (hpara pr hp).1 hKnd (hKsup pr hp)

theorem matMathRprKids_pass2 {sm : StyleManager}
    (K : List Elem) (hKnd : (tagsOf K).Nodup)
    (hKfree : ∀ c ∈ K, ¬ c.tag = wRStyle)
    (attrs : List (String × String)) (tx : Option Str) :
    matMathRprKids sm (Elem.mk wRPr attrs tx K) = K := by
  have hstyle : styleRprOfRpr sm (Elem.mk wRPr attrs tx K) = none :=
    @styleRprOfRpr_none_of_free sm (Elem.mk wRPr attrs tx K) hKfree
  simp only [matMathRprKids, hstyle, Elem.children]
  rw [dropRStyleKids_eq_self hKfree]
  exact overlay_absorb List.nodup_nil hKnd (fun t ht => absurd ht (List.not_mem_nil t))

/-- Materializing a run a second time changes nothing: the first pass removed
every style reference from its `rPr`, so the second pass's merge is absorbed
by the already-merged children and the forcing tail is idempotent. -/
theorem matRun_idem {sm : StyleManager} (hfree : stylesRStyleFree sm)
    (fonts langs : Option (String × String)) {paraRpr : Option Elem}
    (hpara : goodRprOpt paraRpr) (r : Elem) :
    matRun sm fonts langs paraRpr (matRun sm fonts langs paraRpr r) =
      matRun sm fonts langs paraRpr r := by
  cases ht : findByTag wT r.children with
  | none => rw [matRun_no_t ht, matRun_no_t ht]
  | some t =>
    by_cases hm : is_meaningful_text (t.text.getD []) = true
    · cases hrp : findByTag wRPr r.children with
      | some rpr =>
        have hKnd : (tagsOf (fontsTail fonts langs
            (matRunRprKids sm paraRpr rpr))).Nodup :=
          fontsTail_nodup _ _ (matRunRprKids_nodup hfree hpara rpr)
        have hKfree : ∀ c ∈ fontsTail fonts langs
            (matRunRprKids sm paraRpr rpr), ¬ c.tag = wRStyle :=
          fontsTail_free _ _ (matRunRprKids_free hfree hpara rpr)
        have hKsup : ∀ pr, paraRpr = some pr → ∀ tg ∈ tagsOf pr.children,
            tg ∈ tagsOf (fontsTail fonts langs (matRunRprKids sm paraRpr rpr)) :=
          fun pr hp tg htg =>
            fontsTail_tags_superset _ _ (matRunRprKids_tags_superset hp rpr tg htg)
        rw [matRun_found ht hm hrp]
        have ht2 : findByTag wT (Elem.mk r.tag r.attrs r.text
            (replaceFirstTag wRPr (Elem.mk wRPr rpr.attrs rpr.text
              (fontsTail fonts langs (matRunRprKids sm paraRpr rpr)))
              r.children)).children = some t := by
          show findByTag wT (replaceFirstTag wRPr (Elem.mk wRPr rpr.attrs rpr.text
            (fontsTail fonts langs (matRunRprKids sm paraRpr rpr))) r.children) = some t
          rw [@findByTag_replaceFirstTag_other wRPr wT
            (Elem.mk wRPr rpr.attrs rpr.text
              (fontsTail fonts langs (matRunRprKids sm paraRpr rpr)))
            rfl (by decide) r.children, ht]
        have hrp2 : findByTag wRPr (Elem.mk r.tag r.attrs r.text
            (replaceFirstTag wRPr (Elem.mk wRPr rpr.attrs rpr.text
              (fontsTail fonts langs (matRunRprKids sm paraRpr rpr)))
              r.children)).children = some (Elem.mk wRPr rpr.attrs rpr.text
              (fontsTail fonts langs (matRunRprKids sm paraRpr rpr))) := by
          show findByTag wRPr (replaceFirstTag wRPr (Elem.mk wRPr rpr.attrs rpr.text
            (fontsTail fonts langs (matRunRprKids sm paraRpr rpr))) r.children) = _
          exact @findByTag_replaceFirstTag_self wRPr
            (Elem.mk wRPr rpr.attrs rpr.text
              (fontsTail fonts langs (matRunRprKids sm paraRpr rpr)))
            rpr rfl r.children hrp
        rw [matRun_found ht2 hm hrp2]
        simp only [Elem.tag_mk, Elem.attrs_mk, Elem.text_mk, Elem.children_mk]
        rw [matRunRprKids_pass2 hpara
            (fontsTail fonts langs (matRunRprKids sm paraRpr rpr))
            hKnd hKfree hKsup rpr.attrs rpr.text,
          fontsTail_idem]
        exact congrArg (Elem.mk r.tag r.attrs r.text) (replaceFirstTag_self hrp2)
      | none =>
        have hKnd : (tagsOf (fontsTail fonts langs
            (matRunRprKids sm paraRpr (Elem.mk wRPr [] none [])))).Nodup :=
          fontsTail_nodup _ _ (matRunRprKids_nodup hfree hpara _)
        have hKfree : ∀ c ∈ fontsTail fonts langs
            (matRunRprKids sm paraRpr (Elem.mk wRPr [] none [])),
            ¬ c.tag = wRStyle :=
          fontsTail_free _ _ (matRunRprKids_free hfree hpara _)
        have hKsup : ∀ pr, paraRpr = some pr → ∀ tg ∈ tagsOf pr.children,
            tg ∈ tagsOf (fontsTail fonts langs
              (matRunRprKids sm paraRpr (Elem.mk wRPr [] none []))) :=
          fun pr hp tg htg =>
            fontsTail_tags_superset _ _ (matRunRprKids_tags_superset hp _ tg htg)
        rw [matRun_fresh ht hm hrp]
        have ht2 : findByTag wT (Elem.mk r.tag r.attrs r.text
            (Elem.mk wRPr [] none (fontsTail fonts langs
              (matRunRprKids sm paraRpr (Elem.mk wRPr [] none [])))
              :: r.children)).children = some t := by
          show findByTag wT (Elem.mk wRPr [] none (fontsTail fonts langs
            (matRunRprKids sm paraRpr (Elem.mk wRPr [] none []))) :: r.children) = some t
          have hcond : ¬ (Elem.mk wRPr [] none (fontsTail fonts langs
              (matRunRprKids sm paraRpr (Elem.mk wRPr [] none [])))).tag = wT := by
            show ¬ wRPr = wT
            decide
          rw [findByTag, if_neg hcond]
          exact ht
        have hrp2 : findByTag wRPr (Elem.mk r.tag r.attrs r.text
            (Elem.mk wRPr [] none (fontsTail fonts langs
              (matRunRprKids sm paraRpr (Elem.mk wRPr [] none [])))
              :: r.children)).children = some (Elem.mk wRPr [] none
              (fontsTail fonts langs
                (matRunRprKids sm paraRpr (Elem.mk wRPr [] none [])))) := by
          show findByTag wRPr (Elem.mk wRPr [] none (fontsTail fonts langs
            (matRunRprKids sm paraRpr (Elem.mk wRPr [] none []))) :: r.children) = _
          have hcond2 : (Elem.mk wRPr [] none (fontsTail fonts langs
              (matRunRprKids sm paraRpr (Elem.mk wRPr [] none [])))).tag = wRPr := rfl
          rw [findByTag, if_pos hcond2]
        rw [matRun_found ht2 hm hrp2]
        simp only [Elem.tag_mk, Elem.attrs_mk, Elem.text_mk, Elem.children_mk]
        rw [matRunRprKids_pass2 hpara
            (fontsTail fonts langs (matRunRprKids sm paraRpr (Elem.mk wRPr [] none [])))
            hKnd hKfree hKsup [] none,
          fontsTail_idem]
        exact congrArg (Elem.mk r.tag r.attrs r.text)
          (replaceFirstTag_self hrp2)
    · rw [matRun_not_meaningful ht hm, matRun_not_meaningful ht hm]

/-- Materializing a math run a second time changes nothing. -/
theorem matMathRun_idem {sm : StyleManager} (hfree : stylesRStyleFree sm)
    (fonts langs : Option (String × String)) (mr : Elem) :
    matMathRun sm fonts langs (matMathRun sm fonts langs mr) =
      matMathRun sm fonts langs mr := by
  cases ht : findByTag mT mr.children with
  | none => rw [matMathRun_no_t ht, matMathRun_no_t ht]
  | some t =>
    by_cases hm : is_meaningful_text (t.text.getD []) = true
    · cases hrp : findByTag wRPr mr.children with
      | some wrpr =>
        have hKnd : (tagsOf (fontsTail fonts langs
            (matMathRprKids sm wrpr))).Nodup :=
          fontsTail_nodup _ _ (matMathRprKids_nodup hfree wrpr)
        have hKfree : ∀ c ∈ fontsTail fonts langs
            (matMathRprKids sm wrpr), ¬ c.tag = wRStyle :=
          fontsTail_free _ _ (matMathRprKids_free hfree wrpr)
        rw [matMathRun_found ht hm hrp]
        have ht2 : findByTag mT (Elem.mk mr.tag mr.attrs mr.text
            (replaceFirstTag wRPr (Elem.mk wRPr wrpr.attrs wrpr.text
              (fontsTail fonts langs (matMathRprKids sm wrpr)))
              mr.children)).children = some t := by
          show findByTag mT (replaceFirstTag wRPr (Elem.mk wRPr wrpr.attrs wrpr.text
            (fontsTail fonts langs (matMathRprKids sm wrpr))) mr.children) = some t
          rw [@findByTag_replaceFirstTag_other wRPr mT
            (Elem.mk wRPr wrpr.attrs wrpr.text
              (fontsTail fonts langs (matMathRprKids sm wrpr)))
            rfl (by decide) mr.children, ht]
        have hrp2 : findByTag wRPr (Elem.mk mr.tag mr.attrs mr.text
            (replaceFirstTag wRPr (Elem.mk wRPr wrpr.attrs wrpr.text
              (fontsTail fonts langs (matMathRprKids sm wrpr)))
              mr.children)).children = some (Elem.mk wRPr wrpr.attrs wrpr.text
              (fontsTail fonts langs (matMathRprKids sm wrpr))) := by
          show findByTag wRPr (replaceFirstTag wRPr (Elem.mk wRPr wrpr.attrs wrpr.text
            (fontsTail fonts langs (matMathRprKids sm wrpr))) mr.children) = _
          exact @findByTag_replaceFirstTag_self wRPr
            (Elem.mk wRPr wrpr.attrs wrpr.text
              (fontsTail fonts langs (matMathRprKids sm wrpr)))
            wrpr rfl mr.children hrp
        rw [matMathRun_found ht2 hm hrp2]
        simp only [Elem.tag_mk, Elem.attrs_mk, Elem.text_mk, Elem.children_mk]
        rw [matMathRprKids_pass2
            (fontsTail fonts langs (matMathRprKids sm wrpr))
            hKnd hKfree wrpr.attrs wrpr.text,
          fontsTail_idem]
        exact congrArg (Elem.mk mr.tag mr.attrs mr.text) (replaceFirstTag_self hrp2)
      | none =>
        have hKnd : (tagsOf (fontsTail fonts langs
            (matMathRprKids sm (Elem.mk wRPr [] none [])))).Nodup :=
          fontsTail_nodup _ _ (matMathRprKids_nodup hfree _)
        have hKfree : ∀ c ∈ fontsTail fonts langs
            (matMathRprKids sm (Elem.mk wRPr [] none [])), ¬ c.tag = wRStyle :=
          fontsTail_free _ _ (matMathRprKids_free hfree _)
        cases hmrp : findByTag mRPr mr.children with
        | some mrp =>
          rw [matMathRun_fresh_after ht hm hrp hmrp]
          have ht2 : findByTag mT (Elem.mk mr.tag mr.attrs mr.text
              (insertAfterFirstTag mRPr (Elem.mk wRPr [] none
                (fontsTail fonts langs (matMathRprKids sm (Elem.mk wRPr [] none []))))
                mr.children)).children = some t := by
            show findByTag mT (insertAfterFirstTag mRPr (Elem.mk wRPr [] none
              (fontsTail fonts langs (matMathRprKids sm (Elem.mk wRPr [] none []))))
              mr.children) = some t
            have hcond : ¬ (Elem.mk wRPr [] none (fontsTail fonts langs
                (matMathRprKids sm (Elem.mk wRPr [] none [])))).tag = mT := by
              show ¬ wRPr = mT
              decide
            rw [findByTag_insertAfter_other hcond, ht]
          have hrp2 : findByTag wRPr (Elem.mk mr.tag mr.attrs mr.text
              (insertAfterFirstTag mRPr (Elem.mk wRPr [] none
                (fontsTail fonts langs (matMathRprKids sm (Elem.mk wRPr [] none []))))
                mr.children)).children = some (Elem.mk wRPr [] none
                (fontsTail fonts langs
                  (matMathRprKids sm (Elem.mk wRPr [] none [])))) := by
            show findByTag wRPr (insertAfterFirstTag mRPr (Elem.mk wRPr [] none
              (fontsTail fonts langs (matMathRprKids sm (Elem.mk wRPr [] none []))))
              mr.children) = _
            have hcond2 : (Elem.mk wRPr [] none (fontsTail fonts langs
                (matMathRprKids sm (Elem.mk wRPr [] none [])))).tag = wRPr := rfl
            exact findByTag_insertAfter_self hcond2 hrp
          rw [matMathRun_found ht2 hm hrp2]
          simp only [Elem.tag_mk, Elem.attrs_mk, Elem.text_mk, Elem.children_mk]
          rw [matMathRprKids_pass2
              (fontsTail fonts langs (matMathRprKids sm (Elem.mk wRPr [] none [])))
              hKnd hKfree [] none,
            fontsTail_idem]
          exact congrArg (Elem.mk mr.tag mr.attrs mr.text)
            (replaceFirstTag_self hrp2)
        | none =>
          rw [matMathRun_fresh_front ht hm hrp hmrp]
          have ht2 : findByTag mT (Elem.mk mr.tag mr.attrs mr.text
              (Elem.mk wRPr [] none (fontsTail fonts langs
                (matMathRprKids sm (Elem.mk wRPr [] none [])))
                :: mr.children)).children = some t := by
            show findByTag mT (Elem.mk wRPr [] none (fontsTail fonts langs
              (matMathRprKids sm (Elem.mk wRPr [] none []))) :: mr.children) = some t
            have hcond : ¬ (Elem.mk wRPr [] none (fontsTail fonts langs
                (matMathRprKids sm (Elem.mk wRPr [] none [])))).tag = mT := by
              show ¬ wRPr = mT
              decide
            rw [findByTag, if_neg hcond]
            exact ht
          have hrp2 : findByTag wRPr (Elem.mk mr.tag mr.attrs mr.text
              (Elem.mk wRPr [] none (fontsTail fonts langs
                (matMathRprKids sm (Elem.mk wRPr [] none [])))
                :: mr.children)).children = some (Elem.mk wRPr [] none
                (fontsTail fonts langs
                  (matMathRprKids sm (Elem.mk wRPr [] none [])))) := by
            show findByTag wRPr (Elem.mk wRPr [] none (fontsTail fonts langs
              (matMathRprKids sm (Elem.mk wRPr [] none []))) :: mr.children) = _
            have hcond2 : (Elem.mk wRPr [] none (fontsTail fonts langs
                (matMathRprKids sm (Elem.mk wRPr [] none [])))).tag = wRPr := rfl
            rw [findByTag, if_pos hcond2]
          rw [matMathRun_found ht2 hm hrp2]
          simp only [Elem.tag_mk, Elem.attrs_mk, Elem.text_mk, Elem.children_mk]
          rw [matMathRprKids_pass2
              (fontsTail fonts langs (matMathRprKids sm (Elem.mk wRPr [] none [])))
              hKnd hKfree [] none,
            fontsTail_idem]
          exact congrArg (Elem.mk mr.tag mr.attrs mr.text)
            (replaceFirstTag_self hrp2)
    · rw [matMathRun_not_meaningful ht hm, matMathRun_not_meaningful ht hm]

theorem findByTag_tag {t : String} {cs : List Elem} {x : Elem}
    (h : findByTag t cs = some x) : x.tag = t := by
  induction cs with
  | nil => cases h
  | cons c cs ih =>
    rw [findByTag] at h
    by_cases hc : c.tag = t
    · rw [if_pos hc] at h
      rw [← Option.some.inj h]
      exact hc
    · rw [if_neg hc] at h
      exact ih h

theorem matRun_tag {sm : StyleManager} {fonts langs : Option (String × String)}
    {paraRpr : Option Elem} (r : Elem) :
    (matRun sm fonts langs paraRpr r).tag = r.tag := by
  cases ht : findByTag wT r.children with
  | none => rw [matRun_no_t ht]
  | some t =>
    by_cases hm : is_meaningful_text (t.text.getD []) = true
    · cases hrp : findByTag wRPr r.children with
      | some rpr => rw [matRun_found ht hm hrp, Elem.tag_mk]
      | none => rw [matRun_fresh ht hm hrp, Elem.tag_mk]
    · rw [matRun_not_meaningful ht hm]

theorem matRun_attrs {sm : StyleManager} {fonts langs : Option (String × String)}
    {paraRpr : Option Elem} (r : Elem) :
    (matRun sm fonts langs paraRpr r).attrs = r.attrs := by
  cases ht : findByTag wT r.children with
  | none => rw [matRun_no_t ht]
  | some t =>
    by_cases hm : is_meaningful_text (t.text.getD []) = true
    · cases hrp : findByTag wRPr r.children with
      | some rpr => rw [matRun_found ht hm hrp, Elem.attrs_mk]
      | none => rw [matRun_fresh ht hm hrp, Elem.attrs_mk]
    · rw [matRun_not_meaningful ht hm]

theorem matMathRun_tag {sm : StyleManager}
    {fonts langs : Option (String × String)} (mr : Elem) :
    (matMathRun sm fonts langs mr).tag = mr.tag := by
  cases ht : findByTag mT mr.children with
  | none => rw [matMathRun_no_t ht]
  | some t =>
    by_cases hm : is_meaningful_text (t.text.getD []) = true
    · cases hrp : findByTag wRPr mr.children with
      | some wrpr => rw [matMathRun_found ht hm hrp, Elem.tag_mk]
      | none =>
        cases hmrp : findByTag mRPr mr.children with
        | some mrp => rw [matMathRun_fresh_after ht hm hrp hmrp, Elem.tag_mk]
        | none => rw [matMathRun_fresh_front ht hm hrp hmrp, Elem.tag_mk]
    · rw [matMathRun_not_meaningful ht hm]

theorem matMathRun_attrs {sm : StyleManager}
    {fonts langs : Option (String × String)} (mr : Elem) :
    (matMathRun sm fonts langs mr).attrs = mr.attrs := by
  cases ht : findByTag mT mr.children with
  | none => rw [matMathRun_no_t ht]
  | some t =>
    by_cases hm : is_meaningful_text (t.text.getD []) = true
    · cases hrp : findByTag wRPr mr.children with
      | some wrpr => rw [matMathRun_found ht hm hrp, Elem.attrs_mk]
      | none =>
        cases hmrp : findByTag mRPr mr.children with
        | some mrp => rw [matMathRun_fresh_after ht hm hrp hmrp, Elem.attrs_mk]
        | none => rw [matMathRun_fresh_front ht hm hrp hmrp, Elem.attrs_mk]
    · rw [matMathRun_not_meaningful ht hm]

theorem matNode_eq_p {sm : StyleManager} {fonts langs : Option (String × String)}
    {a b : Bool} {tag : String} {attrs : List (String × String)} {tx : Option Str}
    {cs : List Elem} (h : tag = wP) :
    matNode sm fonts langs a b (Elem.mk tag attrs tx cs) =
      Elem.mk tag attrs tx (matPKids sm fonts langs
        (getParaRpr sm (Elem.mk tag attrs tx cs)) b cs) := by
  simp only [matNode]
  rw [if_pos h]

theorem matNode_eq_math {sm : StyleManager}
    {fonts langs : Option (String × String)} {a b : Bool} {tag : String}
    {attrs : List (String × String)} {tx : Option Str} {cs : List Elem}
    (h1 : ¬ tag = wP) (h2 : tag = mOMath) :
    matNode sm fonts langs a b (Elem.mk tag attrs tx cs) =
      Elem.mk tag attrs tx (matList sm fonts langs a (b || a) cs) := by
  simp only [matNode]
  rw [if_neg h1, if_pos h2]

theorem matNode_eq_mr {sm : StyleManager}
    {fonts langs : Option (String × String)} {a b : Bool} {tag : String}
    {attrs : List (String × String)} {tx : Option Str} {cs : List Elem}
    (h1 : ¬ tag = wP) (h2 : ¬ tag = mOMath) (h3 : tag = mR ∧ b = true) :
    matNode sm fonts langs a b (Elem.mk tag attrs tx cs) =
      matMathRun sm fonts langs (Elem.mk tag attrs tx cs) := by
  simp only [matNode]
  rw [if_neg h1, if_neg h2, if_pos h3]

theorem matNode_eq_other {sm : StyleManager}
    {fonts langs : Option (String × String)} {a b : Bool} {tag : String}
    {attrs : List (String × String)} {tx : Option Str} {cs : List Elem}
    (h1 : ¬ tag = wP) (h2 : ¬ tag = mOMath) (h3 : ¬ (tag = mR ∧ b = true)) :
    matNode sm fonts langs a b (Elem.mk tag attrs tx cs) =
      Elem.mk tag attrs tx (matList sm fonts langs a b cs) := by
  simp only [matNode]
  rw [if_neg h1, if_neg h2, if_neg h3]

theorem matNode_tag {sm : StyleManager} {fonts langs : Option (String × String)}
    (a b : Bool) (e : Elem) :
    (matNode sm fonts langs a b e).tag = e.tag := by
  cases e with
  | mk tag attrs tx cs =>
    by_cases h1 : tag = wP
    · rw [matNode_eq_p h1, Elem.tag_mk]
      rfl
    · by_cases h2 : tag = mOMath
      · rw [matNode_eq_math h1 h2, Elem.tag_mk]
        rfl
      · by_cases h3 : tag = mR ∧ b = true
        · rw [matNode_eq_mr h1 h2 h3, matMathRun_tag]
        · rw [matNode_eq_other h1 h2 h3, Elem.tag_mk]
          rfl

theorem matNode_attrs {sm : StyleManager}
    {fonts langs : Option (String × String)} (a b : Bool) (e : Elem) :
    (matNode sm fonts langs a b e).attrs = e.attrs := by
  cases e with
  | mk tag attrs tx cs =>
    by_cases h1 : tag = wP
    · rw [matNode_eq_p h1, Elem.attrs_mk]
      rfl
    · by_cases h2 : tag = mOMath
      · rw [matNode_eq_math h1 h2, Elem.attrs_mk]
        rfl
      · by_cases h3 : tag = mR ∧ b = true
        · rw [matNode_eq_mr h1 h2 h3, matMathRun_attrs]
        · rw [matNode_eq_other h1 h2 h3, Elem.attrs_mk]
          rfl

theorem matList_nil {sm : StyleManager} {fonts langs : Option (String × String)}
    {a b : Bool} : matList sm fonts langs a b [] = [] := rfl

theorem matList_cons {sm : StyleManager} {fonts langs : Option (String × String)}
    {a b : Bool} (c : Elem) (cs : List Elem) :
    matList sm fonts langs a b (c :: cs) =
      matNode sm fonts langs a b c :: matList sm fonts langs a b cs := rfl

theorem matPKids_nil {sm : StyleManager} {fonts langs : Option (String × String)}
    {pr : Option Elem} {b : Bool} : matPKids sm fonts langs pr b [] = [] := rfl

theorem matPKids_cons {sm : StyleManager}
    {fonts langs : Option (String × String)} {pr : Option Elem} {b : Bool}
    (c : Elem) (cs : List Elem) :
    matPKids sm fonts langs pr b (c :: cs) =
      (if c.tag = wR then matRun sm fonts langs pr c
       else matNode sm fonts langs true b c) :: matPKids sm fonts langs pr b cs := rfl

theorem findByTag_matList {sm : StyleManager}
    {fonts langs : Option (String × String)} {a b : Bool} (t : String)
    (cs : List Elem) :
    findByTag t (matList sm fonts langs a b cs) =
      Option.map (matNode sm fonts langs a b) (findByTag t cs) := by
  induction cs with
  | nil => rfl
  | cons c cs ih =>
    rw [matList_cons]
    conv_lhs => rw [findByTag]
    conv_rhs => rw [findByTag]
    by_cases hc : c.tag = t
    · rw [if_pos (by rw [matNode_tag]; exact hc), if_pos hc]
      rfl
    · rw [if_neg (by rw [matNode_tag]; exact hc), if_neg hc, ih]

theorem findByTag_matPKids {sm : StyleManager}
    {fonts langs : Option (String × String)} {pr : Option Elem} {b : Bool}
    (t : String) (ht : ¬ t = wR) (cs : List Elem) :
    findByTag t (matPKids sm fonts langs pr b cs) =
      Option.map (matNode sm fonts langs true b) (findByTag t cs) := by
  induction cs with
  | nil => rfl
  | cons c cs ih =>
    rw [matPKids_cons]
    by_cases hcw : c.tag = wR
    · have hcn : ¬ c.tag = t := fun h => ht (h.symm.trans hcw)
      rw [if_pos hcw]
      conv_lhs => rw [findByTag]
      conv_rhs => rw [findByTag]
      rw [if_neg (by rw [matRun_tag]; exact hcn), if_neg hcn, ih]
    · rw [if_neg hcw]
      conv_lhs => rw [findByTag]
      conv_rhs => rw [findByTag]
      by_cases hc : c.tag = t
      · rw [if_pos (by rw [matNode_tag]; exact hc), if_pos hc]
        rfl
      · rw [if_neg (by rw [matNode_tag]; exact hc), if_neg hc, ih]

theorem getAttr_matNode {sm : StyleManager}
    {fonts langs : Option (String × String)} (a b : Bool) (k : String)
    (e : Elem) :
    getAttr k (matNode sm fonts langs a b e) = getAttr k e := by
  unfold getAttr
  rw [matNode_attrs]

/-- The paragraph-style lookup is unchanged by materializing the paragraph's
children: the walk rewrites only run `rPr`s, never tags, attributes or the
`pPr`/`pStyle` skeleton. -/
theorem getParaRpr_stable {sm : StyleManager}
    {fonts langs : Option (String × String)} {pr0 : Option Elem} {b : Bool}
    (tag : String) (attrs : List (String × String)) (tx : Option Str)
    (cs : List Elem) :
    getParaRpr sm (Elem.mk tag attrs tx (matPKids sm fonts langs pr0 b cs)) =
      getParaRpr sm (Elem.mk tag attrs tx cs) := by
  unfold getParaRpr
  simp only [Elem.children_mk]
  rw [findByTag_matPKids wPPr (by decide) cs]
  cases hppr : findByTag wPPr cs with
  | none => rfl
  | some ppr =>
    rw [Option.map_some']
    have hptag : ppr.tag = wPPr := findByTag_tag hppr
    cases ppr with
    | mk ptag pattrs ptx pcs =>
      have hptag' : ptag = wPPr := hptag
      have h1 : ¬ ptag = wP := by rw [hptag']; decide
      have h2 : ¬ ptag = mOMath := by rw [hptag']; decide
      have h3 : ¬ (ptag = mR ∧ b = true) := fun hcon =>
        absurd (hptag'.symm.trans hcon.1) (by decide)
      rw [matNode_eq_other h1 h2 h3]
      simp only [Elem.children_mk]
      rw [findByTag_matList wPStyle pcs]
      cases hpsn : findByTag wPStyle pcs with
      | none => rfl
      | some psn =>
        rw [Option.map_some']
        show (match getAttr wValA (matNode sm fonts langs true b psn) with
          | none => none
          | some sid => if sid.isEmpty = true then none
            else sm.get_style_rpr sid) =
          (match getAttr wValA psn with
          | none => none
          | some sid => if sid.isEmpty = true then none
            else sm.get_style_rpr sid)
        rw [getAttr_matNode]

theorem matList_idem_of {sm : StyleManager}
    (fonts langs : Option (String × String)) {a b : Bool} {cs : List Elem}
    (hrec : ∀ c ∈ cs, ∀ a' b' : Bool,
      matNode sm fonts langs a' b' (matNode sm fonts langs a' b' c) =
        matNode sm fonts langs a' b' c) :
    matList sm fonts langs a b (matList sm fonts langs a b cs) =
      matList sm fonts langs a b cs := by
  induction cs with
  | nil => rfl
  | cons c cs ih =>
    conv_lhs => rw [matList_cons, matList_cons]
    conv_rhs => rw [matList_cons]
    rw [hrec c (List.mem_cons_self _ _) a b,
      ih (fun d hd => hrec d (List.mem_cons_of_mem _ hd))]

theorem matPKids_idem_of {sm : StyleManager} (hfree : stylesRStyleFree sm)
    (fonts langs : Option (String × String)) {pr : Option Elem}
    (hpr : goodRprOpt pr) {b : Bool} {cs : List Elem}
    (hrec : ∀ c ∈ cs, ∀ a' b' : Bool,
      matNode sm fonts langs a' b' (matNode sm fonts langs a' b' c) =
        matNode sm fonts langs a' b' c) :
    matPKids sm fonts langs pr b (matPKids sm fonts langs pr b cs) =
      matPKids sm fonts langs pr b cs := by
  induction cs with
  | nil => rfl
  | cons c cs ih =>
    conv_lhs => rw [matPKids_cons, matPKids_cons]
    conv_rhs => rw [matPKids_cons]
    congr 1
    · by_cases hcw : c.tag = wR
      · rw [if_pos hcw]
        have htag : (matRun sm fonts langs pr c).tag = wR := by
          rw [matRun_tag]; exact hcw
        rw [if_pos htag]
        exact matRun_idem hfree fonts langs hpr c
      · rw [if_neg hcw]
        have htag : ¬ (matNode sm fonts langs true b c).tag = wR := by
          rw [matNode_tag]; exact hcw
        rw [if_neg htag]
        exact hrec c (List.mem_cons_self _ _) true b
    · exact ih (fun d hd => hrec d (List.mem_cons_of_mem _ hd))

/-- The walk is idempotent on every node, under `stylesRStyleFree`. -/
theorem matNode_idem {sm : StyleManager} (hfree : stylesRStyleFree sm)
    (fonts langs : Option (String × String)) :
    ∀ (e : Elem) (a b : Bool),
      matNode sm fonts langs a b (matNode sm fonts langs a b e) =
        matNode sm fonts langs a b e := by
  refine @Elem.strongInduction _ ?_
  intro e ih a b
  cases e with
  | mk tag attrs tx cs =>
    by_cases h1 : tag = wP
    · rw [matNode_eq_p h1, matNode_eq_p h1, getParaRpr_stable]
      exact congrArg (Elem.mk tag attrs tx)
        (matPKids_idem_of hfree fonts langs (getParaRpr_good hfree _)
          (fun c hc a' b' => ih c (Elem.size_lt_of_mem hc) a' b'))
    · by_cases h2 : tag = mOMath
      · rw [matNode_eq_math h1 h2, matNode_eq_math h1 h2]
        exact congrArg (Elem.mk tag attrs tx)
          (matList_idem_of fonts langs
            (fun c hc a' b' => ih c (Elem.size_lt_of_mem hc) a' b'))
      · by_cases h3 : tag = mR ∧ b = true
        · rw [matNode_eq_mr h1 h2 h3]
          cases hmm : matMathRun sm fonts langs (Elem.mk tag attrs tx cs) with
          | mk t1 a1 x1 c1 =>
            have ht1 : t1 = tag := by
              have h := @matMathRun_tag sm fonts langs (Elem.mk tag attrs tx cs)
              rw [hmm] at h
              exact h
            rw [matNode_eq_mr (by rw [ht1]; exact h1) (by rw [ht1]; exact h2)
              ⟨by rw [ht1]; exact h3.1, h3.2⟩, ← hmm]
            exact matMathRun_idem hfree fonts langs _
        · rw [matNode_eq_other h1 h2 h3, matNode_eq_other h1 h2 h3]
          exact congrArg (Elem.mk tag attrs tx)
            (matList_idem_of fonts langs
              (fun c hc a' b' => ih c (Elem.size_lt_of_mem hc) a' b'))

/-- C9 counterexample: with style `X` = `[w:rStyle val=B]` and `B` = `[w:b]`,
pass one leaves the run's rPr as `[w:rStyle val=B]` (the style's own
reference survives the merge), and pass two resolves that reference to
`[w:b]` — the two passes differ, refuting unconditional idempotence. -/
theorem c9_counterexample :
    materialize_styles_from_style_defs (some c9SM) none none
        (materialize_styles_from_style_defs (some c9SM) none none c9Root) ≠
      materialize_styles_from_style_defs (some c9SM) none none c9Root := by
  intro h
  have h2 := congrArg c9Probe h
  exact absurd h2 (by decide)

/-- Claim C9 (amended): for every document root, font/language options and
style table none of whose styles declares a `w:rStyle` inside its own run
properties, running `materialize_styles_from_style_defs` twice leaves every
run with the same literal run properties as running it once: the pass
deletes each run's style reference, the re-merge is absorbed by the already
materialized properties, and the font/language forcing is idempotent. -/
theorem c9_materialize_idempotent_amended (sm : StyleManager)
    (fonts langs : Option (String × String)) (root : Elem)
    (hfree : stylesRStyleFree sm) :
    materialize_styles_from_style_defs (some sm) fonts langs
        (materialize_styles_from_style_defs (some sm) fonts langs root) =
      materialize_styles_from_style_defs (some sm) fonts langs root :=
  matNode_idem hfree fonts langs root false false

/-- C9 witness: a styled paragraph (inheriting paragraph style, run style,
direct properties, math run, font and language forcing) on a table without
style-rPr `w:rStyle` references is a fixed point after one pass. -/
theorem c9_witness :
    stylesRStyleFree c9WSM ∧
    materialize_styles_from_style_defs (some c9WSM)
        (some ("Times", "SimSun")) (some ("en-US", "zh-CN"))
        (materialize_styles_from_style_defs (some c9WSM)
          (some ("Times", "SimSun")) (some ("en-US", "zh-CN")) c9WDoc) =
      materialize_styles_from_style_defs (some c9WSM)
        (some ("Times", "SimSun")) (some ("en-US", "zh-CN")) c9WDoc :=
  ⟨by decide, c9_materialize_idempotent_amended c9WSM
    (some ("Times", "SimSun")) (some ("en-US", "zh-CN")) c9WDoc (by decide)⟩

end DocxSpec
